import Mathlib

/-!
# Verification of the `regex-dfa` compilation core

A shallow embedding of `src/nfa.rs` and `src/threaded.rs` of the
`regex-dfa` crate, together with proofs about the embedded operations.

The structural container types (`CharRange`, `CharMap`, `CharMultiMap`,
`StateSet`, `Predicate`, `Accept`, `DfaAccept`, `Dfa`) live in files of the
repository that are not part of the sources under verification
(`char_map.rs`, `transition.rs`, `dfa.rs`); the specification treats them as
external collaborators whose interfaces only are assumed.  They are modelled
here from the specification's description of those interfaces.  Everything
in `nfa.rs` and `threaded.rs` is translated directly from the source.

`usize` arithmetic is modelled as `Nat` with explicit wrapping modulo `2^64`
at the one place where an overflow can actually occur
(`Nfa.add_init_state`).
-/

/-- The modulus of `usize` arithmetic (64-bit platform). -/
def USIZE_MOD : Nat := 2 ^ 64

/-- Modelled from the spec: `CharRange` from `char_map.rs`, an inclusive
range of code points (during byte lowering it is reused for byte values). -/
structure CharRange where
  start : Nat
  end_ : Nat
deriving DecidableEq, Repr

namespace CharRange

/-- Modelled from the spec: construct a range. -/
def new (s e : Nat) : CharRange := ⟨s, e⟩

/-- Modelled from the spec: the one-element range. -/
def single (c : Nat) : CharRange := ⟨c, c⟩

/-- Modelled from the spec: the full range of code points. -/
def full : CharRange := ⟨0, 0x10FFFF⟩

/-- Modelled from the spec: a range is empty when `start > end`. -/
def is_empty (r : CharRange) : Bool := r.end_ < r.start

/-- Modelled from the spec: "filter code-point ranges to those that map to
at least one code point" — the non-empty ranges, as a pair of endpoints. -/
def to_char_pair (r : CharRange) : Option (Nat × Nat) :=
  if r.start ≤ r.end_ then some (r.start, r.end_) else none

/-- Modelled from the spec: intersection of two inclusive ranges. -/
def intersection (r s : CharRange) : CharRange :=
  ⟨max r.start s.start, min r.end_ s.end_⟩

end CharRange

/-- Modelled from the spec: a set of code-point ranges (`CharSet`). -/
abbrev CharSet := List CharRange

/-- Modelled from the spec: a sorted map keyed by code-point ranges. -/
abbrev CharMap (α : Type) := List (CharRange × α)

/-- Modelled from the spec: a multi-valued mapping from code-point ranges. -/
abbrev CharMultiMap (α : Type) := List (CharRange × α)

/-- Modelled from the spec: an ordered set of state indices. -/
abbrev StateSet := List Nat

namespace CharSet

/-- Modelled from the spec: membership of a code point in a `CharSet`. -/
def containsChar (s : CharSet) (c : Nat) : Bool :=
  (s : List CharRange).any (fun r => r.start ≤ c && c ≤ r.end_)

/-- Modelled from the spec: a `CharSet` with no code point. -/
def is_empty (s : CharSet) : Bool :=
  (s : List CharRange).all (fun r => r.is_empty)

/-- Modelled from the spec: intersection of two `CharSet`s, range by range,
dropping empty pieces. -/
def intersection (s t : CharSet) : CharSet :=
  ((s : List CharRange).flatMap (fun r =>
    (t : List CharRange).map (fun q => r.intersection q))).filter
      (fun r => !r.is_empty)

end CharSet

namespace StateSet

/-- Modelled from the spec: `StateSet::new`. -/
def new : StateSet := ([] : List Nat)

/-- Modelled from the spec: membership test. -/
def contains (s : StateSet) (x : Nat) : Bool := List.contains (s : List Nat) x

/-- Modelled from the spec: two `StateSet`s with no common element. -/
def is_disjoint (s t : StateSet) : Bool :=
  List.all (s : List Nat) (fun x => !List.contains (t : List Nat) x)

end StateSet

/-- Modelled from the spec: `Accept` from `transition.rs`.  Acceptance is at
end-of-input if `at_eoi`, or upon seeing the next character falling in
`at_char`. -/
structure Accept where
  at_eoi : Bool
  at_char : CharSet
deriving DecidableEq, Repr

namespace Accept

/-- Modelled from the spec: *never* is `(false, empty)`. -/
def never : Accept := ⟨false, ([] : List CharRange)⟩

/-- Modelled from the spec: *always* is `(true, full)`. -/
def always : Accept := ⟨true, ([CharRange.full] : List CharRange)⟩

/-- Modelled from the spec: whether this profile never accepts. -/
def is_never (a : Accept) : Bool := !a.at_eoi && a.at_char.is_empty

end Accept

/-- Modelled from the spec: `DfaAccept` from `dfa.rs`: the byte-level accept
profile `(at_eoi, otherwise, bytes_behind)`. -/
structure DfaAccept where
  at_eoi : Bool
  otherwise : Bool
  bytes_behind : Nat
deriving DecidableEq, Repr

namespace DfaAccept

/-- Modelled from the spec: the profile that never accepts. -/
def never : DfaAccept := ⟨false, false, 0⟩

/-- Modelled from the spec: accept unconditionally, reporting the match end
`n` bytes back from the current position. -/
def accept (n : Nat) : DfaAccept := ⟨true, true, n⟩

end DfaAccept

/-- Modelled from the spec: one side of a `Predicate` — a constraint on the
neighbouring character (`chars`) that may also be satisfied by the
start/end of input (`at_boundary`). -/
structure PredicatePart where
  chars : CharSet
  at_boundary : Bool
deriving DecidableEq, Repr

/-- Modelled from the spec: a zero-width predicate, a pair of
predicate-parts (look-behind `behind` = `.0`, look-ahead `ahead` = `.1`). -/
structure Predicate where
  behind : PredicatePart
  ahead : PredicatePart
deriving DecidableEq, Repr

namespace PredicatePart

/-- Modelled from the spec: a part is satisfiable if the boundary satisfies
it or some character does. -/
def satisfiable (p : PredicatePart) : Bool :=
  p.at_boundary || !p.chars.is_empty

/-- Modelled from the spec: part-wise intersection. -/
def intersection (p q : PredicatePart) : PredicatePart :=
  ⟨p.chars.intersection q.chars, p.at_boundary && q.at_boundary⟩

end PredicatePart

namespace Predicate

/-- Modelled from the spec: `p ∩ q` when it "exists" (is satisfiable). -/
def intersect (p q : Predicate) : Option Predicate :=
  let r : Predicate := ⟨p.behind.intersection q.behind, p.ahead.intersection q.ahead⟩
  if r.behind.satisfiable && r.ahead.satisfiable then some r else none

/-- Modelled from the spec: restrict an accept profile through the
look-ahead side of the predicate. -/
def filter_accept (p : Predicate) (a : Accept) : Accept :=
  ⟨a.at_eoi && p.ahead.at_boundary, p.ahead.chars.intersection a.at_char⟩

end Predicate

/-! ## List helpers used to model `Vec::sort` and friends -/

/-- Insert into an ascending list (used to model in-place `sort`). -/
def insertAsc (x : Nat) : List Nat → List Nat
  | [] => [x]
  | y :: ys => if x ≤ y then x :: y :: ys else y :: insertAsc x ys

/-- Ascending insertion sort for `Vec<usize>::sort`. -/
def sortAsc (l : List Nat) : List Nat := l.foldr insertAsc []

/-- Stable insertion by a `Nat` key (used to model `sort_by`). -/
def insertByKey {α : Type} (key : α → Nat) (x : α) : List α → List α
  | [] => [x]
  | y :: ys => if key x ≤ key y then x :: y :: ys else y :: insertByKey key x ys

/-- Stable insertion sort by a `Nat` key (models `Vec::sort_by` with `cmp`
on that key; Rust's `sort_by` is stable). -/
def sortByKey {α : Type} (key : α → Nat) (l : List α) : List α :=
  l.foldr (insertByKey key) []

/-- Deduplicate preserving first occurrences. -/
def dedupFirst {α : Type} [DecidableEq α] : List α → List α
  | [] => []
  | x :: xs => x :: (dedupFirst xs).filter (fun y => y ≠ x)

namespace CharMultiMap

/-- Modelled from the spec: the empty multi-map. -/
def new {α : Type} : CharMultiMap α := ([] : List (CharRange × α))

/-- Modelled from the spec: `push` appends an entry. -/
def push {α : Type} (m : CharMultiMap α) (r : CharRange) (v : α) : CharMultiMap α :=
  (m : List (CharRange × α)) ++ [(r, v)]

/-- Modelled from the spec: view as a vector of entries. -/
def into_vec {α : Type} (m : CharMultiMap α) : List (CharRange × α) := m

/-- Modelled from the spec: build from a vector of entries. -/
def from_vec {α : Type} (l : List (CharRange × α)) : CharMultiMap α := l

/-- Modelled from the spec: keep only entries whose value satisfies `f`. -/
def filter_values {α : Type} (m : CharMultiMap α) (f : α → Bool) : CharMultiMap α :=
  (m : List (CharRange × α)).filter (fun e => f e.2)

/-- Modelled from the spec: restrict every range to a `CharSet`, dropping
entries that become empty. -/
def intersect {α : Type} (m : CharMultiMap α) (cs : CharSet) : CharMultiMap α :=
  (m : List (CharRange × α)).flatMap (fun e =>
    ((cs : List CharRange).map (fun q => e.1.intersection q))
      |>.filter (fun r => !r.is_empty)
      |>.map (fun r => (r, e.2)))

/-- Modelled from the spec: group a multi-map of states into a map from
ranges to state sets. -/
def group (m : CharMultiMap Nat) : CharMap StateSet :=
  (dedupFirst ((m : List (CharRange × Nat)).map (·.1))).map (fun r =>
    (r, sortAsc (dedupFirst (((m : List (CharRange × Nat)).filter
      (fun e => e.1 = r)).map (·.2)))))

end CharMultiMap

namespace CharMap

/-- Modelled from the spec: the empty map. -/
def new {α : Type} : CharMap α := ([] : List (CharRange × α))

/-- Modelled from the spec: `push` appends an entry. -/
def push {α : Type} (m : CharMap α) (r : CharRange) (v : α) : CharMap α :=
  (m : List (CharRange × α)) ++ [(r, v)]

/-- Modelled from the spec: emptiness of the map. -/
def is_empty {α : Type} (m : CharMap α) : Bool :=
  (m : List (CharRange × α)).isEmpty

/-- Modelled from the spec: build from a vector of entries. -/
def from_vec {α : Type} (l : List (CharRange × α)) : CharMap α := l

/-- Modelled from the spec: apply a function to every value in place. -/
def map_values {α : Type} (m : CharMap α) (f : α → α) : CharMap α :=
  (m : List (CharRange × α)).map (fun e => (e.1, f e.2))

end CharMap

/-! ## `NfaState` and `Nfa` (translated from `src/nfa.rs`) -/

/-- Modelled from the spec: `NfaTransitions` from `transition.rs` — the
outgoing edges of one NFA state. -/
structure NfaTransitions where
  consuming : CharMultiMap Nat
  eps : List Nat
  predicates : List (Predicate × Nat)
deriving DecidableEq

namespace NfaTransitions

/-- Modelled from the spec: no transitions. -/
def new : NfaTransitions := ⟨CharMultiMap.new, [], []⟩

/-- Modelled from the spec: rewrite every target state through a partial
index map, dropping edges whose target is not mapped. -/
def filter_map_targets (t : NfaTransitions) (f : Nat → Option Nat) : NfaTransitions where
  consuming := (t.consuming : List (CharRange × Nat)).filterMap
    (fun e => (f e.2).map (fun y => (e.1, y)))
  eps := t.eps.filterMap f
  predicates := t.predicates.filterMap (fun e => (f e.2).map (fun y => (e.1, y)))

end NfaTransitions

/-- `NfaState` from `src/nfa.rs`. -/
structure NfaState where
  transitions : NfaTransitions
  /-- Before calling `byte_me()`, this determines whether we accept or not. -/
  accept : Accept
  /-- After calling `byte_me()`, this determines whether we accept or not. -/
  dfa_accept : DfaAccept
deriving DecidableEq

/-- `NfaState::new` from `src/nfa.rs`. -/
def NfaState.new (accept : Accept) : NfaState :=
  ⟨NfaTransitions.new, accept, DfaAccept.never⟩

/-- `Nfa` from `src/nfa.rs`. -/
structure Nfa where
  states : List NfaState
  init : StateSet
  init_at_start : StateSet
  init_after_char : CharMap StateSet
deriving DecidableEq

namespace Nfa

/-- `Nfa::with_capacity` (capacity has no observable effect). -/
def with_capacity (_n : Nat) : Nfa :=
  ⟨[], StateSet.new, StateSet.new, CharMap.new⟩

/-- `Nfa::new`. -/
def new : Nfa := with_capacity 0

/-- `Nfa::add_init_state`.  The source's guard is
`st > self.states.len() - 1` on `usize`; the subtraction wraps modulo
`2^64` when `states` is empty (release semantics), so the guard is modelled
with explicit wrapping.  `none` models the `panic!`. -/
def add_init_state (nfa : Nfa) (st : Nat) : Option Nfa :=
  if st > (nfa.states.length + (USIZE_MOD - 1)) % USIZE_MOD then
    none
  else
    some { nfa with init := sortAsc ((nfa.init : List Nat) ++ [st]) }

/-- `Nfa::add_init_at_start_state` (same wrapping guard as above). -/
def add_init_at_start_state (nfa : Nfa) (st : Nat) : Option Nfa :=
  if st > (nfa.states.length + (USIZE_MOD - 1)) % USIZE_MOD then
    none
  else
    some { nfa with init_at_start := sortAsc ((nfa.init_at_start : List Nat) ++ [st]) }

/-- `Nfa::add_transition`.  The source indexes `states[from]` (panicking on
out-of-range); the embedding is total via `List.modify`, which callers only
use within the in-range invariant. -/
def add_transition (nfa : Nfa) (from_ : Nat) (to_ : Nat) (r : CharRange) : Nfa :=
  { nfa with states := nfa.states.modify (fun st =>
      { st with transitions :=
        { st.transitions with consuming := st.transitions.consuming.push r to_ } }) from_ }

/-- `Nfa::add_state`. -/
def add_state (nfa : Nfa) (accept : Accept) : Nfa :=
  { nfa with states := nfa.states ++ [NfaState.new accept] }

/-- `Nfa::add_eps`. -/
def add_eps (nfa : Nfa) (from_ : Nat) (to_ : Nat) : Nfa :=
  { nfa with states := nfa.states.modify (fun st =>
      { st with transitions :=
        { st.transitions with eps := st.transitions.eps ++ [to_] } }) from_ }

/-- `Nfa::add_predicate`. -/
def add_predicate (nfa : Nfa) (from_ : Nat) (to_ : Nat) (pred : Predicate) : Nfa :=
  { nfa with states := nfa.states.modify (fun st =>
      { st with transitions :=
        { st.transitions with predicates := st.transitions.predicates ++ [(pred, to_)] } }) from_ }

/-- `Nfa::num_states`. -/
def num_states (nfa : Nfa) : Nat := nfa.states.length

/-- `Nfa::set_byte_accept`. -/
def set_byte_accept (nfa : Nfa) (st : Nat) (accept : DfaAccept) : Nfa :=
  { nfa with states := nfa.states.modify (fun s => { s with dfa_accept := accept }) st }

end Nfa

/-! ## Threaded execution engine (translated from `src/threaded.rs`) -/

/-- `Thread` from `src/threaded.rs`. -/
structure Thread where
  state : Nat
  start_idx : Nat
deriving DecidableEq, Repr

/-- `Threads` from `src/threaded.rs`: a thread vector plus the per-state
byte map used for deduplication. -/
structure Threads where
  threads : List Thread
  states : List Nat
deriving DecidableEq, Repr

namespace Threads

/-- `Threads::with_capacity`. -/
def with_capacity (n : Nat) : Threads :=
  ⟨[], List.replicate n 0⟩

/-- `Threads::add`.  The source indexes `self.states[state]`; an index out
of range panics, which callers avoid by sizing the map to the program. -/
def add (t : Threads) (state : Nat) (start_idx : Nat) : Threads :=
  if t.states.getD state 1 = 0 then
    { t with states := t.states.set state 1,
             threads := t.threads ++ [⟨state, start_idx⟩] }
  else
    t

/-- `Threads::starts_after`. -/
def starts_after (t : Threads) (start_idx : Nat) : Bool :=
  t.threads.isEmpty || start_idx ≤ (t.threads.headD ⟨0, 0⟩).start_idx

end Threads

/-- `ProgThreads` from `src/threaded.rs`. -/
structure ProgThreads where
  cur : Threads
  next : Threads
deriving DecidableEq, Repr

namespace ProgThreads

/-- `ProgThreads::with_capacity`. -/
def with_capacity (n : Nat) : ProgThreads :=
  ⟨Threads.with_capacity n, Threads.with_capacity n⟩

/-- `ProgThreads::swap`. -/
def swap (p : ProgThreads) : ProgThreads :=
  ⟨p.next, { p.cur with threads := [] }⟩

/-- `ProgThreads::clear`. -/
def clear (p : ProgThreads) : ProgThreads :=
  ⟨⟨[], p.cur.states.map (fun _ => 0)⟩, ⟨[], p.next.states.map (fun _ => 0)⟩⟩

end ProgThreads

/-- The compiled program as the engine sees it (an external collaborator of
`threaded.rs`): `step` and `check_eoi` on program states. -/
structure Program where
  numInsts : Nat
  step : Nat → Char → Option Nat × Bool × Bool
  check_eoi : Nat → Bool

/-- The `Skipper` contract from the spec:
`skip(text, from, last_char) → Option (match_start, resume_pos, init_state)`. -/
structure Skipper where
  skip : String → Nat → Option Char → Option (Nat × Nat × Nat)

/-- The `Initter` contract from `src/threaded.rs`. -/
structure Initter where
  init_state : Option Char → Option Nat

/-- `ThreadedEngine::advance_thread`.  The thread at index `i` of `cur` is
stepped on `ch`; `end` is the current byte position.  Returns the updated
thread lists and remembered match.  (`step(...).unwrap()` on the retry path
is modelled with `getD 0`; per the source comment, a retry never follows a
`None` state.) -/
def advance_thread (prog : Program) (threads : ProgThreads)
    (acc : Option (Nat × Nat)) (i : Nat) (ch : Char) (end_ : Nat) :
    ProgThreads × Option (Nat × Nat) :=
  let th := threads.cur.threads.getD i ⟨0, 0⟩
  let threads1 : ProgThreads :=
    { threads with cur := { threads.cur with states := threads.cur.states.set th.state 0 } }
  match prog.step th.state ch with
  | (next_state, accept, retry) =>
    let acc1 := if accept && (match acc with
                  | none => true
                  | some a => decide (th.start_idx < a.1)) then
        some (th.start_idx, end_)
      else acc
    let next_state1 := if retry then (prog.step (next_state.getD 0) ch).1 else next_state
    match next_state1 with
    | some ns => ({ threads1 with next := threads1.next.add ns th.start_idx }, acc1)
    | none => (threads1, acc1)

/-- The `for i in 0..threads.cur.threads.len()` loop of `shortest_match_`:
advance every thread of `cur` on `ch` at position `pos`. -/
def advanceAll (prog : Program) (threads : ProgThreads) (acc : Option (Nat × Nat))
    (ch : Char) (pos : Nat) : ProgThreads × Option (Nat × Nat) :=
  (List.range threads.cur.threads.length).foldl
    (fun p i => advance_thread prog p.1 p.2 i ch pos) (threads, acc)

/-- The `while pos < s.len()` loop of `ThreadedEngine::shortest_match_`,
with explicit fuel; `none` means the fuel ran out before the loop finished
(the Rust loop has no intrinsic bound because the skipper is external). -/
def smLoop (prog : Program) (skip : Skipper) (init : Initter) (s : String) :
    Nat → ProgThreads → Option (Nat × Nat) → Nat → Option (Option (Nat × Nat))
  | 0, _, _, _ => none
  | fuel + 1, threads, acc, pos =>
    if pos < s.utf8ByteSize then
      let ch := s.get ⟨pos⟩
      let adv := advanceAll prog threads acc ch pos
      let acc := adv.2
      let threads := adv.1.swap
      -- If one of our threads accepted and it started sooner than any of
      -- our active threads, we can stop early.
      if acc.isSome && threads.cur.starts_after ((acc.getD (0, 0)).1) then
        some acc
      else
        let pos := pos + ch.utf8Size
        if threads.cur.threads.isEmpty then
          match skip.skip s pos (some ch) with
          | some (next_start_pos, next_pos, state) =>
            smLoop prog skip init s fuel
              { threads with cur := threads.cur.add state next_start_pos } acc next_pos
          | none => some none
        else
          match init.init_state (some ch) with
          | some state =>
            smLoop prog skip init s fuel
              { threads with cur := threads.cur.add state pos } acc pos
          | none => smLoop prog skip init s fuel threads acc pos
    else
      some (match threads.cur.threads.find? (fun th => prog.check_eoi th.state) with
            | some th => some (th.start_idx, s.utf8ByteSize)
            | none => none)

/-- `ThreadedEngine::shortest_match_` (with explicit loop fuel). -/
def shortest_match_ (prog : Program) (threads0 : ProgThreads) (s : String)
    (skip : Skipper) (init : Initter) (fuel : Nat) : Option (Option (Nat × Nat)) :=
  match skip.skip s 0 none with
  | none => some none
  | some (first_start_pos, pos, start_state) =>
    let threads := threads0.clear
    let threads : ProgThreads :=
      { threads with cur := { threads.cur with
          threads := threads.cur.threads ++ [⟨start_state, first_start_pos⟩] } }
    smLoop prog skip init s fuel threads none pos

/-! ## Further modelled container operations -/

instance : Inhabited NfaState := ⟨NfaState.new Accept.never⟩

instance : Inhabited Thread := ⟨⟨0, 0⟩⟩

/-- `error::Error` (from `error.rs`, modelled from the spec): the one
compile-stage error kind. -/
inductive Error where
  | TooManyStates
deriving DecidableEq, Repr

namespace StateSet

/-- Modelled from the spec: append the elements of another set. -/
def extend (s t : StateSet) : StateSet := (s : List Nat) ++ (t : List Nat)

/-- Modelled from the spec: intersection of two sorted sets, keeping the
order of the first. -/
def intersect_with (s t : StateSet) : StateSet :=
  (s : List Nat).filter (fun x => List.contains (t : List Nat) x)

end StateSet

/-- Group a list into maximal runs of consecutive elements sharing a key
(models itertools' `group_by` / `group_by_lazy`). -/
def groupByKey {α β : Type} [DecidableEq β] (key : α → β) (l : List α) : List (List α) :=
  l.foldr (fun x gs =>
    match gs with
    | [] => [[x]]
    | g :: rest =>
      match g with
      | [] => [x] :: rest
      | y :: _ => if key x = key y then (x :: g) :: rest else [x] :: g :: rest) []

/-- Merge step: absorb every range that overlaps or touches the current
one, emitting maximal ranges (helper for the semantic
`CharSet::is_full`; the input is sorted ascending by `start`). -/
def mergeRangesGo (r : CharRange) : List CharRange → List CharRange
  | [] => [r]
  | q :: rest =>
    if q.start ≤ r.end_ + 1 then mergeRangesGo ⟨r.start, max r.end_ q.end_⟩ rest
    else r :: mergeRangesGo q rest

/-- Merge an ascending (by `start`) list of ranges into maximal disjoint
ranges (helper for the semantic `CharSet::is_full`). -/
def mergeRanges : List CharRange → List CharRange
  | [] => []
  | r :: rest => mergeRangesGo r rest

namespace CharSet

/-- Modelled from the spec: normalise a `CharSet` to sorted maximal
disjoint ranges. -/
def normalize (s : CharSet) : List CharRange :=
  mergeRanges (sortByKey (·.start) ((s : List CharRange).filter (fun r => !r.is_empty)))

/-- Modelled from the spec: does the set contain every code point? -/
def is_full (s : CharSet) : Bool :=
  match s.normalize with
  | [r] => r.start = 0 && 0x10FFFF ≤ r.end_
  | _ => false

/-- Modelled from the spec: set union (the underlying ranges side by side). -/
def union (s t : CharSet) : CharSet := (s : List CharRange) ++ (t : List CharRange)

end CharSet

namespace Accept

/-- Modelled from the spec: does this profile accept unconditionally? -/
def is_always (a : Accept) : Bool := a.at_eoi && a.at_char.is_full

/-- Modelled from the spec: union of two accept profiles. -/
def union (a b : Accept) : Accept := ⟨a.at_eoi || b.at_eoi, a.at_char.union b.at_char⟩

end Accept

/-- Modelled from the spec: `DfaAccept::union_shortest` — combine two
byte-level accept profiles, preferring the shorter reported match (the
larger rewind). -/
def DfaAccept.union_shortest (a b : DfaAccept) : DfaAccept :=
  ⟨a.at_eoi || b.at_eoi, a.otherwise || b.otherwise,
   if a.otherwise || a.at_eoi then
     if b.otherwise || b.at_eoi then max a.bytes_behind b.bytes_behind
     else a.bytes_behind
   else b.bytes_behind⟩

/-! ## UTF-8 sequences (modelled from the external `utf8_ranges` crate) -/

/-- A range of byte values within one position of a UTF-8 sequence. -/
structure Utf8Range where
  start : Nat
  end_ : Nat
deriving DecidableEq, Repr

/-- A `Utf8Sequence`, viewed through `as_slice()`: 1–4 byte ranges. -/
abbrev Utf8Sequence := List Utf8Range

/-- The UTF-8 encoding of a scalar value, as a byte list. -/
def utf8Encode (c : Nat) : List Nat :=
  if c < 0x80 then [c]
  else if c < 0x800 then [0xC0 + c / 64, 0x80 + c % 64]
  else if c < 0x10000 then [0xE0 + c / 4096, 0x80 + (c / 64) % 64, 0x80 + c % 64]
  else [0xF0 + c / 262144, 0x80 + (c / 4096) % 64, 0x80 + (c / 64) % 64, 0x80 + c % 64]

/-- `Utf8Sequence::from_encoded_range`: pair up the encodings of the two
endpoints position by position. -/
def fromEncodedRange (lo hi : List Nat) : Utf8Sequence :=
  (lo.zip hi).map (fun p => ⟨p.1, p.2⟩)

/-- The `'INNER` loop of `Utf8Sequences::next`: transform one scalar range,
possibly pushing remainders on the stack, until it either yields a
UTF-8 sequence or is discarded as invalid (surrogate-only). -/
def utf8Inner : Nat → Nat → Nat → List (Nat × Nat) → Option Utf8Sequence × List (Nat × Nat)
  | 0, _, _, stack => (none, stack)
  | f + 1, lo, hi, stack =>
    if lo < 0xE000 && hi > 0xD7FF then
      -- split around the surrogate gap
      utf8Inner f lo 0xD7FF ((0xE000, hi) :: stack)
    else if hi < lo then
      (none, stack)
    else if lo ≤ 0x7F && 0x7F < hi then
      utf8Inner f lo 0x7F ((0x80, hi) :: stack)
    else if lo ≤ 0x7FF && 0x7FF < hi then
      utf8Inner f lo 0x7FF ((0x800, hi) :: stack)
    else if lo ≤ 0xFFFF && 0xFFFF < hi then
      utf8Inner f lo 0xFFFF ((0x10000, hi) :: stack)
    else if hi ≤ 0x7F then
      (some [⟨lo, hi⟩], stack)
    else if lo / 64 ≠ hi / 64 && lo % 64 ≠ 0 then
      utf8Inner f lo (lo - lo % 64 + 63) ((lo - lo % 64 + 64, hi) :: stack)
    else if lo / 64 ≠ hi / 64 && hi % 64 ≠ 63 then
      utf8Inner f lo (hi - hi % 64 - 1) ((hi - hi % 64, hi) :: stack)
    else if lo / 4096 ≠ hi / 4096 && lo % 4096 ≠ 0 then
      utf8Inner f lo (lo - lo % 4096 + 4095) ((lo - lo % 4096 + 4096, hi) :: stack)
    else if lo / 4096 ≠ hi / 4096 && hi % 4096 ≠ 4095 then
      utf8Inner f lo (hi - hi % 4096 - 1) ((hi - hi % 4096, hi) :: stack)
    else if lo / 262144 ≠ hi / 262144 && lo % 262144 ≠ 0 then
      utf8Inner f lo (lo - lo % 262144 + 262143) ((lo - lo % 262144 + 262144, hi) :: stack)
    else if lo / 262144 ≠ hi / 262144 && hi % 262144 ≠ 262143 then
      utf8Inner f lo (hi - hi % 262144 - 1) ((hi - hi % 262144, hi) :: stack)
    else
      (some (fromEncodedRange (utf8Encode lo) (utf8Encode hi)), stack)

/-- The outer loop of the `Utf8Sequences` iterator, drained to a list. -/
def utf8SeqsAux (fuelI : Nat) : Nat → List (Nat × Nat) → List Utf8Sequence
  | 0, _ => []
  | _ + 1, [] => []
  | fuel + 1, (lo, hi) :: stack =>
    match utf8Inner fuelI lo hi stack with
    | (none, stack1) => utf8SeqsAux fuelI fuel stack1
    | (some seq, stack1) => seq :: utf8SeqsAux fuelI fuel stack1

/-- `Utf8Sequences::new(start, end)`, drained to a list (the fuel values
are generous upper bounds on the iterator's work). -/
def Utf8Sequences.new (start end_ : Nat) : List Utf8Sequence :=
  utf8SeqsAux 64 1024 [(start, end_)]

/-- `MergedUtf8Sequences` from `src/nfa.rs`. -/
structure MergedUtf8Sequences where
  head : List Utf8Range
  last_byte : List Utf8Range
deriving DecidableEq, Repr

namespace MergedUtf8Sequences

/-- `MergedUtf8Sequences::merge`.  The source panics when the input
sequences disagree on their leading byte ranges; `merge_all` only ever
calls it on groups with identical heads, and the embedding simply keeps
the first head. -/
def merge (seqs : List Utf8Sequence) : MergedUtf8Sequences :=
  seqs.foldl (fun m seq =>
    let h := seq.dropLast
    let m := if m.head.isEmpty then { m with head := m.head ++ h } else m
    { m with last_byte := m.last_byte ++ [seq.getLastD ⟨0, 0⟩] })
    ⟨[], []⟩

/-- `MergedUtf8Sequences::merge_all`: group consecutive sequences sharing
a head and merge each group. -/
def merge_all (seqs : List Utf8Sequence) : List MergedUtf8Sequences :=
  (groupByKey (fun u => u.dropLast) seqs).map merge

end MergedUtf8Sequences

/-! ## Byte lowering (translated from `src/nfa.rs`) -/

namespace Nfa

/-- One step of the `for range in &seq.head` loop of
`Nfa::add_utf8_sequence`: allocate the next chain state and link it. -/
def addUtf8HeadStep (p : Nfa × Nat) (range : Utf8Range) : Nfa × Nat :=
  let nfa := p.1.add_state Accept.never
  let cur_state := nfa.states.length - 1
  let r := CharRange.new range.start range.end_
  (nfa.add_transition p.2 cur_state r, cur_state)

/-- `Nfa::add_utf8_sequence`: add a path from `start_state` to `end_state`
for all byte sequences matching `seq`; when `end_state` is `none` a fresh
accepting state rewinding `head.len() + 1` bytes is created. -/
def add_utf8_sequence (nfa : Nfa) (start_state : Nat) (end_state : Option Nat)
    (seq : MergedUtf8Sequences) : Nfa :=
  let p := seq.head.foldl addUtf8HeadStep (nfa, start_state)
  let nfa := p.1
  let last_state := p.2
  let q : Nfa × Nat := match end_state with
    | some e => (nfa, e)
    | none =>
      let nfa := nfa.add_state Accept.never
      let e := nfa.states.length - 1
      ({ nfa with states := nfa.states.modify (fun st =>
          { st with dfa_accept := DfaAccept.accept (seq.head.length + 1) }) e }, e)
  seq.last_byte.foldl (fun nfa range =>
      nfa.add_transition last_state q.2 (CharRange.new range.start range.end_)) q.1

/-- The merged UTF-8 sequences an `add_utf8_sequences` call works on. -/
def mergedOf (ranges : List CharRange) : List MergedUtf8Sequences :=
  MergedUtf8Sequences.merge_all
    ((ranges.filterMap CharRange.to_char_pair).flatMap
      (fun p => Utf8Sequences.new p.1 p.2))

/-- `Nfa::add_utf8_sequences`. -/
def add_utf8_sequences (nfa : Nfa) (start_state : Nat) (ranges : List CharRange)
    (target : Option Nat) (max_states : Nat) : Except Error Nfa :=
  let merged := mergedOf ranges
  let len := (merged.map (fun m => m.head.length)).sum
  if nfa.states.length + len > max_states then
    .error Error.TooManyStates
  else
    .ok (merged.foldl (fun nfa m => nfa.add_utf8_sequence start_state target m) nfa)

/-- `Nfa::byte_me`: convert all consuming transitions into byte
transitions, state by state, grouping each state's transitions by target. -/
def byte_me (nfa : Nfa) (max_states : Nat) : Except Error Nfa :=
  (List.range nfa.states.length).foldlM (fun (nfa : Nfa) i =>
    let trans := (nfa.states.getD i default).transitions.consuming
    let nfa : Nfa := { nfa with states := nfa.states.modify (fun st =>
        { st with transitions := { st.transitions with consuming := CharMultiMap.new } }) i }
    let trans := sortByKey (·.2) (CharMultiMap.into_vec trans)
    (groupByKey (·.2) trans).foldlM (fun (nfa : Nfa) grp =>
      nfa.add_utf8_sequences i (grp.map (·.1)) (some (grp.headD (⟨0, 0⟩, 0)).2) max_states)
      nfa) nfa

/-- `Nfa::byte_accept`: convert from `Accept` to `DfaAccept`, emitting
byte look-ahead paths for the `at_char` classes. -/
def byte_accept (nfa : Nfa) (max_states : Nat) : Except Error Nfa :=
  (List.range nfa.states.length).foldlM (fun (nfa : Nfa) i =>
    let nfa : Nfa := { nfa with states := nfa.states.modify (fun st =>
        { st with dfa_accept := { st.dfa_accept with at_eoi := st.accept.at_eoi } }) i }
    let st := nfa.states.getD i default
    if st.accept.at_char.is_full then
      .ok { nfa with states := nfa.states.modify (fun s =>
          { s with dfa_accept := { s.dfa_accept with otherwise := true } }) i }
    else if !st.accept.at_char.is_empty then
      nfa.add_utf8_sequences i st.accept.at_char none max_states
    else
      .ok nfa) nfa

/-! ## Closures, reversal and reachability (translated from `src/nfa.rs`) -/

/-- The ε-successors of a state. -/
def epsSuccs (nfa : Nfa) (s : Nat) : List Nat :=
  (nfa.states.getD s default).transitions.eps

/-- The successors of a state along ε, consuming and predicate edges (the
edges walked by `reachable_from`). -/
def allSuccs (nfa : Nfa) (s : Nat) : List Nat :=
  let t := (nfa.states.getD s default).transitions
  t.eps ++ (t.consuming : List (CharRange × Nat)).map (·.2) ++ t.predicates.map (·.2)

/-- The total number of edges of the automaton (a fuel bound for the
breadth-first searches below). -/
def totalEdges (nfa : Nfa) : Nat :=
  (nfa.states.map (fun st => st.transitions.eps.length
    + (st.transitions.consuming : List (CharRange × Nat)).length
    + st.transitions.predicates.length)).sum

end Nfa

/-- One `while !active.is_empty()` search loop, round by round: `ret` is
the set found so far, `active` the frontier; each round adds the not yet
seen successors of the frontier.  Both loops of `src/nfa.rs`
(`eps_closure` and `reachable_from`) have this shape. -/
def bfsRounds (succs : Nat → List Nat) : Nat → List Nat → List Nat → List Nat
  | 0, _, ret => ret
  | _ + 1, [], ret => ret
  | fuel + 1, active, ret =>
    let found := dedupFirst ((active.flatMap succs).filter (fun t => !ret.contains t))
    bfsRounds succs fuel found (ret ++ found)

namespace Nfa

/-- `Nfa::eps_closure` (the result is returned sorted, as in the source;
the hash-set is modelled by first-occurrence deduplication). -/
def eps_closure (nfa : Nfa) (states : StateSet) : StateSet :=
  sortAsc (bfsRounds nfa.epsSuccs (nfa.totalEdges + 2)
    (dedupFirst (states : List Nat)) (dedupFirst (states : List Nat)))

/-- `Nfa::eps_closure_single`. -/
def eps_closure_single (nfa : Nfa) (state : Nat) : StateSet :=
  nfa.eps_closure ([state] : List Nat)

/-- `Nfa::accept`: the union of the accept profiles of a set of states. -/
def accept (nfa : Nfa) (states : StateSet) : Accept :=
  (states : List Nat).foldl (fun a b => a.union (nfa.states.getD b default).accept)
    Accept.never

/-- `Nfa::dfa_accept`: the shortest-match union of byte-accept profiles. -/
def dfa_accept (nfa : Nfa) (states : StateSet) : DfaAccept :=
  (states : List Nat).foldl
    (fun a b => a.union_shortest (nfa.states.getD b default).dfa_accept)
    DfaAccept.never

/-- `Nfa::transitions`: all consuming transitions out of a set of states,
grouped by range, with ε-closure applied to the targets. -/
def transitions (nfa : Nfa) (states : StateSet) : CharMap StateSet :=
  let trans := (states : List Nat).flatMap
    (fun s => ((nfa.states.getD s default).transitions.consuming : List (CharRange × Nat)))
  let trans := CharMultiMap.group (CharMultiMap.from_vec trans)
  CharMap.from_vec (trans.map (fun x => (x.1, nfa.eps_closure x.2)))

/-- `Nfa::predicates`: all predicates transitioning out of a set of states. -/
def predicates (nfa : Nfa) (states : StateSet) : List (Predicate × Nat) :=
  (states : List Nat).flatMap
    (fun s => (nfa.states.getD s default).transitions.predicates)

/-- One state's worth of `Nfa::reversed`'s edge-copying loop (`idx`
ranges over the original state indices). -/
def revStep (nfa : Nfa) (ret : Nfa) (idx : Nat) : Nfa :=
  let st := nfa.states.getD idx default
  let ret := (st.transitions.consuming : List (CharRange × Nat)).foldl
    (fun (ret : Nfa) e => ret.add_transition e.2 idx e.1) ret
  let ret := st.transitions.eps.foldl (fun (ret : Nfa) t => ret.add_eps t idx) ret
  st.transitions.predicates.foldl (fun (ret : Nfa) e => ret.add_predicate e.2 idx e.1) ret

/-- `Nfa::reversed`: a copy with all transitions reversed, state indices
preserved. -/
def reversed (nfa : Nfa) : Nfa :=
  (List.range nfa.states.length).foldl (revStep nfa)
    ⟨nfa.states.map (fun st => NfaState.new st.accept), StateSet.new, StateSet.new, CharMap.new⟩

/-- `Nfa::reachable_from`: all states reachable from `states` along ε,
consuming and predicate edges. -/
def reachable_from (nfa : Nfa) (states : StateSet) : StateSet :=
  sortAsc (bfsRounds nfa.allSuccs (nfa.totalEdges + 2)
    (dedupFirst (states : List Nat)) (dedupFirst (states : List Nat)))

/-- `Nfa::reachable_states`: states reachable from some initial state that
can also reach some accepting state. -/
def reachable_states (nfa : Nfa) : StateSet :=
  let init_states := (nfa.init : List Nat) ++ nfa.init_at_start
  let init_states := init_states ++
    (nfa.init_after_char : List (CharRange × StateSet)).flatMap (fun e => (e.2 : List Nat))
  let init_states := sortAsc init_states
  let final_states := (nfa.states.enum.filter (fun p => !p.2.accept.is_never)).map (·.1)
  let forward := nfa.reachable_from init_states
  let backward := nfa.reversed.reachable_from final_states
  StateSet.intersect_with forward backward

/-- The `new_to_old` index list of `trim_unreachable`: the (ascending)
old indices of the kept states. -/
def trimNewToOld (nfa : Nfa) : List Nat :=
  (List.range nfa.states.length).filter
    (fun i => StateSet.contains nfa.reachable_states i)

/-- The `old_to_new` partial index map of `trim_unreachable` (the
`HashMap` lookup): the position of an old index among the kept ones. -/
def trimMapState (nfa : Nfa) (x : Nat) : Option Nat :=
  (Nfa.trimNewToOld nfa).findIdx? (fun y => y = x)

/-- `Nfa::trim_unreachable`: keep exactly the `reachable_states`, compact
the state array and rebuild every index reference. -/
def trim_unreachable (nfa : Nfa) : Nfa :=
  let new_to_old := trimNewToOld nfa
  let new_states := new_to_old.map (fun i => nfa.states.getD i default)
  let map_state := trimMapState nfa
  let map_state_set : StateSet → StateSet := fun x => (x : List Nat).filterMap map_state
  { states := new_states.map (fun st =>
      { st with transitions := st.transitions.filter_map_targets map_state }),
    init := (nfa.init : List Nat).filterMap map_state,
    init_at_start := (nfa.init_at_start : List Nat).filterMap map_state,
    init_after_char := CharMap.map_values nfa.init_after_char map_state_set }

/-- `Nfa::optimize_for_shortest_match`: delete all transitions following
an unconditional accept, then trim unreachable states. -/
def optimize_for_shortest_match (nfa : Nfa) : Nfa :=
  let nfa := (List.range nfa.states.length).foldl (fun (nfa : Nfa) st_idx =>
    let cl := nfa.eps_closure_single st_idx
    if (nfa.accept cl).is_always then
      { nfa with states := nfa.states.modify (fun st =>
          { st with transitions :=
            { st.transitions with predicates := [], consuming := CharMultiMap.new } }) st_idx }
    else nfa) nfa
  let nfa : Nfa := { nfa with states := nfa.states.map (fun st =>
      if st.accept.is_always then
        { st with transitions := { st.transitions with eps := [] } }
      else st) }
  nfa.trim_unreachable

end Nfa

/-- Modelled from the spec: restrict every range of a range→state-set map
to a `CharSet`, dropping entries that become empty. -/
def CharMap.restrictRanges (m : CharMap StateSet) (cs : CharSet) : CharMap StateSet :=
  (m : List (CharRange × StateSet)).flatMap (fun e =>
    (((cs : List CharRange).map (fun q => e.1.intersection q)).filter
      (fun r => !r.is_empty)).map (fun r => (r, e.2)))

/-- Modelled from the spec: `Predicate::filter_transitions` — restrict
in-edges by the look-behind and out-edges by the look-ahead. -/
def Predicate.filter_transitions (p : Predicate)
    (in_trans out_trans : CharMap StateSet) : CharMap StateSet × CharMap StateSet :=
  (CharMap.restrictRanges in_trans p.behind.chars,
   CharMap.restrictRanges out_trans p.ahead.chars)

namespace Nfa

/-- `Nfa::predicate_accept`: the accept profile of the fresh state created
for a predicate, given the ε-closure of the predicate's target. -/
def predicate_accept (nfa : Nfa) (pred : Predicate) (states : StateSet) : Accept :=
  pred.filter_accept (nfa.accept states)

/-- The body of `remove_predicates_once` for one predicate `(pred,
pred_target_idx)` out of state `idx`: create the new state and copy the
filtered in/out edges, mirroring every addition in the reverse NFA and
recording new conditional initial states in `ipreds`. -/
def removeOnePred (idx : Nat) (acc2 : Nfa × Nfa × CharMultiMap Nat)
    (pe : Predicate × Nat) : Nfa × Nfa × CharMultiMap Nat :=
  let self := acc2.1
  let rev := acc2.2.1
  let ipreds := acc2.2.2
  let pred := pe.1
  let pred_target_idx := pe.2
  let in_states := rev.eps_closure_single idx
  let out_states := self.eps_closure_single pred_target_idx
  let ft := pred.filter_transitions (rev.transitions in_states) (self.transitions out_states)
  let in_trans := ft.1
  let out_trans := ft.2
  let acc := self.predicate_accept pred out_states
  let self : Nfa := { self with states := self.states ++ [NfaState.new acc] }
  let rev : Nfa := { rev with states := rev.states ++ [NfaState.new Accept.never] }
  let new_idx := self.states.length - 1
  -- possible starting state at the beginning of the input
  let self : Nfa :=
    if pred.behind.at_boundary && !(StateSet.is_disjoint in_states self.init_at_start) then
      { self with init_at_start := (self.init_at_start : List Nat) ++ [new_idx] }
    else self
  -- possible conditional starting state in the middle of the input
  let init_chars := CharMultiMap.filter_values ipreds
    (fun x => StateSet.contains in_states x)
  let init_chars := if !(StateSet.is_disjoint in_states self.init) then
      CharMultiMap.push init_chars CharRange.full 0
    else init_chars
  let init_chars := CharMultiMap.intersect init_chars pred.behind.chars
  let ipreds := (init_chars : List (CharRange × Nat)).foldl
    (fun ip e => CharMultiMap.push ip e.1 new_idx) ipreds
  -- in-edges
  let sr := (in_trans : List (CharRange × StateSet)).foldl (fun (sr : Nfa × Nfa) e =>
    (e.2 : List Nat).foldl (fun (sr : Nfa × Nfa) source =>
      (sr.1.add_transition source new_idx e.1, sr.2.add_transition new_idx source e.1)) sr)
    (self, rev)
  let sr := (sr.2.predicates in_states).foldl (fun (sr : Nfa × Nfa) e =>
    match pred.intersect e.1 with
    | some p => (sr.1.add_predicate e.2 new_idx p, sr.2.add_predicate new_idx e.2 p)
    | none => sr) sr
  -- out-edges
  let sr := (out_trans : List (CharRange × StateSet)).foldl (fun (sr : Nfa × Nfa) e =>
    (e.2 : List Nat).foldl (fun (sr : Nfa × Nfa) target =>
      (sr.1.add_transition new_idx target e.1, sr.2.add_transition target new_idx e.1)) sr)
    sr
  let sr := (sr.1.predicates out_states).foldl (fun (sr : Nfa × Nfa) e =>
    match pred.intersect e.1 with
    | some p => (sr.1.add_predicate new_idx e.2 p, sr.2.add_predicate e.2 new_idx p)
    | none => sr) sr
  (sr.1, sr.2, ipreds)

/-- One index step of the `for idx in 0..self.states.len()` loop of
`remove_predicates_once`: take out the predicates of state `idx` (also
deleting them from the reverse NFA) and process each. -/
def removeAtIdx (acc : Nfa × Nfa × CharMultiMap Nat) (idx : Nat) :
    Nfa × Nfa × CharMultiMap Nat :=
  let self := acc.1
  let rev := acc.2.1
  let ipreds := acc.2.2
  let preds := (self.states.getD idx default).transitions.predicates
  let self : Nfa := { self with states := self.states.modify (fun st =>
      { st with transitions := { st.transitions with predicates := [] } }) idx }
  let rev : Nfa := preds.foldl (fun (rev : Nfa) e =>
      { rev with states := rev.states.modify (fun st =>
          { st with transitions := { st.transitions with
              predicates := st.transitions.predicates.filter (fun q => q.2 ≠ idx) } }) e.2 })
    rev
  preds.foldl (removeOnePred idx) (self, rev, ipreds)

/-- `Nfa::remove_predicates_once`: one pass of the predicate-elimination
fixed point; returns the updated automaton, the accumulated conditional
initial states and whether any state was added. -/
def remove_predicates_once (nfa : Nfa) (initial_preds : CharMultiMap Nat) :
    Nfa × CharMultiMap Nat × Bool :=
  let orig_len := nfa.states.length
  let res := (List.range orig_len).foldl removeAtIdx (nfa, nfa.reversed, initial_preds)
  (res.1, res.2.2, decide (res.1.states.length > orig_len))

/-- The `while changed` loop of `remove_predicates`, with explicit fuel
(`none` = the fixed point was not reached within `fuel` passes). -/
def remove_predicates_go : Nat → Nfa → CharMultiMap Nat → Option (Nfa × CharMultiMap Nat)
  | 0, _, _ => none
  | fuel + 1, nfa, ipreds =>
    let r := nfa.remove_predicates_once ipreds
    if r.2.2 then remove_predicates_go fuel r.1 r.2.1 else some (r.1, r.2.1)

/-- `Nfa::remove_predicates` (with explicit fuel for the fixed-point
loop): clobber `init_at_start` with `init`, iterate
`remove_predicates_once` until no states are added, then build
`init_after_char` by grouping the accumulated `initial_preds`. -/
def remove_predicates (nfa : Nfa) (fuel : Nat) : Option Nfa :=
  let nfa : Nfa := { nfa with init_at_start := nfa.init }
  match remove_predicates_go fuel nfa CharMultiMap.new with
  | some (nfa1, ipreds) => some { nfa1 with init_after_char := CharMultiMap.group ipreds }
  | none => none

end Nfa

/-! ## The output DFA and subset construction -/

/-- Modelled from the spec: one state of the output `Dfa` — a byte-level
accept profile and byte-range transitions. -/
structure DfaState where
  accept : DfaAccept
  transitions : CharMap Nat
deriving DecidableEq

/-- Modelled from the spec: the output `Dfa` with its three initial-state
fields. -/
structure Dfa where
  states : List DfaState
  init_otherwise : Option Nat
  init_at_start : Option Nat
  init_after_char : CharMap Nat
deriving DecidableEq

namespace Dfa

/-- Modelled from the spec: `Dfa::new`, a fresh empty DFA. -/
def new : Dfa := ⟨[], none, none, CharMap.new⟩

/-- Modelled from the spec: `Dfa::num_states`. -/
def num_states (dfa : Dfa) : Nat := dfa.states.length

/-- Modelled from the spec: `Dfa::add_state`. -/
def add_state (dfa : Dfa) (accept : DfaAccept) : Dfa :=
  { dfa with states := dfa.states ++ [⟨accept, CharMap.new⟩] }

/-- Modelled from the spec: `Dfa::add_transition`. -/
def add_transition (dfa : Dfa) (from_ : Nat) (to_ : Nat) (range : CharRange) : Dfa :=
  { dfa with states := dfa.states.modify (fun st =>
      { st with transitions := CharMap.push st.transitions range to_ }) from_ }

/-- Modelled from the spec: `Dfa::sort_transitions` — sort each state's
transitions by range for later binary search. -/
def sort_transitions (dfa : Dfa) : Dfa :=
  { dfa with states := dfa.states.map (fun st =>
      { st with transitions := sortByKey (fun e => e.1.start) (st.transitions : List (CharRange × Nat)) }) }

end Dfa

namespace Nfa

/-- The `add_state` closure inside `Nfa::determinize`: register a state
set, deduplicating through `state_map` and enforcing the state cap. -/
def detAddState (nfa : Nfa) (max_states : Nat) (s : StateSet) (dfa : Dfa)
    (active : List StateSet) (map : List (StateSet × Nat)) :
    Except Error (Nat × Dfa × List StateSet × List (StateSet × Nat)) :=
  match map.lookup s with
  | some i => .ok (i, dfa, active, map)
  | none =>
    if dfa.num_states ≥ max_states then .error Error.TooManyStates
    else
      let dfa := dfa.add_state (nfa.dfa_accept s)
      .ok (dfa.num_states - 1, dfa, active ++ [s], map ++ [(s, dfa.num_states - 1)])

/-- The worklist loop of `Nfa::determinize`, with explicit fuel; `none`
means the fuel ran out (a fuel of `max_states + 1` always suffices, since
every worklist push accompanies the creation of a DFA state and at most
`max_states` DFA states are ever created). -/
def determinizeLoop (nfa : Nfa) (max_states : Nat) :
    Nat → Dfa → List StateSet → List (StateSet × Nat) → Option (Except Error Dfa)
  | 0, _, _, _ => none
  | fuel + 1, dfa, active, map =>
    match active.getLast? with
    | none => some (.ok dfa)
    | some state =>
      let active := active.dropLast
      let state_idx := (map.lookup state).getD 0
      let trans := nfa.transitions state
      let res := (trans : List (CharRange × StateSet)).foldlM
        (fun (st : Dfa × List StateSet × List (StateSet × Nat)) e =>
          (nfa.detAddState max_states e.2 st.1 st.2.1 st.2.2).map (fun r =>
            (r.2.1.add_transition state_idx r.1 e.1, r.2.2.1, r.2.2.2)))
        (dfa, active, map)
      match res with
      | .error e => some (.error e)
      | .ok st => determinizeLoop nfa max_states fuel st.1 st.2.1 st.2.2

/-- `Nfa::determinize`: classical subset construction over ε-closures with
the three initial-state classes and the `max_states` cap.  The outer
`Option` is the worklist fuel (see `determinizeLoop`). -/
def determinize (nfa : Nfa) (max_states : Nat) : Option (Except Error Dfa) :=
  if nfa.states.isEmpty then
    some (.ok Dfa.new)
  else
    let dfa := Dfa.new
    let map : List (StateSet × Nat) := []
    let active : List StateSet := []
    let init_other := nfa.eps_closure nfa.init
    let step1 : Except Error (Dfa × List StateSet × List (StateSet × Nat)) :=
      if !init_other.isEmpty then
        (nfa.detAddState max_states init_other dfa active map).map (fun r =>
          ({ r.2.1 with init_otherwise := some r.1 }, r.2.2.1, r.2.2.2))
      else .ok (dfa, active, map)
    let step2 : Except Error (Dfa × List StateSet × List (StateSet × Nat)) :=
      match step1 with
      | .error e => .error e
      | .ok st =>
        let init_at_start := nfa.eps_closure nfa.init_at_start
        if !init_at_start.isEmpty then
          (nfa.detAddState max_states init_at_start st.1 st.2.1 st.2.2).map (fun r =>
            ({ r.2.1 with init_at_start := some r.1 }, r.2.2.1, r.2.2.2))
        else .ok st
    let step3 : Except Error (Dfa × List StateSet × List (StateSet × Nat)) :=
      match step2 with
      | .error e => .error e
      | .ok st =>
        (nfa.init_after_char : List (CharRange × StateSet)).foldlM
          (fun (st : Dfa × List StateSet × List (StateSet × Nat)) e =>
            let init := sortAsc (dedupFirst ((nfa.eps_closure e.2 : List Nat) ++ init_other))
            if !init.isEmpty then
              (nfa.detAddState max_states init st.1 st.2.1 st.2.2).map (fun r =>
                ({ r.2.1 with init_after_char := CharMap.push r.2.1.init_after_char e.1 r.1 },
                  r.2.2.1, r.2.2.2))
            else .ok st) st
    match step3 with
    | .error e => some (.error e)
    | .ok st =>
      (determinizeLoop nfa max_states (max_states + 1) st.1 st.2.1 st.2.2).map
        (fun r => r.map Dfa.sort_transitions)

/-- `Nfa::convert_to_byte_automaton` (with the predicate-elimination
fuel made explicit). -/
def convert_to_byte_automaton (nfa : Nfa) (max_states : Nat) (fuel : Nat) :
    Option (Except Error Nfa) :=
  let nfa := nfa.optimize_for_shortest_match
  match nfa.remove_predicates fuel with
  | none => none
  | some nfa =>
    let nfa := nfa.optimize_for_shortest_match
    some (match nfa.byte_me max_states with
          | .error e => .error e
          | .ok nfa =>
            match nfa.byte_accept max_states with
            | .error e => .error e
            | .ok nfa => .ok nfa)

end Nfa

/-! ## Concrete automata used as witnesses and counterexamples -/

/-- A one-state automaton whose state accepts upon seeing a following
`'a'` (`accept.at_char = {'a'}`), used to exercise `byte_accept`. -/
def nfaAtCharA : Nfa :=
  ⟨[{ transitions := NfaTransitions.new,
      accept := ⟨false, ([⟨97, 97⟩] : List CharRange)⟩,
      dfa_accept := DfaAccept.never }],
   ([0] : List Nat), StateSet.new, CharMap.new⟩

/-- The number of threads in a thread list carrying a given program
state. -/
def countState (t : Threads) (s : Nat) : Nat :=
  (t.threads.filter (fun th => th.state = s)).length

/-- The deduplication invariant tying the bitmap to the thread vector: no
state has two threads, and a state whose bitmap byte is clear has none. -/
def ThreadsConsistent (t : Threads) : Prop :=
  ∀ s, countState t s ≤ 1 ∧ (t.states.getD s 1 = 0 → countState t s = 0)

/-- A sequence of `Threads::add` calls. -/
def applyAdds (t : Threads) (ops : List (Nat × Nat)) : Threads :=
  ops.foldl (fun t p => t.add p.1 p.2) t

/-- The `head.len()` sum pre-checked by `add_utf8_sequences`. -/
def headSum (merged : List MergedUtf8Sequences) : Nat :=
  (merged.map (fun m => m.head.length)).sum

/-- The predicate list of state `j` (empty when `j` is out of range). -/
def predsAt (nfa : Nfa) (j : Nat) : List (Predicate × Nat) :=
  (nfa.states.getD j default).transitions.predicates

/-- A one-state automaton with a single self-loop predicate, used to
exercise `remove_predicates`. -/
def nfaPredSelfLoop : Nfa :=
  ⟨[{ transitions := ⟨CharMultiMap.new, [],
        [(⟨⟨([CharRange.full] : List CharRange), true⟩,
           ⟨([CharRange.full] : List CharRange), true⟩⟩, 0)]⟩,
      accept := Accept.never, dfa_accept := DfaAccept.never }],
   ([0] : List Nat), StateSet.new, CharMap.new⟩

/-- The multiplicity of the consuming edge `a --r--> b`. -/
def consCount (nfa : Nfa) (a b : Nat) (r : CharRange) : Nat :=
  (((nfa.states.getD a default).transitions.consuming : List (CharRange × Nat)).filter
    (fun e => e.1 = r && e.2 = b)).length

/-- The multiplicity of the ε-edge `a --> b`. -/
def epsCount (nfa : Nfa) (a b : Nat) : Nat :=
  (((nfa.states.getD a default).transitions.eps).filter (fun t => t = b)).length

/-- The multiplicity of the predicate edge `a --p--> b`. -/
def predCount (nfa : Nfa) (a b : Nat) (p : Predicate) : Nat :=
  (((nfa.states.getD a default).transitions.predicates).filter
    (fun e => e.1 = p && e.2 = b)).length

/-- A two-state automaton with one edge of each kind, used to witness
edge-preservation statements. -/
def nfaTwoEdges : Nfa :=
  ⟨[{ transitions := ⟨([(⟨97, 98⟩, 1)] : List (CharRange × Nat)), [1],
        [(⟨⟨([] : List CharRange), true⟩, ⟨([] : List CharRange), true⟩⟩, 1)]⟩,
      accept := Accept.never, dfa_accept := DfaAccept.never },
    { transitions := NfaTransitions.new, accept := Accept.always,
      dfa_accept := DfaAccept.never }],
   ([0] : List Nat), StateSet.new, CharMap.new⟩

/-- One edge step of the automaton: `b` is an ε, consuming or predicate
successor of `a` (the edges walked by `reachable_from`). -/
def Nfa.Step (nfa : Nfa) (a b : Nat) : Prop := b ∈ nfa.allSuccs a

/-- Reachability: `b` can be reached from `a` along edges. -/
def Nfa.Reaches (nfa : Nfa) (a b : Nat) : Prop :=
  Relation.ReflTransGen nfa.Step a b

/-- The combined list of initial states used by `reachable_states`. -/
def Nfa.initsAll (nfa : Nfa) : List Nat :=
  ((nfa.init : List Nat) ++ nfa.init_at_start) ++
    (nfa.init_after_char : List (CharRange × StateSet)).flatMap
      (fun e => (e.2 : List Nat))

/-- The accepting-state list built by `reachable_states`. -/
def Nfa.finalStates (nfa : Nfa) : List Nat :=
  (nfa.states.enum.filter (fun p => !p.2.accept.is_never)).map (·.1)

/-- Every edge target of the automaton, concatenated (a finite universe
bounding the breadth-first searches). -/
def Nfa.allTargetsList (nfa : Nfa) : List Nat :=
  nfa.states.flatMap (fun st => st.transitions.eps
    ++ (st.transitions.consuming : List (CharRange × Nat)).map (·.2)
    ++ st.transitions.predicates.map (·.2))

/-- Well-formedness: every state index referenced by a transition or an
initial-state structure is in range (the spec's standing invariant). -/
def ValidNfa (nfa : Nfa) : Prop :=
  (∀ st ∈ nfa.states,
    (∀ e ∈ (st.transitions.consuming : List (CharRange × Nat)), e.2 < nfa.states.length) ∧
    (∀ t ∈ st.transitions.eps, t < nfa.states.length) ∧
    (∀ e ∈ st.transitions.predicates, e.2 < nfa.states.length)) ∧
  (∀ i ∈ (nfa.init : List Nat), i < nfa.states.length) ∧
  (∀ i ∈ (nfa.init_at_start : List Nat), i < nfa.states.length) ∧
  (∀ e ∈ (nfa.init_after_char : List (CharRange × StateSet)),
    ∀ i ∈ (e.2 : List Nat), i < nfa.states.length)

instance (nfa : Nfa) : Decidable (ValidNfa nfa) := by
  unfold ValidNfa
  infer_instance

/-- The accept profile of state `j` (*never* when out of range). -/
def accAt (nfa : Nfa) (j : Nat) : Accept := (nfa.states.getD j default).accept

/-- The ε-successor list of state `j`. -/
def epsAt (nfa : Nfa) (j : Nat) : List Nat :=
  (nfa.states.getD j default).transitions.eps

/-- The consuming-edge list of state `j`. -/
def consAt (nfa : Nfa) (j : Nat) : List (CharRange × Nat) :=
  ((nfa.states.getD j default).transitions.consuming : List (CharRange × Nat))

/-- One ε-edge step of the automaton. -/
def Nfa.EpsStep (nfa : Nfa) (a b : Nat) : Prop := b ∈ nfa.epsSuccs a

/-- ε-reachability (the closure computed by `eps_closure`). -/
def Nfa.EpsReaches (nfa : Nfa) (a b : Nat) : Prop :=
  Relation.ReflTransGen nfa.EpsStep a b

/-- Every ε-edge target of the automaton, concatenated (a finite universe
bounding the `eps_closure` search). -/
def Nfa.epsTargetsList (nfa : Nfa) : List Nat :=
  nfa.states.flatMap (fun st => st.transitions.eps)

/-- Some range of the list contains the code point `c`. -/
def rangesCover (s : List CharRange) (c : Nat) : Prop :=
  ∃ r ∈ s, r.start ≤ c ∧ c ≤ r.end_

instance (s : List CharRange) (c : Nat) : Decidable (rangesCover s c) := by
  unfold rangesCover
  infer_instance

/-- The guarantee of Rust's `char` type, stated for the accept profiles:
every range stored in an `accept.at_char` begins at a code point (so its
start is at most `0x110000`). -/
def BoundedAccepts (nfa : Nfa) : Prop :=
  ∀ st ∈ nfa.states, ∀ r ∈ (st.accept.at_char : List CharRange),
    r.start ≤ 0x110000

instance (nfa : Nfa) : Decidable (BoundedAccepts nfa) := by
  unfold BoundedAccepts
  infer_instance

/-- The condition tested by the first clearing loop of
`optimize_for_shortest_match`. -/
def osmCond (nfa : Nfa) (i : Nat) : Bool :=
  (nfa.accept (nfa.eps_closure_single i)).is_always

/-- One step of the first clearing loop of `optimize_for_shortest_match`
(the body of `for st_idx in 0..self.states.len()`). -/
def Nfa.osmStep1 (nfa : Nfa) (st_idx : Nat) : Nfa :=
  let cl := nfa.eps_closure_single st_idx
  if (nfa.accept cl).is_always then
    { nfa with states := nfa.states.modify (fun st =>
        { st with transitions :=
          { st.transitions with predicates := [], consuming := CharMultiMap.new } }) st_idx }
  else nfa

/-- The first clearing loop of `optimize_for_shortest_match`. -/
def Nfa.osmPass1 (nfa : Nfa) : Nfa :=
  (List.range nfa.states.length).foldl Nfa.osmStep1 nfa

/-- The second clearing loop of `optimize_for_shortest_match`
(`for st in &mut self.states`). -/
def Nfa.osmPass2 (nfa : Nfa) : Nfa :=
  { nfa with states := nfa.states.map (fun st =>
      if st.accept.is_always then
        { st with transitions := { st.transitions with eps := [] } }
      else st) }

/-! # Theorems -/

/-- **C2** (code bug): `add_init_state` is supposed to validate
`st < |states|` and fail loudly otherwise; on an `Nfa` with an empty state
vector the guard `st > states.len() - 1` underflows (wrapping to
`2^64 - 1` under release semantics), so `add_init_state 0` succeeds
silently and records the out-of-range initial state `0` instead of
panicking. -/
theorem add_init_state_empty_silent :
    Nfa.new.states.length = 0 ∧
    Nfa.new.add_init_state 0 = some { Nfa.new with init := ([0] : List Nat) } :=
  ⟨rfl, by decide⟩

/-- **C9**: `determinize` on an `Nfa` with an empty state vector returns
`Ok` with a fresh empty `Dfa` for every `max_states` (the cap check is
bypassed by the early return). -/
theorem determinize_empty_states (nfa : Nfa) (max_states : Nat)
    (h : nfa.states = []) :
    nfa.determinize max_states = some (.ok Dfa.new) := by
  unfold Nfa.determinize
  rw [h]
  rfl

/-- Witness for C9 at a concrete input: the empty automaton with
`max_states = 0` determinizes to the fresh empty DFA without
`TooManyStates`. -/
theorem determinize_empty_states_witness :
    Nfa.new.determinize 0 = some (.ok Dfa.new) :=
  determinize_empty_states Nfa.new 0 rfl

/-! ### C10: thread-list deduplication -/

theorem Threads.add_of_clear (u : Threads) (s i : Nat)
    (h : u.states.getD s 1 = 0) :
    (u.add s i).threads = u.threads ++ [⟨s, i⟩] ∧
    (u.add s i).states = u.states.set s 1 := by
  unfold Threads.add
  rw [if_pos h]
  exact ⟨rfl, rfl⟩

theorem Threads.add_of_set (u : Threads) (s i : Nat)
    (h : u.states.getD s 1 ≠ 0) : u.add s i = u := by
  unfold Threads.add
  rw [if_neg h]

theorem countState_append_one (l : List Thread) (m : List Nat) (s i s' : Nat) :
    countState ⟨l ++ [⟨s, i⟩], m⟩ s' =
      countState ⟨l, m⟩ s' + if s = s' then 1 else 0 := by
  simp only [countState, List.filter_append, List.length_append, List.filter]
  by_cases h : s = s' <;> simp [h]

theorem getD_of_clear_lt (m : List Nat) (s : Nat) (h : m.getD s 1 = 0) :
    s < m.length := by
  by_contra hge
  rw [List.getD_eq_getElem?_getD, List.getElem?_eq_none (Nat.le_of_not_lt hge)] at h
  simp at h

theorem ThreadsConsistent.add (u : Threads) (s i : Nat)
    (hc : ThreadsConsistent u) : ThreadsConsistent (u.add s i) := by
  by_cases h : u.states.getD s 1 = 0
  · obtain ⟨ht, hs⟩ := Threads.add_of_clear u s i h
    intro s'
    have hlt : s < u.states.length := getD_of_clear_lt _ _ h
    have hcount : countState (u.add s i) s' =
        countState u s' + if s = s' then 1 else 0 := by
      have : u.add s i = ⟨u.threads ++ [⟨s, i⟩], u.states.set s 1⟩ := by
        cases hadd : u.add s i
        simp_all
      rw [this, countState_append_one]
      rfl
    by_cases hss : s = s'
    · subst hss
      constructor
      · rw [hcount, (hc s).2 h]
        simp
      · intro hzero
        rw [hs] at hzero
        rw [List.getD_eq_getElem?_getD, List.getElem?_set_self hlt] at hzero
        simp at hzero
    · constructor
      · rw [hcount, if_neg hss]
        simpa using (hc s').1
      · intro hzero
        rw [hs, List.getD_eq_getElem?_getD, List.getElem?_set_ne hss] at hzero
        rw [hcount, if_neg hss]
        have := (hc s').2
        rw [List.getD_eq_getElem?_getD] at this
        simpa using this hzero
  · rw [Threads.add_of_set u s i h]
    exact hc

theorem ThreadsConsistent.applyAdds (t : Threads) (ops : List (Nat × Nat))
    (hc : ThreadsConsistent t) : ThreadsConsistent (applyAdds t ops) := by
  induction ops generalizing t with
  | nil => exact hc
  | cons p rest ih => exact ih _ (ThreadsConsistent.add t p.1 p.2 hc)

theorem Threads.add_threads_mono (u : Threads) (s i : Nat) (th : Thread)
    (h : th ∈ u.threads) : th ∈ (u.add s i).threads := by
  by_cases hcl : u.states.getD s 1 = 0
  · rw [(Threads.add_of_clear u s i hcl).1]
    exact List.mem_append_left _ h
  · rw [Threads.add_of_set u s i hcl]
    exact h

theorem applyAdds_threads_mono (t : Threads) (ops : List (Nat × Nat)) (th : Thread)
    (h : th ∈ t.threads) : th ∈ (applyAdds t ops).threads := by
  induction ops generalizing t with
  | nil => exact h
  | cons p rest ih => exact ih _ (Threads.add_threads_mono _ _ _ _ h)

theorem Threads.add_getD_ne (u : Threads) (a b s : Nat) (hne : a ≠ s) :
    (u.add a b).states.getD s 1 = u.states.getD s 1 := by
  by_cases hcl : u.states.getD a 1 = 0
  · rw [(Threads.add_of_clear u a b hcl).2]
    rw [List.getD_eq_getElem?_getD, List.getElem?_set_ne hne,
      ← List.getD_eq_getElem?_getD]
  · rw [Threads.add_of_set u a b hcl]

/-- **C10**: thread-list deduplication.  Starting from a thread list whose
bitmap is consistent with its vector, any sequence of `Threads::add` calls
keeps the invariant and leaves at most one thread per program state;
`add(state, start_idx)` appends a thread and sets the bitmap exactly when
`states[state] == 0` and is a no-op otherwise, so the first add for a
state (with its bitmap initially clear) is the thread that is kept. -/
theorem threads_add_dedup (t0 : Threads) (ops : List (Nat × Nat))
    (hc : ThreadsConsistent t0) :
    ThreadsConsistent (applyAdds t0 ops) ∧
    (∀ s, countState (applyAdds t0 ops) s ≤ 1) ∧
    (∀ (u : Threads) (s i : Nat), u.states.getD s 1 = 0 →
        (u.add s i).threads = u.threads ++ [⟨s, i⟩] ∧
        (u.add s i).states = u.states.set s 1) ∧
    (∀ (u : Threads) (s i : Nat), u.states.getD s 1 ≠ 0 → u.add s i = u) ∧
    (∀ pre s i post, ops = pre ++ (s, i) :: post →
        (∀ q ∈ pre, q.1 ≠ s) → t0.states.getD s 1 = 0 →
        Thread.mk s i ∈ (applyAdds t0 ops).threads) := by
  have hca := ThreadsConsistent.applyAdds t0 ops hc
  refine ⟨hca, fun s => (hca s).1, Threads.add_of_clear, Threads.add_of_set, ?_⟩
  intro pre s i post hops hpre hclear
  subst hops
  have hsplit : applyAdds t0 (pre ++ (s, i) :: post) =
      applyAdds (applyAdds t0 pre) ((s, i) :: post) := by
    unfold applyAdds
    rw [List.foldl_append]
  rw [hsplit]
  have hmid : (applyAdds t0 pre).states.getD s 1 = 0 := by
    clear hsplit hca hc
    induction pre generalizing t0 with
    | nil => exact hclear
    | cons q rest ih =>
      have hq : q.1 ≠ s := hpre q (List.mem_cons_self q rest)
      have : (t0.add q.1 q.2).states.getD s 1 = 0 := by
        rw [Threads.add_getD_ne t0 q.1 q.2 s hq]
        exact hclear
      exact ih _ (fun r hr => hpre r (List.mem_cons_of_mem _ hr)) this
  show Thread.mk s i ∈
    (applyAdds ((applyAdds t0 pre).add s i) post).threads
  refine applyAdds_threads_mono _ _ _ ?_
  rw [(Threads.add_of_clear _ s i hmid).1]
  exact List.mem_append_right _ (List.mem_singleton.mpr rfl)

/-- Witness for C10 at a concrete input: a fresh two-state thread list
with the add sequence `[(0,5),(0,7),(1,6)]`. -/
theorem threads_add_dedup_witness :
    ThreadsConsistent (Threads.with_capacity 2) ∧
    (ThreadsConsistent (applyAdds (Threads.with_capacity 2) [(0,5),(0,7),(1,6)]) ∧
     (∀ s, countState (applyAdds (Threads.with_capacity 2) [(0,5),(0,7),(1,6)]) s ≤ 1) ∧
     (∀ (u : Threads) (s i : Nat), u.states.getD s 1 = 0 →
         (u.add s i).threads = u.threads ++ [⟨s, i⟩] ∧
         (u.add s i).states = u.states.set s 1) ∧
     (∀ (u : Threads) (s i : Nat), u.states.getD s 1 ≠ 0 → u.add s i = u) ∧
     (∀ pre s i post, ([((0:Nat),(5:Nat)),(0,7),(1,6)] : List (Nat × Nat)) = pre ++ (s, i) :: post →
         (∀ q ∈ pre, q.1 ≠ s) → (Threads.with_capacity 2).states.getD s 1 = 0 →
         Thread.mk s i ∈ (applyAdds (Threads.with_capacity 2) [(0,5),(0,7),(1,6)]).threads)) := by
  have hc : ThreadsConsistent (Threads.with_capacity 2) := by
    intro s
    constructor
    · simp [countState, Threads.with_capacity]
    · intro _
      simp [countState, Threads.with_capacity]
  exact ⟨hc, threads_add_dedup (Threads.with_capacity 2) [(0,5),(0,7),(1,6)] hc⟩

/-! ### C3: early exit of the threaded engine -/

theorem starts_after_of_all (t : Threads) (a : Nat)
    (h : ∀ th ∈ t.threads, a ≤ th.start_idx) : t.starts_after a = true := by
  unfold Threads.starts_after
  cases ht : t.threads with
  | nil => simp
  | cons x xs =>
    have hx := h x (ht ▸ List.mem_cons_self x xs)
    simp [List.headD, hx]

/-- **C3**: in the main loop of `shortest_match_`, whenever a match
`(a, e)` has been remembered after advancing the threads at the current
position and every thread live in the (swapped-in) `cur` list has
`start_idx ≥ a`, the engine returns `(a, e)` — even though `starts_after`
inspects only the first thread of the list. -/
theorem smLoop_early_exit (prog : Program) (skip : Skipper) (init : Initter)
    (s : String) (fuel pos : Nat) (threads : ProgThreads) (acc : Option (Nat × Nat))
    (a e : Nat)
    (hpos : pos < s.utf8ByteSize)
    (hacc : (advanceAll prog threads acc (s.get ⟨pos⟩) pos).2 = some (a, e))
    (hall : ∀ th ∈ ((advanceAll prog threads acc (s.get ⟨pos⟩) pos).1.swap).cur.threads,
        a ≤ th.start_idx) :
    smLoop prog skip init s (fuel + 1) threads acc pos = some (some (a, e)) := by
  have hsa := starts_after_of_all _ a hall
  unfold smLoop
  rw [if_pos hpos]
  simp only [hacc, Option.isSome_some, Option.getD_some, Bool.true_and]
  rw [hsa]
  simp

/-- Witness for C3 at a concrete input: a one-instruction program that
accepts immediately; on input `"a"` with one seeded thread the loop
returns the remembered match `(0, 0)`. -/
theorem smLoop_early_exit_witness :
    ((0 : Nat) < ("a" : String).utf8ByteSize ∧
     (advanceAll ⟨1, fun _ _ => (none, true, false), fun _ => false⟩
        ⟨⟨[⟨0, 0⟩], [1]⟩, ⟨[], [0]⟩⟩ none (("a" : String).get ⟨0⟩) 0).2 = some (0, 0)) ∧
    smLoop ⟨1, fun _ _ => (none, true, false), fun _ => false⟩
      ⟨fun _ _ _ => none⟩ ⟨fun _ => none⟩ "a" 1
      ⟨⟨[⟨0, 0⟩], [1]⟩, ⟨[], [0]⟩⟩ none 0 = some (some (0, 0)) := by
  constructor
  · constructor
    · decide
    · rfl
  · exact smLoop_early_exit ⟨1, fun _ _ => (none, true, false), fun _ => false⟩
      ⟨fun _ _ _ => none⟩ ⟨fun _ => none⟩ "a" 0 0
      ⟨⟨[⟨0, 0⟩], [1]⟩, ⟨[], [0]⟩⟩ none 0 0 (by decide) rfl
      (fun th _ => Nat.zero_le th.start_idx)

/-! ### C1: the `max_states` cap in byte lowering -/

theorem length_add_transition (nfa : Nfa) (f t : Nat) (r : CharRange) :
    (nfa.add_transition f t r).states.length = nfa.states.length := by
  simp [Nfa.add_transition, List.length_modify]

theorem length_add_state (nfa : Nfa) (a : Accept) :
    (nfa.add_state a).states.length = nfa.states.length + 1 := by
  simp [Nfa.add_state]

theorem length_headFold (h : List Utf8Range) :
    ∀ (nfa : Nfa) (ls : Nat),
      (h.foldl Nfa.addUtf8HeadStep (nfa, ls)).1.states.length
        = nfa.states.length + h.length := by
  induction h with
  | nil => intro nfa ls; simp
  | cons r rest ih =>
    intro nfa ls
    rw [List.foldl_cons]
    have hstep : (Nfa.addUtf8HeadStep (nfa, ls) r).1.states.length
        = nfa.states.length + 1 := by
      simp [Nfa.addUtf8HeadStep, length_add_transition, length_add_state]
    calc (rest.foldl Nfa.addUtf8HeadStep (Nfa.addUtf8HeadStep (nfa, ls) r)).1.states.length
        = (Nfa.addUtf8HeadStep (nfa, ls) r).1.states.length + rest.length := by
          have := ih (Nfa.addUtf8HeadStep (nfa, ls) r).1 (Nfa.addUtf8HeadStep (nfa, ls) r).2
          simpa using this
      _ = nfa.states.length + 1 + rest.length := by rw [hstep]
      _ = nfa.states.length + (rest.length + 1) := by omega
      _ = nfa.states.length + (r :: rest).length := by simp

theorem length_lastByteFold (l : List Utf8Range) (a b : Nat) :
    ∀ (g : Nfa),
      (l.foldl (fun nfa range =>
        nfa.add_transition a b (CharRange.new range.start range.end_)) g).states.length
        = g.states.length := by
  induction l with
  | nil => intro g; simp
  | cons r rest ih =>
    intro g
    rw [List.foldl_cons, ih, length_add_transition]

theorem length_add_utf8_sequence (nfa : Nfa) (st : Nat) (tgt : Option Nat)
    (seq : MergedUtf8Sequences) :
    (nfa.add_utf8_sequence st tgt seq).states.length
      = nfa.states.length + seq.head.length + (if tgt.isSome then 0 else 1) := by
  unfold Nfa.add_utf8_sequence
  cases tgt with
  | some e =>
    simp only [Option.isSome_some, if_pos]
    rw [length_lastByteFold]
    simpa using length_headFold seq.head nfa st
  | none =>
    simp only [Option.isSome_none]
    rw [length_lastByteFold]
    simp only [List.length_modify, length_add_state]
    rw [length_headFold seq.head nfa st]
    simp

theorem length_mergedFold (ms : List MergedUtf8Sequences) (st : Nat) (tgt : Option Nat) :
    ∀ (g : Nfa),
      (ms.foldl (fun nfa m => nfa.add_utf8_sequence st tgt m) g).states.length
        = g.states.length + headSum ms + (if tgt.isSome then 0 else ms.length) := by
  induction ms with
  | nil => intro g; simp [headSum]
  | cons m rest ih =>
    intro g
    rw [List.foldl_cons, ih, length_add_utf8_sequence]
    simp only [headSum, List.map_cons, List.sum_cons]
    cases tgt <;> simp <;> omega

/-- **C1** (amended): `add_utf8_sequences` fails with `TooManyStates`
exactly when `|states| + Σ head.len()` would exceed `max_states`.  On
success it adds exactly `Σ head.len()` states when a target state is
given (so `byte_me` stays within the cap), but with target `None` (the
`byte_accept` path) each merged sequence allocates `head.len() + 1`
states while the pre-check sums only `head.len()`, so the result can
exceed `max_states` by up to the number of merged sequences. -/
theorem add_utf8_sequences_cap (nfa : Nfa) (st : Nat) (ranges : List CharRange)
    (target : Option Nat) (max_states : Nat) :
    (nfa.add_utf8_sequences st ranges target max_states = .error Error.TooManyStates
       ↔ max_states < nfa.states.length + headSum (Nfa.mergedOf ranges)) ∧
    (∀ nfa', nfa.add_utf8_sequences st ranges target max_states = .ok nfa' →
       nfa'.states.length = nfa.states.length + headSum (Nfa.mergedOf ranges)
         + (if target.isSome then 0 else (Nfa.mergedOf ranges).length) ∧
       (target.isSome → nfa'.states.length ≤ max_states) ∧
       nfa'.states.length ≤ max_states + (Nfa.mergedOf ranges).length) := by
  unfold Nfa.add_utf8_sequences
  have hsum : (List.map (fun m => m.head.length) (Nfa.mergedOf ranges)).sum
      = headSum (Nfa.mergedOf ranges) := rfl
  by_cases h : nfa.states.length
      + (List.map (fun m => m.head.length) (Nfa.mergedOf ranges)).sum > max_states
  · rw [if_pos h]
    rw [hsum] at h
    constructor
    · simp [h]
    · intro nfa' hok
      exact absurd hok (by simp)
  · rw [if_neg h]
    rw [hsum] at h
    constructor
    · constructor
      · intro hcontra
        exact absurd hcontra (by simp)
      · intro hlt
        omega
    · intro nfa' hok
      have hok' : (Nfa.mergedOf ranges).foldl
          (fun nfa m => nfa.add_utf8_sequence st target m) nfa = nfa' := by
        simpa using hok
      have hlen := length_mergedFold (Nfa.mergedOf ranges) st target nfa
      rw [hok'] at hlen
      refine ⟨hlen, ?_, ?_⟩
      · intro hsome
        cases target with
        | none => simp at hsome
        | some t =>
          simp only [Option.isSome_some, if_true] at hlen
          omega
      · cases target with
        | none =>
          simp only [Option.isSome_none, Bool.false_eq_true, if_false] at hlen
          omega
        | some t =>
          simp only [Option.isSome_some, if_true] at hlen
          omega

/-- Witness for C1's amended theorem at a concrete input (the `'a'`
accept class with target `None` and `max_states = 5`). -/
theorem add_utf8_sequences_cap_witness :
    ((nfaAtCharA.add_utf8_sequences 0 ([⟨97, 97⟩] : List CharRange) none 5
        = .error Error.TooManyStates
       ↔ 5 < nfaAtCharA.states.length + headSum (Nfa.mergedOf [⟨97, 97⟩])) ∧
     (∀ nfa', nfaAtCharA.add_utf8_sequences 0 ([⟨97, 97⟩] : List CharRange) none 5 = .ok nfa' →
       nfa'.states.length = nfaAtCharA.states.length + headSum (Nfa.mergedOf [⟨97, 97⟩])
         + (if (none : Option Nat).isSome then 0 else (Nfa.mergedOf [⟨97, 97⟩]).length) ∧
       ((none : Option Nat).isSome → nfa'.states.length ≤ 5) ∧
       nfa'.states.length ≤ 5 + (Nfa.mergedOf [⟨97, 97⟩]).length)) :=
  add_utf8_sequences_cap nfaAtCharA 0 ([⟨97, 97⟩] : List CharRange) none 5

/-- **C1** counterexample: on a one-state automaton accepting at the
follow-character class `{'a'}`, `byte_accept(1)` returns `Ok` even though
the resulting automaton has `2 > 1 = max_states` states: the pre-check
sums only `head.len()` (here `0`) although the merged sequence allocates
`head.len() + 1` states. -/
theorem byte_accept_exceeds_cap :
    (match nfaAtCharA.byte_accept 1 with
     | .ok n => some n.states.length
     | .error _ => none) = some 2 ∧
    nfaAtCharA.states.length = 1 := by
  constructor
  · rfl
  · rfl

/-! ### C4: no predicates left after `remove_predicates` -/

theorem foldl_preserve {α β : Type} (f : α → β → α) (P : α → Prop)
    (h : ∀ a b, P a → P (f a b)) : ∀ (l : List β) (a : α), P a → P (l.foldl f a) := by
  intro l
  induction l with
  | nil => intro a ha; exact ha
  | cons b rest ih => intro a ha; exact ih _ (h a b ha)

theorem length_add_predicate (nfa : Nfa) (f t : Nat) (p : Predicate) :
    (nfa.add_predicate f t p).states.length = nfa.states.length := by
  simp [Nfa.add_predicate, List.length_modify]

theorem length_removeOnePred (idx : Nat) (acc : Nfa × Nfa × CharMultiMap Nat)
    (pe : Predicate × Nat) :
    (Nfa.removeOnePred idx acc pe).1.states.length = acc.1.states.length + 1 := by
  unfold Nfa.removeOnePred
  simp only []
  set self0 := acc.1 with hself0
  -- after the push the first component has `|acc.1.states| + 1` states and
  -- every later step of the let chain preserves that length
  refine foldl_preserve _ (fun sr : Nfa × Nfa => sr.1.states.length = acc.1.states.length + 1)
    (fun a e ha => ?_) _ _ (
    foldl_preserve _ (fun sr : Nfa × Nfa => sr.1.states.length = acc.1.states.length + 1)
      (fun a e ha => ?_) _ _ (
      foldl_preserve _ (fun sr : Nfa × Nfa => sr.1.states.length = acc.1.states.length + 1)
        (fun a e ha => ?_) _ _ (
        foldl_preserve _ (fun sr : Nfa × Nfa => sr.1.states.length = acc.1.states.length + 1)
          (fun a e ha => ?_) _ _ ?_)))
  · match pe with
    | (pred, tgt) =>
      match hi : Predicate.intersect pred e.1 with
      | some q => simpa [hi, length_add_predicate] using ha
      | none => simpa [hi] using ha
  · exact foldl_preserve _ (fun sr : Nfa × Nfa => sr.1.states.length = acc.1.states.length + 1)
      (fun a2 t ha2 => by simpa [length_add_transition] using ha2) _ _ ha
  · match pe with
    | (pred, tgt) =>
      match hi : Predicate.intersect pred e.1 with
      | some q => simpa [hi, length_add_predicate] using ha
      | none => simpa [hi] using ha
  · exact foldl_preserve _ (fun sr : Nfa × Nfa => sr.1.states.length = acc.1.states.length + 1)
      (fun a2 t ha2 => by simpa [length_add_transition] using ha2) _ _ ha
  · split
    all_goals simp [List.length_append]

theorem length_removeOnePred_fold (idx : Nat) (l : List (Predicate × Nat)) :
    ∀ b : Nfa × Nfa × CharMultiMap Nat,
      (l.foldl (Nfa.removeOnePred idx) b).1.states.length
        = b.1.states.length + l.length := by
  induction l with
  | nil => intro b; simp
  | cons pe rest ih =>
    intro b
    rw [List.foldl_cons, ih, length_removeOnePred]
    simp only [List.length_cons]
    omega

theorem length_removeAtIdx (acc : Nfa × Nfa × CharMultiMap Nat) (idx : Nat) :
    (Nfa.removeAtIdx acc idx).1.states.length
      = acc.1.states.length + (predsAt acc.1 idx).length := by
  unfold Nfa.removeAtIdx
  rw [length_removeOnePred_fold]
  simp [predsAt, List.length_modify]

theorem length_pass_mono (l : List Nat) :
    ∀ acc, acc.1.states.length ≤ (l.foldl Nfa.removeAtIdx acc).1.states.length := by
  induction l with
  | nil => intro acc; simp
  | cons i rest ih =>
    intro acc
    rw [List.foldl_cons]
    calc acc.1.states.length ≤ (Nfa.removeAtIdx acc i).1.states.length := by
          rw [length_removeAtIdx]; omega
      _ ≤ _ := ih _

theorem removeAtIdx_of_no_preds (acc : Nfa × Nfa × CharMultiMap Nat) (idx : Nat)
    (h : predsAt acc.1 idx = []) :
    Nfa.removeAtIdx acc idx =
      ({ acc.1 with states := acc.1.states.modify (fun st =>
          { st with transitions := { st.transitions with predicates := [] } }) idx },
        acc.2.1, acc.2.2) := by
  unfold Nfa.removeAtIdx
  simp only [predsAt] at h
  dsimp only []
  rw [h]
  simp

theorem predsAt_clear_self (nfa : Nfa) (i j : Nat) :
    predsAt { nfa with states := nfa.states.modify (fun st =>
      { st with transitions := { st.transitions with predicates := [] } }) i } j
    = if j = i then [] else predsAt nfa j := by
  unfold predsAt
  by_cases hji : j = i
  · subst hji
    by_cases hlt : j < nfa.states.length
    · simp [List.getD_eq_getElem?_getD, List.getElem?_modify,
        List.getElem?_eq_getElem hlt]
    · have hle : nfa.states.length ≤ j := Nat.le_of_not_lt hlt
      simp [List.getD_eq_getElem?_getD, List.getElem?_modify,
        List.getElem?_eq_none hle]
      rfl
  · have hij : i ≠ j := fun hh => hji hh.symm
    simp only [List.getD_eq_getElem?_getD, List.getElem?_modify, if_neg hij, if_neg hji]
    cases h2 : nfa.states[j]? <;> simp [h2]

theorem pass_preds_of_len_eq (l : List Nat) :
    ∀ acc, (l.foldl Nfa.removeAtIdx acc).1.states.length = acc.1.states.length →
      ∀ j, predsAt (l.foldl Nfa.removeAtIdx acc).1 j
            = if j ∈ l then [] else predsAt acc.1 j := by
  induction l with
  | nil =>
    intro acc _ j
    simp
  | cons i rest ih =>
    intro acc hlen j
    rw [List.foldl_cons] at hlen ⊢
    have h1 := length_removeAtIdx acc i
    have h2 := length_pass_mono rest (Nfa.removeAtIdx acc i)
    have hp : predsAt acc.1 i = [] := by
      have : (predsAt acc.1 i).length = 0 := by omega
      exact List.eq_nil_of_length_eq_zero this
    rw [removeAtIdx_of_no_preds acc i hp] at hlen ⊢
    have hlen' : ((rest.foldl Nfa.removeAtIdx
        ({ acc.1 with states := acc.1.states.modify (fun st =>
            { st with transitions := { st.transitions with predicates := [] } }) i },
          acc.2.1, acc.2.2)).1).states.length
        = ({ acc.1 with states := acc.1.states.modify (fun st =>
            { st with transitions := { st.transitions with predicates := [] } }) i },
           acc.2.1, acc.2.2).1.states.length := by
      simpa [List.length_modify] using hlen
    rw [ih _ hlen' j]
    rw [predsAt_clear_self]
    by_cases hj : j ∈ rest
    · simp [hj]
    · by_cases hji : j = i
      · simp [hj, hji]
      · simp [hj, hji]

theorem once_no_preds (nfa : Nfa) (ip : CharMultiMap Nat)
    (h : (nfa.remove_predicates_once ip).2.2 = false) :
    ∀ j, predsAt (nfa.remove_predicates_once ip).1 j = [] := by
  unfold Nfa.remove_predicates_once at h ⊢
  simp only [] at h ⊢
  have hle := length_pass_mono (List.range nfa.states.length) (nfa, nfa.reversed, ip)
  have hnotgt := of_decide_eq_false h
  have hlen : ((List.range nfa.states.length).foldl Nfa.removeAtIdx
      (nfa, nfa.reversed, ip)).1.states.length = nfa.states.length :=
    Nat.le_antisymm (Nat.le_of_not_lt hnotgt) hle
  intro j
  rw [pass_preds_of_len_eq (List.range nfa.states.length) (nfa, nfa.reversed, ip) hlen j]
  by_cases hj : j ∈ List.range nfa.states.length
  · simp [hj]
  · have hge : nfa.states.length ≤ j := by
      simpa [List.mem_range, Nat.not_lt] using hj
    simp only [hj, if_neg]
    unfold predsAt
    simp [List.getD_eq_getElem?_getD, List.getElem?_eq_none hge]
    rfl

theorem go_no_preds (fuel : Nat) :
    ∀ (nfa : Nfa) (ip : CharMultiMap Nat) (out : Nfa × CharMultiMap Nat),
      Nfa.remove_predicates_go fuel nfa ip = some out →
      ∀ j, predsAt out.1 j = [] := by
  induction fuel with
  | zero =>
    intro nfa ip out h
    exact absurd h (by simp [Nfa.remove_predicates_go])
  | succ fuel ih =>
    intro nfa ip out h
    unfold Nfa.remove_predicates_go at h
    simp only [] at h
    by_cases hch : (nfa.remove_predicates_once ip).2.2 = true
    · rw [if_pos hch] at h
      exact ih _ _ _ h
    · rw [if_neg hch] at h
      have hout : out.1 = (nfa.remove_predicates_once ip).1 := by
        cases h
        rfl
      rw [hout]
      exact once_no_preds nfa ip (Bool.not_eq_true _ ▸ (by simpa using hch))

/-- **C4**: whenever the fixed-point loop of `remove_predicates`
terminates, no state of the resulting automaton carries any `predicates`
entry. -/
theorem remove_predicates_no_predicates (nfa : Nfa) (fuel : Nat) (nfa' : Nfa)
    (h : nfa.remove_predicates fuel = some nfa') :
    ∀ st ∈ nfa'.states, st.transitions.predicates = [] := by
  unfold Nfa.remove_predicates at h
  simp only [] at h
  cases hgo : Nfa.remove_predicates_go fuel { nfa with init_at_start := nfa.init }
      CharMultiMap.new with
  | none =>
    rw [hgo] at h
    exact absurd h (by simp)
  | some out =>
    obtain ⟨o1, o2⟩ := out
    rw [hgo] at h
    have hpreds := go_no_preds fuel _ _ _ hgo
    have hstates : nfa'.states = o1.states := by
      cases h
      rfl
    intro st hst
    rw [hstates] at hst
    obtain ⟨j, hj, hjst⟩ := List.mem_iff_getElem.mp hst
    have := hpreds j
    unfold predsAt at this
    rw [List.getD_eq_getElem?_getD, List.getElem?_eq_getElem hj] at this
    simpa [hjst] using this

/-- Witness for C4 at a concrete input: the one-state self-loop-predicate
automaton, whose fixed point is reached within 3 passes. -/
theorem remove_predicates_no_predicates_witness :
    ((((nfaPredSelfLoop.remove_predicates 3).getD Nfa.new).states.getD 0
        default).transitions).predicates = [] :=
  remove_predicates_no_predicates nfaPredSelfLoop 3
    ((nfaPredSelfLoop.remove_predicates 3).getD Nfa.new) (by rfl)
    (((nfaPredSelfLoop.remove_predicates 3).getD Nfa.new).states.getD 0 default)
    (by decide)

/-! ### C8: double reversal preserves edges -/

theorem getD_add_transition (g : Nfa) (f t : Nat) (r : CharRange) (a : Nat) :
    (g.add_transition f t r).states.getD a default
      = if f = a ∧ a < g.states.length then
          { g.states.getD a default with transitions :=
            { (g.states.getD a default).transitions with
              consuming := CharMultiMap.push
                (g.states.getD a default).transitions.consuming r t } }
        else g.states.getD a default := by
  unfold Nfa.add_transition
  by_cases hfa : f = a
  · subst hfa
    by_cases hlt : f < g.states.length
    · simp [List.getD_eq_getElem?_getD, List.getElem?_modify,
        List.getElem?_eq_getElem hlt, hlt]
    · have hge := Nat.le_of_not_lt hlt
      simp [List.getD_eq_getElem?_getD, List.getElem?_modify,
        List.getElem?_eq_none hge, hlt]
  · have hcond : ¬(f = a ∧ a < g.states.length) := fun hh => hfa hh.1
    simp only [if_neg hcond]
    simp only [List.getD_eq_getElem?_getD, List.getElem?_modify, hfa, if_neg]
    cases g.states[a]? <;> simp

theorem getD_add_eps (g : Nfa) (f t : Nat) (a : Nat) :
    (g.add_eps f t).states.getD a default
      = if f = a ∧ a < g.states.length then
          { g.states.getD a default with transitions :=
            { (g.states.getD a default).transitions with
              eps := (g.states.getD a default).transitions.eps ++ [t] } }
        else g.states.getD a default := by
  unfold Nfa.add_eps
  by_cases hfa : f = a
  · subst hfa
    by_cases hlt : f < g.states.length
    · simp [List.getD_eq_getElem?_getD, List.getElem?_modify,
        List.getElem?_eq_getElem hlt, hlt]
    · have hge := Nat.le_of_not_lt hlt
      simp [List.getD_eq_getElem?_getD, List.getElem?_modify,
        List.getElem?_eq_none hge, hlt]
  · have hcond : ¬(f = a ∧ a < g.states.length) := fun hh => hfa hh.1
    simp only [if_neg hcond]
    simp only [List.getD_eq_getElem?_getD, List.getElem?_modify, hfa, if_neg]
    cases g.states[a]? <;> simp

theorem getD_add_predicate (g : Nfa) (f t : Nat) (p : Predicate) (a : Nat) :
    (g.add_predicate f t p).states.getD a default
      = if f = a ∧ a < g.states.length then
          { g.states.getD a default with transitions :=
            { (g.states.getD a default).transitions with
              predicates := (g.states.getD a default).transitions.predicates ++ [(p, t)] } }
        else g.states.getD a default := by
  unfold Nfa.add_predicate
  by_cases hfa : f = a
  · subst hfa
    by_cases hlt : f < g.states.length
    · simp [List.getD_eq_getElem?_getD, List.getElem?_modify,
        List.getElem?_eq_getElem hlt, hlt]
    · have hge := Nat.le_of_not_lt hlt
      simp [List.getD_eq_getElem?_getD, List.getElem?_modify,
        List.getElem?_eq_none hge, hlt]
  · have hcond : ¬(f = a ∧ a < g.states.length) := fun hh => hfa hh.1
    simp only [if_neg hcond]
    simp only [List.getD_eq_getElem?_getD, List.getElem?_modify, hfa, if_neg]
    cases g.states[a]? <;> simp

theorem consCount_add_transition (g : Nfa) (f t : Nat) (r : CharRange)
    (a b : Nat) (r' : CharRange) :
    consCount (g.add_transition f t r) a b r'
      = consCount g a b r' +
        (if f = a ∧ a < g.states.length ∧ r = r' ∧ t = b then 1 else 0) := by
  unfold consCount
  rw [getD_add_transition]
  by_cases hc : f = a ∧ a < g.states.length
  · rw [if_pos hc]
    simp only [CharMultiMap.push, List.filter_append, List.length_append]
    by_cases h3 : r = r' <;> by_cases h4 : t = b <;>
      simp [List.filter_cons, h3, h4, hc.1, hc.2]
  · rw [if_neg hc]
    have : ¬(f = a ∧ a < g.states.length ∧ r = r' ∧ t = b) := by
      intro hh
      exact hc ⟨hh.1, hh.2.1⟩
    rw [if_neg this]
    omega

theorem epsCount_add_transition (g : Nfa) (f t : Nat) (r : CharRange) (a b : Nat) :
    epsCount (g.add_transition f t r) a b = epsCount g a b := by
  unfold epsCount
  rw [getD_add_transition]
  split <;> rfl

theorem predCount_add_transition (g : Nfa) (f t : Nat) (r : CharRange)
    (a b : Nat) (p : Predicate) :
    predCount (g.add_transition f t r) a b p = predCount g a b p := by
  unfold predCount
  rw [getD_add_transition]
  split <;> rfl

theorem epsCount_add_eps (g : Nfa) (f t : Nat) (a b : Nat) :
    epsCount (g.add_eps f t) a b
      = epsCount g a b + (if f = a ∧ a < g.states.length ∧ t = b then 1 else 0) := by
  unfold epsCount
  rw [getD_add_eps]
  by_cases hc : f = a ∧ a < g.states.length
  · rw [if_pos hc]
    simp only [List.filter_append, List.length_append]
    by_cases h4 : t = b <;> simp [List.filter_cons, h4, hc.1, hc.2]
  · rw [if_neg hc]
    have : ¬(f = a ∧ a < g.states.length ∧ t = b) := by
      intro hh
      exact hc ⟨hh.1, hh.2.1⟩
    rw [if_neg this]
    omega

theorem consCount_add_eps (g : Nfa) (f t : Nat) (a b : Nat) (r : CharRange) :
    consCount (g.add_eps f t) a b r = consCount g a b r := by
  unfold consCount
  rw [getD_add_eps]
  split <;> rfl

theorem predCount_add_eps (g : Nfa) (f t : Nat) (a b : Nat) (p : Predicate) :
    predCount (g.add_eps f t) a b p = predCount g a b p := by
  unfold predCount
  rw [getD_add_eps]
  split <;> rfl

theorem predCount_add_predicate (g : Nfa) (f t : Nat) (q : Predicate)
    (a b : Nat) (p : Predicate) :
    predCount (g.add_predicate f t q) a b p
      = predCount g a b p +
        (if f = a ∧ a < g.states.length ∧ q = p ∧ t = b then 1 else 0) := by
  unfold predCount
  rw [getD_add_predicate]
  by_cases hc : f = a ∧ a < g.states.length
  · rw [if_pos hc]
    simp only [List.filter_append, List.length_append]
    by_cases h3 : q = p <;> by_cases h4 : t = b <;>
      simp [List.filter_cons, h3, h4, hc.1, hc.2]
  · rw [if_neg hc]
    have : ¬(f = a ∧ a < g.states.length ∧ q = p ∧ t = b) := by
      intro hh
      exact hc ⟨hh.1, hh.2.1⟩
    rw [if_neg this]
    omega

theorem consCount_add_predicate (g : Nfa) (f t : Nat) (q : Predicate)
    (a b : Nat) (r : CharRange) :
    consCount (g.add_predicate f t q) a b r = consCount g a b r := by
  unfold consCount
  rw [getD_add_predicate]
  split <;> rfl

theorem epsCount_add_predicate (g : Nfa) (f t : Nat) (q : Predicate) (a b : Nat) :
    epsCount (g.add_predicate f t q) a b = epsCount g a b := by
  unfold epsCount
  rw [getD_add_predicate]
  split <;> rfl

theorem length_add_eps (g : Nfa) (f t : Nat) :
    (g.add_eps f t).states.length = g.states.length := by
  simp [Nfa.add_eps, List.length_modify]

theorem length_consFold (idx : Nat) (L : List (CharRange × Nat)) (g : Nfa) :
    (L.foldl (fun (ret : Nfa) e => ret.add_transition e.2 idx e.1) g).states.length
      = g.states.length := by
  induction L generalizing g with
  | nil => rfl
  | cons e L ih => rw [List.foldl_cons, ih, length_add_transition]

theorem length_epsFold (idx : Nat) (L : List Nat) (g : Nfa) :
    (L.foldl (fun (ret : Nfa) t => ret.add_eps t idx) g).states.length
      = g.states.length := by
  induction L generalizing g with
  | nil => rfl
  | cons e L ih => rw [List.foldl_cons, ih, length_add_eps]

theorem length_predFold (idx : Nat) (L : List (Predicate × Nat)) (g : Nfa) :
    (L.foldl (fun (ret : Nfa) e => ret.add_predicate e.2 idx e.1) g).states.length
      = g.states.length := by
  induction L generalizing g with
  | nil => rfl
  | cons e L ih => rw [List.foldl_cons, ih, length_add_predicate]

theorem consFold_counts (idx : Nat) (L : List (CharRange × Nat)) :
    ∀ (g : Nfa) (a b : Nat),
      (∀ r, consCount (L.foldl (fun (ret : Nfa) e => ret.add_transition e.2 idx e.1) g) a b r
        = consCount g a b r +
          (if idx = b ∧ a < g.states.length then
            (L.filter (fun e => e.1 = r && e.2 = a)).length else 0)) ∧
      (epsCount (L.foldl (fun (ret : Nfa) e => ret.add_transition e.2 idx e.1) g) a b
        = epsCount g a b) ∧
      (∀ p, predCount (L.foldl (fun (ret : Nfa) e => ret.add_transition e.2 idx e.1) g) a b p
        = predCount g a b p) := by
  induction L with
  | nil =>
    intro g a b
    refine ⟨fun r => ?_, rfl, fun p => rfl⟩
    simp
  | cons e L ih =>
    intro g a b
    refine ⟨fun r => ?_, ?_, fun p => ?_⟩
    · rw [List.foldl_cons, (ih _ a b).1 r, consCount_add_transition,
        length_add_transition]
      by_cases h1 : idx = b <;> by_cases h2 : a < g.states.length <;>
        by_cases h3 : e.1 = r <;> by_cases h4 : e.2 = a <;>
        simp [List.filter_cons, h1, h2, h3, h4] <;> omega
    · rw [List.foldl_cons, (ih _ a b).2.1, epsCount_add_transition]
    · rw [List.foldl_cons, (ih _ a b).2.2 p, predCount_add_transition]

theorem epsFold_counts (idx : Nat) (L : List Nat) :
    ∀ (g : Nfa) (a b : Nat),
      (epsCount (L.foldl (fun (ret : Nfa) t => ret.add_eps t idx) g) a b
        = epsCount g a b +
          (if idx = b ∧ a < g.states.length then
            (L.filter (fun t => t = a)).length else 0)) ∧
      (∀ r, consCount (L.foldl (fun (ret : Nfa) t => ret.add_eps t idx) g) a b r
        = consCount g a b r) ∧
      (∀ p, predCount (L.foldl (fun (ret : Nfa) t => ret.add_eps t idx) g) a b p
        = predCount g a b p) := by
  induction L with
  | nil =>
    intro g a b
    refine ⟨?_, fun r => rfl, fun p => rfl⟩
    simp
  | cons e L ih =>
    intro g a b
    refine ⟨?_, fun r => ?_, fun p => ?_⟩
    · rw [List.foldl_cons, (ih _ a b).1, epsCount_add_eps, length_add_eps]
      by_cases h1 : idx = b <;> by_cases h2 : a < g.states.length <;>
        by_cases h4 : e = a <;>
        simp [List.filter_cons, h1, h2, h4] <;> omega
    · rw [List.foldl_cons, (ih _ a b).2.1 r, consCount_add_eps]
    · rw [List.foldl_cons, (ih _ a b).2.2 p, predCount_add_eps]

theorem predFold_counts (idx : Nat) (L : List (Predicate × Nat)) :
    ∀ (g : Nfa) (a b : Nat),
      (∀ p, predCount (L.foldl (fun (ret : Nfa) e => ret.add_predicate e.2 idx e.1) g) a b p
        = predCount g a b p +
          (if idx = b ∧ a < g.states.length then
            (L.filter (fun e => e.1 = p && e.2 = a)).length else 0)) ∧
      (∀ r, consCount (L.foldl (fun (ret : Nfa) e => ret.add_predicate e.2 idx e.1) g) a b r
        = consCount g a b r) ∧
      (epsCount (L.foldl (fun (ret : Nfa) e => ret.add_predicate e.2 idx e.1) g) a b
        = epsCount g a b) := by
  induction L with
  | nil =>
    intro g a b
    refine ⟨fun p => ?_, fun r => rfl, rfl⟩
    simp
  | cons e L ih =>
    intro g a b
    refine ⟨fun p => ?_, fun r => ?_, ?_⟩
    · rw [List.foldl_cons, (ih _ a b).1 p, predCount_add_predicate,
        length_add_predicate]
      by_cases h1 : idx = b <;> by_cases h2 : a < g.states.length <;>
        by_cases h3 : e.1 = p <;> by_cases h4 : e.2 = a <;>
        simp [List.filter_cons, h1, h2, h3, h4] <;> omega
    · rw [List.foldl_cons, (ih _ a b).2.1 r, consCount_add_predicate]
    · rw [List.foldl_cons, (ih _ a b).2.2, epsCount_add_predicate]

theorem length_revStep (nfa : Nfa) (g : Nfa) (idx : Nat) :
    (Nfa.revStep nfa g idx).states.length = g.states.length := by
  unfold Nfa.revStep
  rw [length_predFold, length_epsFold, length_consFold]

theorem revStep_counts (nfa : Nfa) (idx : Nat) (g : Nfa) (a b : Nat) :
    (∀ r, consCount (Nfa.revStep nfa g idx) a b r
        = consCount g a b r +
          (if idx = b ∧ a < g.states.length then
            (((nfa.states.getD idx default).transitions.consuming
               : List (CharRange × Nat)).filter (fun e => e.1 = r && e.2 = a)).length
           else 0)) ∧
    (epsCount (Nfa.revStep nfa g idx) a b
        = epsCount g a b +
          (if idx = b ∧ a < g.states.length then
            (((nfa.states.getD idx default).transitions.eps).filter
              (fun t => t = a)).length
           else 0)) ∧
    (∀ p, predCount (Nfa.revStep nfa g idx) a b p
        = predCount g a b p +
          (if idx = b ∧ a < g.states.length then
            (((nfa.states.getD idx default).transitions.predicates).filter
              (fun e => e.1 = p && e.2 = a)).length
           else 0)) := by
  unfold Nfa.revStep
  refine ⟨fun r => ?_, ?_, fun p => ?_⟩
  · rw [(predFold_counts _ _ _ a b).2.1 r, (epsFold_counts _ _ _ a b).2.1 r,
      (consFold_counts _ _ _ a b).1 r]
  · rw [(predFold_counts _ _ _ a b).2.2, (epsFold_counts _ _ _ a b).1,
      length_consFold, (consFold_counts _ _ _ a b).2.1]
  · rw [(predFold_counts _ _ _ a b).1 p, length_epsFold, length_consFold,
      (epsFold_counts _ _ _ a b).2.2 p, (consFold_counts _ _ _ a b).2.2 p]

theorem length_revRange (nfa : Nfa) (n : Nat) (g : Nfa) :
    ((List.range n).foldl (Nfa.revStep nfa) g).states.length = g.states.length := by
  induction n with
  | zero => rfl
  | succ n ih =>
    rw [List.range_succ, List.foldl_append, List.foldl_cons, List.foldl_nil,
      length_revStep, ih]

theorem revRange_counts (nfa : Nfa) (n : Nat) (g : Nfa) (a b : Nat) :
    (∀ r, consCount ((List.range n).foldl (Nfa.revStep nfa) g) a b r
        = consCount g a b r +
          (if b < n ∧ a < g.states.length then
            (((nfa.states.getD b default).transitions.consuming
               : List (CharRange × Nat)).filter (fun e => e.1 = r && e.2 = a)).length
           else 0)) ∧
    (epsCount ((List.range n).foldl (Nfa.revStep nfa) g) a b
        = epsCount g a b +
          (if b < n ∧ a < g.states.length then
            (((nfa.states.getD b default).transitions.eps).filter
              (fun t => t = a)).length
           else 0)) ∧
    (∀ p, predCount ((List.range n).foldl (Nfa.revStep nfa) g) a b p
        = predCount g a b p +
          (if b < n ∧ a < g.states.length then
            (((nfa.states.getD b default).transitions.predicates).filter
              (fun e => e.1 = p && e.2 = a)).length
           else 0)) := by
  induction n with
  | zero =>
    refine ⟨fun r => ?_, ?_, fun p => ?_⟩ <;> simp
  | succ n ih =>
    have hlen := length_revRange nfa n g
    refine ⟨fun r => ?_, ?_, fun p => ?_⟩
    all_goals rw [List.range_succ, List.foldl_append, List.foldl_cons, List.foldl_nil]
    · rw [(revStep_counts nfa n _ a b).1 r, ih.1 r, hlen]
      by_cases h2 : a < g.states.length
      · by_cases h3 : b = n
        · subst h3
          simp [Nat.lt_irrefl, h2, Nat.lt_succ_self]
        · have hnb : ¬ (n = b) := fun hh => h3 hh.symm
          by_cases h1 : b < n
          · have hb1 : b < n + 1 := by omega
            simp [h1, h2, hb1, hnb]
          · have hb1 : ¬ b < n + 1 := by omega
            simp [h1, h2, hb1, hnb]
      · simp [h2]
    · rw [(revStep_counts nfa n _ a b).2.1, ih.2.1, hlen]
      by_cases h2 : a < g.states.length
      · by_cases h3 : b = n
        · subst h3
          simp [Nat.lt_irrefl, h2, Nat.lt_succ_self]
        · have hnb : ¬ (n = b) := fun hh => h3 hh.symm
          by_cases h1 : b < n
          · have hb1 : b < n + 1 := by omega
            simp [h1, h2, hb1, hnb]
          · have hb1 : ¬ b < n + 1 := by omega
            simp [h1, h2, hb1, hnb]
      · simp [h2]
    · rw [(revStep_counts nfa n _ a b).2.2 p, ih.2.2 p, hlen]
      by_cases h2 : a < g.states.length
      · by_cases h3 : b = n
        · subst h3
          simp [Nat.lt_irrefl, h2, Nat.lt_succ_self]
        · have hnb : ¬ (n = b) := fun hh => h3 hh.symm
          by_cases h1 : b < n
          · have hb1 : b < n + 1 := by omega
            simp [h1, h2, hb1, hnb]
          · have hb1 : ¬ b < n + 1 := by omega
            simp [h1, h2, hb1, hnb]
      · simp [h2]

theorem reversed_counts (nfa : Nfa) (a b : Nat) (ha : a < nfa.states.length) :
    (∀ r, consCount nfa.reversed a b r = consCount nfa b a r) ∧
    (epsCount nfa.reversed a b = epsCount nfa b a) ∧
    (∀ p, predCount nfa.reversed a b p = predCount nfa b a p) := by
  unfold Nfa.reversed
  set g : Nfa := ⟨nfa.states.map (fun st => NfaState.new st.accept),
    StateSet.new, StateSet.new, CharMap.new⟩ with hg
  have hglen : g.states.length = nfa.states.length := by simp [hg]
  have htrans : ∀ a', (g.states.getD a' default).transitions = NfaTransitions.new := by
    intro a'
    rw [List.getD_eq_getElem?_getD, hg]
    simp only [List.getElem?_map]
    cases nfa.states[a']? <;> rfl
  have hc0 : ∀ r, consCount g a b r = 0 := by
    intro r
    unfold consCount
    rw [htrans]
    rfl
  have he0 : epsCount g a b = 0 := by
    unfold epsCount
    rw [htrans]
    rfl
  have hp0 : ∀ p, predCount g a b p = 0 := by
    intro p
    unfold predCount
    rw [htrans]
    rfl
  have hrr := revRange_counts nfa nfa.states.length g a b
  have hag : a < g.states.length := by rw [hglen]; exact ha
  by_cases hb : b < nfa.states.length
  · refine ⟨fun r => ?_, ?_, fun p => ?_⟩
    · rw [hrr.1 r, hc0, if_pos ⟨hb, hag⟩]
      simp [consCount]
    · rw [hrr.2.1, he0, if_pos ⟨hb, hag⟩]
      simp [epsCount]
    · rw [hrr.2.2 p, hp0, if_pos ⟨hb, hag⟩]
      simp [predCount]
  · have hcond : ¬(b < nfa.states.length ∧ a < g.states.length) := fun hh => hb hh.1
    have hbge : nfa.states.length ≤ b := Nat.le_of_not_lt hb
    have hdefault : nfa.states.getD b default = default := by
      rw [List.getD_eq_getElem?_getD, List.getElem?_eq_none hbge]
      rfl
    refine ⟨fun r => ?_, ?_, fun p => ?_⟩
    · rw [hrr.1 r, hc0, if_neg hcond]
      unfold consCount
      rw [hdefault]
      rfl
    · rw [hrr.2.1, he0, if_neg hcond]
      unfold epsCount
      rw [hdefault]
      rfl
    · rw [hrr.2.2 p, hp0, if_neg hcond]
      unfold predCount
      rw [hdefault]
      rfl

theorem length_reversed (nfa : Nfa) :
    nfa.reversed.states.length = nfa.states.length := by
  unfold Nfa.reversed
  rw [length_revRange]
  simp

/-- **C8**: reversal round-trips — `reversed().reversed()` has the same
states (indices preserved) and exactly the same consuming, ε and
predicate edges, with multiplicity, between every pair of states as the
original automaton. -/
theorem reversed_reversed_edges (nfa : Nfa) :
    nfa.reversed.reversed.states.length = nfa.states.length ∧
    ∀ a b, a < nfa.states.length → b < nfa.states.length →
      (∀ r, consCount nfa.reversed.reversed a b r = consCount nfa a b r) ∧
      (epsCount nfa.reversed.reversed a b = epsCount nfa a b) ∧
      (∀ p, predCount nfa.reversed.reversed a b p = predCount nfa a b p) := by
  constructor
  · rw [length_reversed, length_reversed]
  · intro a b ha hb
    have h1 := reversed_counts nfa.reversed a b (by rw [length_reversed]; exact ha)
    have h2 := reversed_counts nfa b a hb
    exact ⟨fun r => by rw [h1.1 r, h2.1 r],
           by rw [h1.2.1, h2.2.1],
           fun p => by rw [h1.2.2 p, h2.2.2 p]⟩

/-- Witness for C8 at a concrete input: the two-state automaton with one
edge of each kind, at the state pair `(0, 1)`. -/
theorem reversed_reversed_edges_witness :
    (0 : Nat) < nfaTwoEdges.states.length ∧ (1 : Nat) < nfaTwoEdges.states.length ∧
    ((∀ r, consCount nfaTwoEdges.reversed.reversed 0 1 r = consCount nfaTwoEdges 0 1 r) ∧
     (epsCount nfaTwoEdges.reversed.reversed 0 1 = epsCount nfaTwoEdges 0 1) ∧
     (∀ p, predCount nfaTwoEdges.reversed.reversed 0 1 p = predCount nfaTwoEdges 0 1 p)) :=
  ⟨by decide, by decide,
   (reversed_reversed_edges nfaTwoEdges).2 0 1 (by decide) (by decide)⟩

/-! ### C6: trimming keeps exactly the useful states -/

theorem mem_dedupFirst {α : Type} [DecidableEq α] (l : List α) (x : α) :
    x ∈ dedupFirst l ↔ x ∈ l := by
  induction l with
  | nil => simp [dedupFirst]
  | cons a l ih =>
    simp only [dedupFirst, List.mem_cons]
    constructor
    · intro h
      cases h with
      | inl h => exact Or.inl h
      | inr h => exact Or.inr (ih.mp (List.mem_of_mem_filter h))
    · intro h
      cases h with
      | inl h => exact Or.inl h
      | inr h =>
        by_cases hax : x = a
        · exact Or.inl hax
        · refine Or.inr (List.mem_filter.mpr ⟨ih.mpr h, ?_⟩)
          simp [hax]

theorem nodup_dedupFirst {α : Type} [DecidableEq α] (l : List α) :
    (dedupFirst l).Nodup := by
  induction l with
  | nil => simp [dedupFirst]
  | cons a l ih =>
    simp only [dedupFirst]
    refine List.Nodup.cons ?_ (List.Nodup.filter _ ih)
    intro hmem
    have := List.mem_filter.mp hmem
    simp at this

theorem mem_insertAsc (y x : Nat) (l : List Nat) :
    x ∈ insertAsc y l ↔ x = y ∨ x ∈ l := by
  induction l with
  | nil => simp [insertAsc]
  | cons a l ih =>
    simp only [insertAsc]
    split
    · simp
    · simp only [List.mem_cons, ih]
      tauto

theorem mem_sortAsc (l : List Nat) (x : Nat) : x ∈ sortAsc l ↔ x ∈ l := by
  induction l with
  | nil => simp [sortAsc]
  | cons a l ih =>
    simp only [sortAsc, List.foldr_cons] at *
    rw [mem_insertAsc, ih]
    simp

theorem length_filter_mono {α : Type} (p q : α → Bool) (U : List α)
    (h : ∀ a, p a = true → q a = true) :
    (U.filter p).length ≤ (U.filter q).length := by
  induction U with
  | nil => simp
  | cons a U ih =>
    rw [List.filter_cons, List.filter_cons]
    by_cases hp : p a = true
    · rw [hp, h a hp]
      simpa using ih
    · have hp' : p a = false := by simpa using hp
      by_cases hq : q a = true
      · simp only [hp', hq, Bool.false_eq_true, if_false, if_true, List.length_cons]
        omega
      · have hq' : q a = false := by simpa using hq
        simp only [hp', hq', Bool.false_eq_true, if_false]
        exact ih

theorem length_filter_lt {α : Type} (pnew pold : α → Bool) (U : List α)
    (hmono : ∀ a, pnew a = true → pold a = true) (y : α) (hy : y ∈ U)
    (hold : pold y = true) (hnew : pnew y = false) :
    (U.filter pnew).length < (U.filter pold).length := by
  induction U with
  | nil => cases hy
  | cons a U ih =>
    rw [List.filter_cons, List.filter_cons]
    by_cases hya : y = a
    · subst hya
      have := length_filter_mono pnew pold U hmono
      simp only [hold, hnew, Bool.false_eq_true, if_false, if_true, List.length_cons]
      omega
    · have hyU : y ∈ U := by
        cases List.mem_cons.mp hy with
        | inl h => exact absurd h hya
        | inr h => exact h
      have hrec := ih hyU
      by_cases hpa : pnew a = true
      · simp only [hpa, hmono a hpa, if_true, List.length_cons]
        omega
      · have hpa' : pnew a = false := by simpa using hpa
        by_cases hpo : pold a = true
        · simp only [hpa', hpo, Bool.false_eq_true, if_false, if_true, List.length_cons]
          omega
        · have hpo' : pold a = false := by simpa using hpo
          simp only [hpa', hpo', Bool.false_eq_true, if_false]
          exact hrec

theorem bfsRounds_zero (succs : Nat → List Nat) (active ret : List Nat) :
    bfsRounds succs 0 active ret = ret := rfl

theorem bfsRounds_nil (succs : Nat → List Nat) (fuel : Nat) (ret : List Nat) :
    bfsRounds succs (fuel + 1) [] ret = ret := rfl

theorem bfsRounds_cons (succs : Nat → List Nat) (fuel : Nat) (a : Nat)
    (as ret : List Nat) :
    bfsRounds succs (fuel + 1) (a :: as) ret
      = bfsRounds succs fuel
          (dedupFirst (((a :: as).flatMap succs).filter (fun t => !ret.contains t)))
          (ret ++ dedupFirst (((a :: as).flatMap succs).filter
            (fun t => !ret.contains t))) := rfl

theorem bfsRounds_mono (succs : Nat → List Nat) :
    ∀ (fuel : Nat) (active ret : List Nat) (x : Nat), x ∈ ret →
      x ∈ bfsRounds succs fuel active ret := by
  intro fuel
  induction fuel with
  | zero => intro active ret x hx; exact hx
  | succ fuel ih =>
    intro active ret x hx
    cases active with
    | nil => exact hx
    | cons a as =>
      rw [bfsRounds_cons]
      exact ih _ _ x (List.mem_append_left _ hx)

theorem bfsRounds_sound (succs : Nat → List Nat) (P : Nat → Prop)
    (hstep : ∀ x y, P x → y ∈ succs x → P y) :
    ∀ (fuel : Nat) (active ret : List Nat),
      (∀ x ∈ ret, P x) → (∀ x ∈ active, x ∈ ret) →
      ∀ x ∈ bfsRounds succs fuel active ret, P x := by
  intro fuel
  induction fuel with
  | zero => intro active ret hret _ x hx; exact hret x hx
  | succ fuel ih =>
    intro active ret hret hsub x hx
    cases active with
    | nil => exact hret x hx
    | cons a as =>
      rw [bfsRounds_cons] at hx
      refine ih _ _ ?_ ?_ x hx
      · intro z hz
        rcases List.mem_append.mp hz with hz | hz
        · exact hret z hz
        · rw [mem_dedupFirst] at hz
          obtain ⟨w, hw, hzw⟩ := List.mem_flatMap.mp (List.mem_of_mem_filter hz)
          exact hstep w z (hret w (hsub w hw)) hzw
      · intro z hz
        exact List.mem_append_right _ hz

theorem bfsRounds_closed (succs : Nat → List Nat) (U : List Nat)
    (hU : ∀ x y, y ∈ succs x → y ∈ U) :
    ∀ (fuel : Nat) (active ret : List Nat),
      (∀ x ∈ active, x ∈ ret) →
      (∀ x ∈ ret, x ∉ active → ∀ y ∈ succs x, y ∈ ret) →
      (U.filter (fun u => !ret.contains u)).length + 2 ≤ fuel →
      ∀ x ∈ bfsRounds succs fuel active ret, ∀ y ∈ succs x,
        y ∈ bfsRounds succs fuel active ret := by
  intro fuel
  induction fuel with
  | zero =>
    intro active ret _ _ hf
    omega
  | succ fuel ih =>
    intro active ret hsub hclosed hf
    cases active with
    | nil =>
      rw [bfsRounds_nil]
      intro x hx y hy
      exact hclosed x hx (by simp) y hy
    | cons a as =>
      rw [bfsRounds_cons]
      by_cases hfe : dedupFirst (((a :: as).flatMap succs).filter
          (fun t => !ret.contains t)) = []
      · rw [hfe]
        have hret' : ∀ x ∈ ret, ∀ y ∈ succs x, y ∈ ret := by
          intro x hx y hy
          by_cases hxa : x ∈ a :: as
          · by_cases hyret : y ∈ ret
            · exact hyret
            · exfalso
              have hyf : y ∈ dedupFirst (((a :: as).flatMap succs).filter
                  (fun t => !ret.contains t)) := by
                rw [mem_dedupFirst]
                refine List.mem_filter.mpr ⟨List.mem_flatMap.mpr ⟨x, hxa, hy⟩, ?_⟩
                simp [hyret]
              rw [hfe] at hyf
              cases hyf
          · exact hclosed x hx hxa y hy
        cases fuel with
        | zero => omega
        | succ fuel2 =>
          rw [bfsRounds_nil]
          intro x hx y hy
          have hxr : x ∈ ret := by simpa using hx
          have := hret' x hxr y hy
          simpa using this
      · obtain ⟨w, hw⟩ := List.exists_mem_of_ne_nil _ hfe
        have hwU : w ∈ U := by
          rw [mem_dedupFirst] at hw
          obtain ⟨v, _, hvw⟩ := List.mem_flatMap.mp (List.mem_of_mem_filter hw)
          exact hU v w hvw
        have hwnr : w ∉ ret := by
          rw [mem_dedupFirst] at hw
          have := List.mem_filter.mp hw
          simpa using this.2
        have hdec : ((U.filter (fun u => !(ret ++ dedupFirst (((a :: as).flatMap succs).filter
            (fun t => !ret.contains t))).contains u)).length
            < (U.filter (fun u => !ret.contains u)).length) := by
          refine length_filter_lt _ _ U ?_ w hwU ?_ ?_
          · intro z hz
            have hz' : z ∉ ret ++ dedupFirst (((a :: as).flatMap succs).filter
                (fun t => !ret.contains t)) := by
              simpa using hz
            have hzr : z ∉ ret := fun hr => hz' (List.mem_append_left _ hr)
            simpa using hzr
          · simpa using hwnr
          · have hmem : w ∈ ret ++ dedupFirst (((a :: as).flatMap succs).filter
                (fun t => !ret.contains t)) := List.mem_append_right _ hw
            have htrue : (ret ++ dedupFirst (((a :: as).flatMap succs).filter
                (fun t => !ret.contains t))).contains w = true :=
              List.elem_eq_true_of_mem hmem
            show (!(ret ++ dedupFirst (((a :: as).flatMap succs).filter
                (fun t => !ret.contains t))).contains w) = false
            rw [htrue]
            rfl
        refine ih _ _ ?_ ?_ ?_
        · intro z hz
          exact List.mem_append_right _ hz
        · intro x hx hxnf y hy
          rcases List.mem_append.mp hx with hxr | hxf
          · by_cases hxa : x ∈ a :: as
            · by_cases hyr : y ∈ ret
              · exact List.mem_append_left _ hyr
              · refine List.mem_append_right _ ?_
                rw [mem_dedupFirst]
                refine List.mem_filter.mpr ⟨List.mem_flatMap.mpr ⟨x, hxa, hy⟩, ?_⟩
                simp [hyr]
            · exact List.mem_append_left _ (hclosed x hxr hxa y hy)
          · exact absurd hxf hxnf
        · omega

theorem allSuccs_out_of_range (nfa : Nfa) (x : Nat)
    (hx : nfa.states.length ≤ x) : nfa.allSuccs x = [] := by
  unfold Nfa.allSuccs
  rw [List.getD_eq_getElem?_getD, List.getElem?_eq_none hx]
  rfl

theorem allSuccs_mem_targets (nfa : Nfa) (x y : Nat) (h : y ∈ nfa.allSuccs x) :
    y ∈ nfa.allTargetsList := by
  by_cases hx : x < nfa.states.length
  · unfold Nfa.allSuccs at h
    unfold Nfa.allTargetsList
    refine List.mem_flatMap.mpr ⟨nfa.states.getD x default, ?_, h⟩
    rw [List.getD_eq_getElem?_getD, List.getElem?_eq_getElem hx]
    exact List.getElem_mem hx
  · rw [allSuccs_out_of_range nfa x (Nat.le_of_not_lt hx)] at h
    cases h

theorem length_allTargetsList (nfa : Nfa) :
    nfa.allTargetsList.length = nfa.totalEdges := by
  unfold Nfa.allTargetsList Nfa.totalEdges
  rw [List.length_flatMap]
  congr 1
  apply List.map_congr_left
  intro st _
  simp [Function.comp, Nat.add_assoc]

theorem mem_reachable_from (nfa : Nfa) (S : StateSet) (x : Nat) :
    x ∈ nfa.reachable_from S ↔ ∃ s ∈ (S : List Nat), nfa.Reaches s x := by
  unfold Nfa.reachable_from
  rw [mem_sortAsc]
  constructor
  · intro hx
    refine bfsRounds_sound nfa.allSuccs (fun z => ∃ s ∈ (S : List Nat), nfa.Reaches s z)
      ?_ _ _ _ ?_ ?_ x hx
    · intro z y hz hy
      obtain ⟨s, hs, hr⟩ := hz
      exact ⟨s, hs, Relation.ReflTransGen.tail hr hy⟩
    · intro z hz
      rw [mem_dedupFirst] at hz
      exact ⟨z, hz, Relation.ReflTransGen.refl⟩
    · intro z hz
      exact hz
  · rintro ⟨s, hs, hr⟩
    have hbase : s ∈ bfsRounds nfa.allSuccs (nfa.totalEdges + 2)
        (dedupFirst (S : List Nat)) (dedupFirst (S : List Nat)) :=
      bfsRounds_mono _ _ _ _ s ((mem_dedupFirst _ _).mpr hs)
    have hfuel : ((nfa.allTargetsList.filter
        (fun u => !(dedupFirst (S : List Nat)).contains u)).length + 2
        ≤ nfa.totalEdges + 2) := by
      have h1 := List.length_filter_le
        (fun u => !(dedupFirst (S : List Nat)).contains u) nfa.allTargetsList
      have h2 := length_allTargetsList nfa
      omega
    have hclosed := bfsRounds_closed nfa.allSuccs nfa.allTargetsList
      (fun a b hb => allSuccs_mem_targets nfa a b hb)
      (nfa.totalEdges + 2) (dedupFirst (S : List Nat)) (dedupFirst (S : List Nat))
      (fun z hz => hz) (fun z hz hznot => absurd hz hznot) hfuel
    induction hr with
    | refl => exact hbase
    | tail hab hbc ihstep =>
      exact hclosed _ ihstep _ hbc

theorem filter_length_pos_iff {α : Type} (p : α → Bool) (l : List α) :
    0 < (l.filter p).length ↔ ∃ x ∈ l, p x = true := by
  rw [List.length_pos, Ne, List.filter_eq_nil_iff]
  push_neg
  simp

theorem mem_allSuccs_counts (g : Nfa) (a b : Nat) :
    b ∈ g.allSuccs a ↔
      0 < epsCount g a b ∨ (∃ r, 0 < consCount g a b r) ∨
        (∃ p, 0 < predCount g a b p) := by
  unfold Nfa.allSuccs epsCount consCount predCount
  simp only [List.mem_append, List.mem_map]
  constructor
  · rintro ((h | ⟨e, he, hb⟩) | ⟨e, he, hb⟩)
    · refine Or.inl ((filter_length_pos_iff _ _).mpr ⟨b, h, by simp⟩)
    · exact Or.inr (Or.inl ⟨e.1, (filter_length_pos_iff _ _).mpr
        ⟨e, he, by simp [hb]⟩⟩)
    · exact Or.inr (Or.inr ⟨e.1, (filter_length_pos_iff _ _).mpr
        ⟨e, he, by simp [hb]⟩⟩)
  · rintro (h | ⟨r, h⟩ | ⟨p, h⟩)
    · obtain ⟨t, ht, hp⟩ := (filter_length_pos_iff _ _).mp h
      have : t = b := by simpa using hp
      exact Or.inl (Or.inl (this ▸ ht))
    · obtain ⟨e, he, hp⟩ := (filter_length_pos_iff _ _).mp h
      have : e.2 = b := by
        simp only [Bool.and_eq_true, decide_eq_true_eq] at hp
        exact hp.2
      exact Or.inl (Or.inr ⟨e, he, this⟩)
    · obtain ⟨e, he, hp⟩ := (filter_length_pos_iff _ _).mp h
      have : e.2 = b := by
        simp only [Bool.and_eq_true, decide_eq_true_eq] at hp
        exact hp.2
      exact Or.inr ⟨e, he, this⟩

theorem step_valid_target (nfa : Nfa) (hv : ValidNfa nfa) (b a : Nat)
    (h : nfa.Step b a) : a < nfa.states.length := by
  by_cases hb : b < nfa.states.length
  · unfold Nfa.Step Nfa.allSuccs at h
    have hst : nfa.states.getD b default ∈ nfa.states := by
      rw [List.getD_eq_getElem?_getD, List.getElem?_eq_getElem hb]
      exact List.getElem_mem hb
    obtain ⟨hcons, heps, hpreds⟩ := hv.1 _ hst
    rcases List.mem_append.mp h with h | h
    · rcases List.mem_append.mp h with h | h
      · exact heps a h
      · obtain ⟨e, he, hb2⟩ := List.mem_map.mp h
        exact hb2 ▸ hcons e he
    · obtain ⟨e, he, hb2⟩ := List.mem_map.mp h
      exact hb2 ▸ hpreds e he
  · unfold Nfa.Step at h
    rw [allSuccs_out_of_range nfa b (Nat.le_of_not_lt hb)] at h
    cases h

theorem step_reversed_iff (nfa : Nfa) (hv : ValidNfa nfa) (a b : Nat) :
    nfa.reversed.Step a b ↔ nfa.Step b a := by
  by_cases ha : a < nfa.states.length
  · unfold Nfa.Step
    rw [mem_allSuccs_counts, mem_allSuccs_counts]
    have hc := reversed_counts nfa a b ha
    constructor
    · rintro (h | ⟨r, h⟩ | ⟨p, h⟩)
      · exact Or.inl (hc.2.1 ▸ h)
      · exact Or.inr (Or.inl ⟨r, hc.1 r ▸ h⟩)
      · exact Or.inr (Or.inr ⟨p, hc.2.2 p ▸ h⟩)
    · rintro (h | ⟨r, h⟩ | ⟨p, h⟩)
      · exact Or.inl ((hc.2.1).symm ▸ h)
      · exact Or.inr (Or.inl ⟨r, (hc.1 r).symm ▸ h⟩)
      · exact Or.inr (Or.inr ⟨p, (hc.2.2 p).symm ▸ h⟩)
  · constructor
    · intro h
      unfold Nfa.Step at h
      rw [allSuccs_out_of_range nfa.reversed a (by
        rw [length_reversed]
        exact Nat.le_of_not_lt ha)] at h
      cases h
    · intro h
      exact absurd (step_valid_target nfa hv b a h) ha

theorem reaches_reversed_iff (nfa : Nfa) (hv : ValidNfa nfa) (a b : Nat) :
    nfa.reversed.Reaches a b ↔ nfa.Reaches b a := by
  constructor
  · intro h
    induction h with
    | refl => exact Relation.ReflTransGen.refl
    | tail _ hyz ih =>
      exact Relation.ReflTransGen.head ((step_reversed_iff nfa hv _ _).mp hyz) ih
  · intro h
    induction h with
    | refl => exact Relation.ReflTransGen.refl
    | tail _ hyz ih =>
      exact Relation.ReflTransGen.head ((step_reversed_iff nfa hv _ _).mpr hyz) ih

theorem mem_finalStates (nfa : Nfa) (f : Nat) :
    f ∈ nfa.finalStates ↔
      f < nfa.states.length ∧
        (nfa.states.getD f default).accept.is_never = false := by
  unfold Nfa.finalStates
  rw [List.mem_map]
  constructor
  · rintro ⟨e, he, hf⟩
    obtain ⟨hmem, hacc⟩ := List.mem_filter.mp he
    have hget := List.mem_enum_iff_getElem?.mp hmem
    have hlt : e.1 < nfa.states.length := by
      by_contra hge
      rw [List.getElem?_eq_none (Nat.le_of_not_lt hge)] at hget
      cases hget
    subst hf
    refine ⟨hlt, ?_⟩
    rw [List.getD_eq_getElem?_getD, hget]
    simpa using hacc
  · rintro ⟨hlt, hacc⟩
    refine ⟨(f, nfa.states.getD f default), List.mem_filter.mpr ⟨?_, ?_⟩, rfl⟩
    · rw [List.mem_enum_iff_getElem?]
      rw [List.getD_eq_getElem?_getD, List.getElem?_eq_getElem hlt]
      rfl
    · simp only [List.getD_eq_getElem?_getD, List.getElem?_eq_getElem hlt,
        Option.getD_some] at hacc
      simp [List.getElem?_eq_getElem hlt, hacc]

theorem mem_reachable_states (nfa : Nfa) (hv : ValidNfa nfa) (x : Nat) :
    x ∈ nfa.reachable_states ↔
      (∃ i ∈ nfa.initsAll, nfa.Reaches i x) ∧
      (∃ f ∈ nfa.finalStates, nfa.Reaches x f) := by
  unfold Nfa.reachable_states
  simp only [StateSet.intersect_with]
  rw [List.mem_filter]
  constructor
  · rintro ⟨hfwd, hbwd⟩
    constructor
    · obtain ⟨s, hs, hr⟩ := (mem_reachable_from nfa _ x).mp hfwd
      refine ⟨s, ?_, hr⟩
      rw [mem_sortAsc] at hs
      exact hs
    · have hbwd' : x ∈ nfa.reversed.reachable_from nfa.finalStates := by
        simpa using hbwd
      obtain ⟨f, hf, hr⟩ := (mem_reachable_from nfa.reversed _ x).mp hbwd'
      exact ⟨f, hf, (reaches_reversed_iff nfa hv f x).mp hr⟩
  · rintro ⟨⟨i, hi, hri⟩, ⟨f, hf, hrf⟩⟩
    refine ⟨(mem_reachable_from nfa _ x).mpr ⟨i, ?_, hri⟩, ?_⟩
    · rw [mem_sortAsc]
      exact hi
    · have : x ∈ nfa.reversed.reachable_from nfa.finalStates :=
        (mem_reachable_from nfa.reversed _ x).mpr
          ⟨f, hf, (reaches_reversed_iff nfa hv f x).mpr hrf⟩
      simpa using this

theorem trimNewToOld_pairwise (nfa : Nfa) :
    (Nfa.trimNewToOld nfa).Pairwise (· < ·) :=
  List.Pairwise.filter _ (List.pairwise_lt_range _)

theorem mem_trimNewToOld (nfa : Nfa) (x : Nat) :
    x ∈ Nfa.trimNewToOld nfa ↔
      x < nfa.states.length ∧ x ∈ nfa.reachable_states := by
  unfold Nfa.trimNewToOld
  rw [List.mem_filter, List.mem_range]
  simp [StateSet.contains]

theorem trimMapState_fwd (nfa : Nfa) (j : Nat)
    (hj : j < (Nfa.trimNewToOld nfa).length) :
    Nfa.trimMapState nfa ((Nfa.trimNewToOld nfa).getD j 0) = some j := by
  unfold Nfa.trimMapState
  rw [List.findIdx?_eq_some_iff_findIdx_eq]
  refine ⟨hj, ?_⟩
  rw [List.findIdx_eq hj]
  constructor
  · rw [List.getD_eq_getElem _ _ hj]
    simp
  · intro i hij
    have hi : i < (Nfa.trimNewToOld nfa).length := Nat.lt_trans hij hj
    have hlt := List.pairwise_iff_getElem.mp (trimNewToOld_pairwise nfa) i j hi hj hij
    rw [List.getD_eq_getElem _ _ hj]
    simp only [decide_eq_false_iff_not]
    exact Nat.ne_of_lt hlt

theorem trimMapState_inv (nfa : Nfa) (x j : Nat)
    (h : Nfa.trimMapState nfa x = some j) :
    j < (Nfa.trimNewToOld nfa).length ∧ (Nfa.trimNewToOld nfa).getD j 0 = x := by
  unfold Nfa.trimMapState at h
  obtain ⟨hj, hfind⟩ := List.findIdx?_eq_some_iff_findIdx_eq.mp h
  refine ⟨hj, ?_⟩
  have := @List.findIdx_getElem Nat (fun y => y = x) (Nfa.trimNewToOld nfa)
    (hfind ▸ hj)
  rw [List.getD_eq_getElem _ _ hj]
  have h2 : (Nfa.trimNewToOld nfa)[List.findIdx (fun y => decide (y = x))
      (Nfa.trimNewToOld nfa)] = x := by
    simpa using this
  calc (Nfa.trimNewToOld nfa)[j] = (Nfa.trimNewToOld nfa)[List.findIdx
      (fun y => decide (y = x)) (Nfa.trimNewToOld nfa)] := by
        congr 1
        exact hfind.symm
    _ = x := h2

theorem trimMapState_some_of_mem (nfa : Nfa) (x : Nat)
    (hx : x ∈ Nfa.trimNewToOld nfa) : ∃ j, Nfa.trimMapState nfa x = some j := by
  unfold Nfa.trimMapState
  cases hfind : (Nfa.trimNewToOld nfa).findIdx? (fun y => y = x) with
  | some j => exact ⟨j, rfl⟩
  | none =>
    exfalso
    have := List.findIdx?_eq_none_iff.mp hfind x hx
    simp at this

theorem trim_states_length (nfa : Nfa) :
    nfa.trim_unreachable.states.length = (Nfa.trimNewToOld nfa).length := by
  unfold Nfa.trim_unreachable
  simp

theorem trim_states_getD (nfa : Nfa) (j : Nat)
    (hj : j < (Nfa.trimNewToOld nfa).length) :
    nfa.trim_unreachable.states.getD j default
      = { nfa.states.getD ((Nfa.trimNewToOld nfa).getD j 0) default with
          transitions := (nfa.states.getD ((Nfa.trimNewToOld nfa).getD j 0)
            default).transitions.filter_map_targets (Nfa.trimMapState nfa) } := by
  unfold Nfa.trim_unreachable
  dsimp only []
  have hj2 : j < ((Nfa.trimNewToOld nfa).map
      (fun i => nfa.states.getD i default)).length := by simpa using hj
  have hj3 : j < (((Nfa.trimNewToOld nfa).map
      (fun i => nfa.states.getD i default)).map (fun st =>
        { st with transitions :=
            st.transitions.filter_map_targets (Nfa.trimMapState nfa) })).length := by
    simpa using hj
  rw [List.getD_eq_getElem _ _ hj3, List.getElem_map, List.getElem_map,
    List.getD_eq_getElem _ _ hj]

theorem trim_allSuccs (nfa : Nfa) (j k : Nat)
    (hj : j < (Nfa.trimNewToOld nfa).length) :
    k ∈ nfa.trim_unreachable.allSuccs j ↔
      ∃ t, Nfa.trimMapState nfa t = some k ∧
        t ∈ nfa.allSuccs ((Nfa.trimNewToOld nfa).getD j 0) := by
  unfold Nfa.allSuccs
  rw [trim_states_getD nfa j hj]
  unfold NfaTransitions.filter_map_targets
  simp only [List.mem_append, List.mem_filterMap, List.mem_map]
  constructor
  · rintro ((⟨t, ht, hf⟩ | ⟨e', ⟨e, he, hfe⟩, hk⟩) | ⟨e', ⟨e, he, hfe⟩, hk⟩)
    · exact ⟨t, hf, Or.inl (Or.inl ht)⟩
    · obtain ⟨y, hy, hey⟩ := Option.map_eq_some'.mp hfe
      subst hey
      subst hk
      exact ⟨e.2, hy, Or.inl (Or.inr ⟨e, he, rfl⟩)⟩
    · obtain ⟨y, hy, hey⟩ := Option.map_eq_some'.mp hfe
      subst hey
      subst hk
      exact ⟨e.2, hy, Or.inr ⟨e, he, rfl⟩⟩
  · rintro ⟨t, hf, ((ht | ⟨e, he, he2⟩) | ⟨e, he, he2⟩)⟩
    · exact Or.inl (Or.inl ⟨t, ht, hf⟩)
    · refine Or.inl (Or.inr ⟨(e.1, k), ⟨e, he, ?_⟩, rfl⟩)
      rw [he2, hf]
      rfl
    · refine Or.inr ⟨(e.1, k), ⟨e, he, ?_⟩, rfl⟩
      rw [he2, hf]
      rfl

theorem trim_step_iff (nfa : Nfa) (j k : Nat)
    (hj : j < (Nfa.trimNewToOld nfa).length)
    (hk : k < (Nfa.trimNewToOld nfa).length) :
    nfa.trim_unreachable.Step j k ↔
      nfa.Step ((Nfa.trimNewToOld nfa).getD j 0) ((Nfa.trimNewToOld nfa).getD k 0) := by
  unfold Nfa.Step
  rw [trim_allSuccs nfa j k hj]
  constructor
  · rintro ⟨t, hf, ht⟩
    have := trimMapState_inv nfa t k hf
    rw [this.2]
    exact ht
  · intro h
    exact ⟨(Nfa.trimNewToOld nfa).getD k 0, trimMapState_fwd nfa k hk, h⟩

theorem trim_step_target_lt (nfa : Nfa) (j k : Nat)
    (hj : j < (Nfa.trimNewToOld nfa).length)
    (h : nfa.trim_unreachable.Step j k) :
    k < (Nfa.trimNewToOld nfa).length := by
  unfold Nfa.Step at h
  rw [trim_allSuccs nfa j k hj] at h
  obtain ⟨t, hf, _⟩ := h
  exact (trimMapState_inv nfa t k hf).1

theorem trim_reaches_lift (nfa : Nfa) (hv : ValidNfa nfa) (b : Nat) :
    ∀ a, nfa.Reaches a b →
      a ∈ nfa.reachable_states →
      (∃ f ∈ nfa.finalStates, nfa.Reaches b f) →
      ∀ ja jb, Nfa.trimMapState nfa a = some ja →
        Nfa.trimMapState nfa b = some jb →
        nfa.trim_unreachable.Reaches ja jb := by
  intro a hr
  induction hr using Relation.ReflTransGen.head_induction_on with
  | refl =>
    intro _ _ ja jb hfa hfb
    rw [hfa] at hfb
    cases hfb
    exact Relation.ReflTransGen.refl
  | @head a c hstep htail ih =>
    intro hmemA hbwdB ja jb hfa hfb
    have hcR : c ∈ nfa.reachable_states := by
      rw [mem_reachable_states nfa hv]
      have haR := (mem_reachable_states nfa hv a).mp hmemA
      constructor
      · obtain ⟨i, hi, hri⟩ := haR.1
        exact ⟨i, hi, hri.tail hstep⟩
      · obtain ⟨f, hf, hrf⟩ := hbwdB
        exact ⟨f, hf, htail.trans hrf⟩
    have hclt : c < nfa.states.length := step_valid_target nfa hv a c hstep
    have hcmem : c ∈ Nfa.trimNewToOld nfa := (mem_trimNewToOld nfa c).mpr ⟨hclt, hcR⟩
    obtain ⟨jc, hjc⟩ := trimMapState_some_of_mem nfa c hcmem
    have hja := trimMapState_inv nfa a ja hfa
    have hjc2 := trimMapState_inv nfa c jc hjc
    have hstep2 : nfa.trim_unreachable.Step ja jc := by
      rw [trim_step_iff nfa ja jc hja.1 hjc2.1, hja.2, hjc2.2]
      exact hstep
    exact Relation.ReflTransGen.head hstep2 (ih hcR hbwdB jc jb hjc hfb)

theorem initsAll_valid (nfa : Nfa) (hv : ValidNfa nfa) :
    ∀ i ∈ nfa.initsAll, i < nfa.states.length := by
  intro i hi
  unfold Nfa.initsAll at hi
  rcases List.mem_append.mp hi with hi | hi
  · rcases List.mem_append.mp hi with hi | hi
    · exact hv.2.1 i hi
    · exact hv.2.2.1 i hi
  · obtain ⟨e, he, hie⟩ := List.mem_flatMap.mp hi
    exact hv.2.2.2 e he i hie

theorem mem_trim_initsAll (nfa : Nfa) (x j : Nat)
    (hmap : Nfa.trimMapState nfa x = some j) (hx : x ∈ nfa.initsAll) :
    j ∈ nfa.trim_unreachable.initsAll := by
  unfold Nfa.initsAll at hx ⊢
  unfold Nfa.trim_unreachable
  dsimp only []
  rcases List.mem_append.mp hx with hx | hx
  · rcases List.mem_append.mp hx with hx | hx
    · exact List.mem_append_left _ (List.mem_append_left _
        (List.mem_filterMap.mpr ⟨x, hx, hmap⟩))
    · exact List.mem_append_left _ (List.mem_append_right _
        (List.mem_filterMap.mpr ⟨x, hx, hmap⟩))
  · obtain ⟨e, he, hxe⟩ := List.mem_flatMap.mp hx
    refine List.mem_append_right _ (List.mem_flatMap.mpr
      ⟨(e.1, (e.2 : List Nat).filterMap (Nfa.trimMapState nfa)), ?_, ?_⟩)
    · unfold CharMap.map_values
      exact List.mem_map.mpr ⟨e, he, rfl⟩
    · exact List.mem_filterMap.mpr ⟨x, hxe, hmap⟩

theorem trim_postcondition (nfa : Nfa) (hv : ValidNfa nfa) (j : Nat)
    (hj : j < (Nfa.trimNewToOld nfa).length) :
    (∃ i ∈ nfa.trim_unreachable.initsAll, nfa.trim_unreachable.Reaches i j) ∧
    (∃ f ∈ nfa.trim_unreachable.finalStates, nfa.trim_unreachable.Reaches j f) := by
  have holdmem : (Nfa.trimNewToOld nfa).getD j 0 ∈ Nfa.trimNewToOld nfa := by
    rw [List.getD_eq_getElem _ _ hj]
    exact List.getElem_mem hj
  have holdR : (Nfa.trimNewToOld nfa).getD j 0 ∈ nfa.reachable_states :=
    ((mem_trimNewToOld nfa _).mp holdmem).2
  obtain ⟨⟨i0, hi0, hri⟩, ⟨f0, hf0, hrf⟩⟩ :=
    (mem_reachable_states nfa hv _).mp holdR
  have hi0R : i0 ∈ nfa.reachable_states := by
    rw [mem_reachable_states nfa hv]
    exact ⟨⟨i0, hi0, Relation.ReflTransGen.refl⟩, ⟨f0, hf0, hri.trans hrf⟩⟩
  have hi0lt : i0 < nfa.states.length := initsAll_valid nfa hv i0 hi0
  obtain ⟨ji, hji⟩ := trimMapState_some_of_mem nfa i0
    ((mem_trimNewToOld nfa i0).mpr ⟨hi0lt, hi0R⟩)
  have hfold := trimMapState_fwd nfa j hj
  constructor
  · refine ⟨ji, mem_trim_initsAll nfa i0 ji hji hi0, ?_⟩
    exact trim_reaches_lift nfa hv _ i0 hri hi0R ⟨f0, hf0, hrf⟩ ji j hji hfold
  · have hf0R : f0 ∈ nfa.reachable_states := by
      rw [mem_reachable_states nfa hv]
      exact ⟨⟨i0, hi0, hri.trans hrf⟩, ⟨f0, hf0, Relation.ReflTransGen.refl⟩⟩
    have hf0lt : f0 < nfa.states.length := ((mem_finalStates nfa f0).mp hf0).1
    obtain ⟨jf, hjf⟩ := trimMapState_some_of_mem nfa f0
      ((mem_trimNewToOld nfa f0).mpr ⟨hf0lt, hf0R⟩)
    refine ⟨jf, ?_, ?_⟩
    · rw [mem_finalStates]
      obtain ⟨hjf1, hjf2⟩ := trimMapState_inv nfa f0 jf hjf
      constructor
      · rw [trim_states_length]
        exact hjf1
      · rw [trim_states_getD nfa jf hjf1, hjf2]
        exact ((mem_finalStates nfa f0).mp hf0).2
    · exact trim_reaches_lift nfa hv f0 _ hrf holdR
        ⟨f0, hf0, Relation.ReflTransGen.refl⟩ j jf hfold hjf

theorem reaches_lt (nfa : Nfa) (hv : ValidNfa nfa) (s x : Nat)
    (hs : s < nfa.states.length) (h : nfa.Reaches s x) :
    x < nfa.states.length := by
  induction h with
  | refl => exact hs
  | tail _ hstep _ => exact step_valid_target nfa hv _ _ hstep

theorem reachable_states_lt (nfa : Nfa) (hv : ValidNfa nfa) (x : Nat)
    (hx : x ∈ nfa.reachable_states) : x < nfa.states.length := by
  obtain ⟨⟨i, hi, hri⟩, _⟩ := (mem_reachable_states nfa hv x).mp hx
  exact reaches_lt nfa hv i x (initsAll_valid nfa hv i hi) hri

theorem count_filterMap_pair {κ : Type} [DecidableEq κ] (f : Nat → Option Nat)
    (k ok : Nat) (hfwd : f ok = some k) (hinj : ∀ x, f x = some k → x = ok)
    (L : List (κ × Nat)) (r : κ) :
    ((L.filterMap (fun e => (f e.2).map (fun y => (e.1, y)))).filter
      (fun e => e.1 = r && e.2 = k)).length
      = (L.filter (fun e => e.1 = r && e.2 = ok)).length := by
  induction L with
  | nil => rfl
  | cons e L ih =>
    cases hfe : f e.2 with
    | none =>
      have hnone : (fun e => (f e.2).map (fun y => ((e.1 : κ), y))) e = none := by
        simp [hfe]
      rw [@List.filterMap_cons_none _ _
        (fun e => Option.map (fun y => ((e.1 : κ), y)) (f e.2)) e L hnone,
        List.filter_cons]
      have hne : e.2 ≠ ok := by
        intro hh
        rw [hh, hfwd] at hfe
        cases hfe
      have hfalse : (decide (e.1 = r) && decide (e.2 = ok)) = false := by
        simp [hne]
      rw [hfalse]
      simp only [Bool.false_eq_true, if_false]
      exact ih
    | some y =>
      have hsome : (fun e => (f e.2).map (fun y => ((e.1 : κ), y))) e
          = some (e.1, y) := by
        simp [hfe]
      rw [@List.filterMap_cons_some _ _
        (fun e => Option.map (fun y => ((e.1 : κ), y)) (f e.2)) e L (e.1, y) hsome,
        List.filter_cons, List.filter_cons]
      by_cases hyk : y = k
      · have heok : e.2 = ok := hinj e.2 (hyk ▸ hfe)
        by_cases her : e.1 = r
        · have h1 : (decide ((e.1, y).1 = r) && decide ((e.1, y).2 = k)) = true := by
            simp [her, hyk]
          have h2 : (decide (e.1 = r) && decide (e.2 = ok)) = true := by
            simp [her, heok]
          rw [h1, h2]
          simp only [if_true, List.length_cons]
          rw [ih]
        · have h1 : (decide ((e.1, y).1 = r) && decide ((e.1, y).2 = k)) = false := by
            simp [her]
          have h2 : (decide (e.1 = r) && decide (e.2 = ok)) = false := by
            simp [her]
          rw [h1, h2]
          simp only [Bool.false_eq_true, if_false]
          exact ih
      · have hne : e.2 ≠ ok := by
          intro hh
          rw [hh, hfwd] at hfe
          exact hyk (Option.some.inj hfe.symm)
        have h1 : (decide ((e.1, y).1 = r) && decide ((e.1, y).2 = k)) = false := by
          simp [hyk]
        have h2 : (decide (e.1 = r) && decide (e.2 = ok)) = false := by
          simp [hne]
        rw [h1, h2]
        simp only [Bool.false_eq_true, if_false]
        exact ih

theorem count_filterMap_nat (f : Nat → Option Nat) (k ok : Nat)
    (hfwd : f ok = some k) (hinj : ∀ x, f x = some k → x = ok) (L : List Nat) :
    ((L.filterMap f).filter (fun t => t = k)).length
      = (L.filter (fun t => t = ok)).length := by
  induction L with
  | nil => rfl
  | cons e L ih =>
    cases hfe : f e with
    | none =>
      rw [List.filterMap_cons_none hfe, List.filter_cons]
      have hne : e ≠ ok := by
        intro hh
        rw [hh, hfwd] at hfe
        cases hfe
      have hfalse : decide (e = ok) = false := by simp [hne]
      rw [hfalse]
      simp only [Bool.false_eq_true, if_false]
      exact ih
    | some y =>
      rw [List.filterMap_cons_some hfe, List.filter_cons, List.filter_cons]
      by_cases hyk : y = k
      · have heok : e = ok := hinj e (hyk ▸ hfe)
        have h1 : decide (y = k) = true := by simp [hyk]
        have h2 : decide (e = ok) = true := by simp [heok]
        rw [h1, h2]
        simp only [if_true, List.length_cons]
        rw [ih]
      · have hne : e ≠ ok := by
          intro hh
          rw [hh, hfwd] at hfe
          exact hyk (Option.some.inj hfe.symm)
        have h1 : decide (y = k) = false := by simp [hyk]
        have h2 : decide (e = ok) = false := by simp [hne]
        rw [h1, h2]
        simp only [Bool.false_eq_true, if_false]
        exact ih

theorem trimMapState_inj_old (nfa : Nfa) (k : Nat)
    (hk : k < (Nfa.trimNewToOld nfa).length) :
    ∀ x, Nfa.trimMapState nfa x = some k → x = (Nfa.trimNewToOld nfa).getD k 0 := by
  intro x hx
  exact (trimMapState_inv nfa x k hx).2.symm

theorem trim_counts (nfa : Nfa) (j k : Nat)
    (hj : j < (Nfa.trimNewToOld nfa).length)
    (hk : k < (Nfa.trimNewToOld nfa).length) :
    (∀ r, consCount nfa.trim_unreachable j k r
        = consCount nfa ((Nfa.trimNewToOld nfa).getD j 0)
            ((Nfa.trimNewToOld nfa).getD k 0) r) ∧
    (epsCount nfa.trim_unreachable j k
        = epsCount nfa ((Nfa.trimNewToOld nfa).getD j 0)
            ((Nfa.trimNewToOld nfa).getD k 0)) ∧
    (∀ p, predCount nfa.trim_unreachable j k p
        = predCount nfa ((Nfa.trimNewToOld nfa).getD j 0)
            ((Nfa.trimNewToOld nfa).getD k 0) p) := by
  have hfwd := trimMapState_fwd nfa k hk
  have hinj := trimMapState_inj_old nfa k hk
  unfold consCount epsCount predCount
  rw [trim_states_getD nfa j hj]
  unfold NfaTransitions.filter_map_targets
  exact ⟨fun r => count_filterMap_pair _ k _ hfwd hinj _ r,
    count_filterMap_nat _ k _ hfwd hinj _,
    fun p => count_filterMap_pair _ k _ hfwd hinj _ p⟩

theorem mem_filterMap_trim (nfa : Nfa) (L : List Nat) (j : Nat)
    (hj : j < (Nfa.trimNewToOld nfa).length) :
    j ∈ L.filterMap (Nfa.trimMapState nfa) ↔
      (Nfa.trimNewToOld nfa).getD j 0 ∈ L := by
  rw [List.mem_filterMap]
  constructor
  · rintro ⟨x, hx, hmap⟩
    rw [← trimMapState_inj_old nfa j hj x hmap]
    exact hx
  · intro h
    exact ⟨_, h, trimMapState_fwd nfa j hj⟩

theorem trim_init_iff (nfa : Nfa) (j : Nat)
    (hj : j < (Nfa.trimNewToOld nfa).length) :
    (j ∈ (nfa.trim_unreachable.init : List Nat) ↔
      (Nfa.trimNewToOld nfa).getD j 0 ∈ (nfa.init : List Nat)) ∧
    (j ∈ (nfa.trim_unreachable.init_at_start : List Nat) ↔
      (Nfa.trimNewToOld nfa).getD j 0 ∈ (nfa.init_at_start : List Nat)) := by
  unfold Nfa.trim_unreachable
  exact ⟨mem_filterMap_trim nfa _ j hj, mem_filterMap_trim nfa _ j hj⟩

theorem trim_iac (nfa : Nfa) :
    (nfa.trim_unreachable.init_after_char : List (CharRange × StateSet)).length
      = (nfa.init_after_char : List (CharRange × StateSet)).length ∧
    ∀ idx, idx < (nfa.init_after_char : List (CharRange × StateSet)).length →
      ((nfa.trim_unreachable.init_after_char : List (CharRange × StateSet)).getD idx
          (CharRange.full, ([] : List Nat))).1
        = ((nfa.init_after_char : List (CharRange × StateSet)).getD idx
          (CharRange.full, ([] : List Nat))).1 ∧
      ∀ j, j < (Nfa.trimNewToOld nfa).length →
        (j ∈ (((nfa.trim_unreachable.init_after_char :
              List (CharRange × StateSet)).getD idx
              (CharRange.full, ([] : List Nat))).2 : List Nat) ↔
          (Nfa.trimNewToOld nfa).getD j 0 ∈
            (((nfa.init_after_char : List (CharRange × StateSet)).getD idx
              (CharRange.full, ([] : List Nat))).2 : List Nat)) := by
  unfold Nfa.trim_unreachable
  dsimp only []
  unfold CharMap.map_values
  constructor
  · simp
  · intro idx hidx
    have hidx2 : idx < ((nfa.init_after_char : List (CharRange × StateSet)).map
        (fun e => (e.1, (e.2 : List Nat).filterMap (Nfa.trimMapState nfa)))).length := by
      simpa using hidx
    rw [List.getD_eq_getElem _ _ hidx2, List.getElem_map,
      List.getD_eq_getElem _ _ hidx]
    exact ⟨rfl, fun j hj => mem_filterMap_trim nfa _ j hj⟩

/-- **C6**: after `trim_unreachable`, the kept states are exactly
`reachable_states` (the intersection of forward reachability from the
initial states and backward reachability from the accepting states); the
accept profiles and every consuming, ε and predicate edge between kept
states, as well as `init`, `init_at_start` and `init_after_char`, are
remapped consistently through the compaction index map; and every
remaining state is reachable from some initial state of the trimmed
automaton and can reach some accepting state of it. -/
theorem trim_unreachable_spec (nfa : Nfa) (hv : ValidNfa nfa) :
    (∀ x, x ∈ Nfa.trimNewToOld nfa ↔ x ∈ nfa.reachable_states) ∧
    nfa.trim_unreachable.states.length = (Nfa.trimNewToOld nfa).length ∧
    (∀ j, j < (Nfa.trimNewToOld nfa).length →
      (nfa.trim_unreachable.states.getD j default).accept
        = (nfa.states.getD ((Nfa.trimNewToOld nfa).getD j 0) default).accept ∧
      (nfa.trim_unreachable.states.getD j default).dfa_accept
        = (nfa.states.getD ((Nfa.trimNewToOld nfa).getD j 0) default).dfa_accept) ∧
    (∀ j k, j < (Nfa.trimNewToOld nfa).length →
      k < (Nfa.trimNewToOld nfa).length →
      (∀ r, consCount nfa.trim_unreachable j k r
          = consCount nfa ((Nfa.trimNewToOld nfa).getD j 0)
              ((Nfa.trimNewToOld nfa).getD k 0) r) ∧
      (epsCount nfa.trim_unreachable j k
          = epsCount nfa ((Nfa.trimNewToOld nfa).getD j 0)
              ((Nfa.trimNewToOld nfa).getD k 0)) ∧
      (∀ p, predCount nfa.trim_unreachable j k p
          = predCount nfa ((Nfa.trimNewToOld nfa).getD j 0)
              ((Nfa.trimNewToOld nfa).getD k 0) p)) ∧
    (∀ j, j < (Nfa.trimNewToOld nfa).length →
      (j ∈ (nfa.trim_unreachable.init : List Nat) ↔
        (Nfa.trimNewToOld nfa).getD j 0 ∈ (nfa.init : List Nat)) ∧
      (j ∈ (nfa.trim_unreachable.init_at_start : List Nat) ↔
        (Nfa.trimNewToOld nfa).getD j 0 ∈ (nfa.init_at_start : List Nat))) ∧
    ((nfa.trim_unreachable.init_after_char :
        List (CharRange × StateSet)).length
      = (nfa.init_after_char : List (CharRange × StateSet)).length ∧
     ∀ idx, idx < (nfa.init_after_char : List (CharRange × StateSet)).length →
      ((nfa.trim_unreachable.init_after_char :
          List (CharRange × StateSet)).getD idx
          (CharRange.full, ([] : List Nat))).1
        = ((nfa.init_after_char : List (CharRange × StateSet)).getD idx
          (CharRange.full, ([] : List Nat))).1 ∧
      ∀ j, j < (Nfa.trimNewToOld nfa).length →
        (j ∈ (((nfa.trim_unreachable.init_after_char :
              List (CharRange × StateSet)).getD idx
              (CharRange.full, ([] : List Nat))).2 : List Nat) ↔
          (Nfa.trimNewToOld nfa).getD j 0 ∈
            (((nfa.init_after_char : List (CharRange × StateSet)).getD idx
              (CharRange.full, ([] : List Nat))).2 : List Nat))) ∧
    (∀ j, j < (Nfa.trimNewToOld nfa).length →
      (∃ i ∈ nfa.trim_unreachable.initsAll, nfa.trim_unreachable.Reaches i j) ∧
      (∃ f ∈ nfa.trim_unreachable.finalStates,
        nfa.trim_unreachable.Reaches j f)) := by
  refine ⟨?_, trim_states_length nfa, ?_, ?_, ?_, trim_iac nfa, ?_⟩
  · intro x
    rw [mem_trimNewToOld]
    constructor
    · exact fun h => h.2
    · intro h
      exact ⟨reachable_states_lt nfa hv x h, h⟩
  · intro j hj
    rw [trim_states_getD nfa j hj]
    exact ⟨rfl, rfl⟩
  · intro j k hj hk
    exact trim_counts nfa j k hj hk
  · intro j hj
    exact trim_init_iff nfa j hj
  · intro j hj
    exact trim_postcondition nfa hv j hj

/-- Witness for C6 at a concrete input: the valid two-state automaton
with one edge of each kind. -/
theorem trim_unreachable_spec_witness :
    ValidNfa nfaTwoEdges ∧
    ((∀ x, x ∈ Nfa.trimNewToOld nfaTwoEdges ↔ x ∈ nfaTwoEdges.reachable_states) ∧
     nfaTwoEdges.trim_unreachable.states.length
       = (Nfa.trimNewToOld nfaTwoEdges).length ∧
     (∀ j, j < (Nfa.trimNewToOld nfaTwoEdges).length →
       (nfaTwoEdges.trim_unreachable.states.getD j default).accept
         = (nfaTwoEdges.states.getD ((Nfa.trimNewToOld nfaTwoEdges).getD j 0)
             default).accept ∧
       (nfaTwoEdges.trim_unreachable.states.getD j default).dfa_accept
         = (nfaTwoEdges.states.getD ((Nfa.trimNewToOld nfaTwoEdges).getD j 0)
             default).dfa_accept) ∧
     (∀ j k, j < (Nfa.trimNewToOld nfaTwoEdges).length →
       k < (Nfa.trimNewToOld nfaTwoEdges).length →
       (∀ r, consCount nfaTwoEdges.trim_unreachable j k r
           = consCount nfaTwoEdges ((Nfa.trimNewToOld nfaTwoEdges).getD j 0)
               ((Nfa.trimNewToOld nfaTwoEdges).getD k 0) r) ∧
       (epsCount nfaTwoEdges.trim_unreachable j k
           = epsCount nfaTwoEdges ((Nfa.trimNewToOld nfaTwoEdges).getD j 0)
               ((Nfa.trimNewToOld nfaTwoEdges).getD k 0)) ∧
       (∀ p, predCount nfaTwoEdges.trim_unreachable j k p
           = predCount nfaTwoEdges ((Nfa.trimNewToOld nfaTwoEdges).getD j 0)
               ((Nfa.trimNewToOld nfaTwoEdges).getD k 0) p)) ∧
     (∀ j, j < (Nfa.trimNewToOld nfaTwoEdges).length →
       (j ∈ (nfaTwoEdges.trim_unreachable.init : List Nat) ↔
         (Nfa.trimNewToOld nfaTwoEdges).getD j 0 ∈ (nfaTwoEdges.init : List Nat)) ∧
       (j ∈ (nfaTwoEdges.trim_unreachable.init_at_start : List Nat) ↔
         (Nfa.trimNewToOld nfaTwoEdges).getD j 0 ∈
           (nfaTwoEdges.init_at_start : List Nat))) ∧
     ((nfaTwoEdges.trim_unreachable.init_after_char :
         List (CharRange × StateSet)).length
       = (nfaTwoEdges.init_after_char : List (CharRange × StateSet)).length ∧
      ∀ idx, idx < (nfaTwoEdges.init_after_char :
          List (CharRange × StateSet)).length →
       ((nfaTwoEdges.trim_unreachable.init_after_char :
           List (CharRange × StateSet)).getD idx
           (CharRange.full, ([] : List Nat))).1
         = ((nfaTwoEdges.init_after_char : List (CharRange × StateSet)).getD idx
           (CharRange.full, ([] : List Nat))).1 ∧
       ∀ j, j < (Nfa.trimNewToOld nfaTwoEdges).length →
         (j ∈ (((nfaTwoEdges.trim_unreachable.init_after_char :
               List (CharRange × StateSet)).getD idx
               (CharRange.full, ([] : List Nat))).2 : List Nat) ↔
           (Nfa.trimNewToOld nfaTwoEdges).getD j 0 ∈
             (((nfaTwoEdges.init_after_char :
               List (CharRange × StateSet)).getD idx
               (CharRange.full, ([] : List Nat))).2 : List Nat))) ∧
     (∀ j, j < (Nfa.trimNewToOld nfaTwoEdges).length →
       (∃ i ∈ nfaTwoEdges.trim_unreachable.initsAll,
         nfaTwoEdges.trim_unreachable.Reaches i j) ∧
       (∃ f ∈ nfaTwoEdges.trim_unreachable.finalStates,
         nfaTwoEdges.trim_unreachable.Reaches j f))) :=
  ⟨by decide, trim_unreachable_spec nfaTwoEdges (by decide)⟩

theorem osm_eq (nfa : Nfa) :
    nfa.optimize_for_shortest_match = nfa.osmPass1.osmPass2.trim_unreachable := rfl

theorem mem_insertByKey {α : Type} (key : α → Nat) (x : α) :
    ∀ (l : List α) (y : α), y ∈ insertByKey key x l ↔ y = x ∨ y ∈ l := by
  intro l
  induction l with
  | nil => intro y; simp [insertByKey]
  | cons z zs ih =>
    intro y
    unfold insertByKey
    by_cases h : key x ≤ key z
    · rw [if_pos h]
      simp only [List.mem_cons]
    · rw [if_neg h]
      simp only [List.mem_cons, ih]
      tauto

theorem mem_sortByKey {α : Type} (key : α → Nat) (l : List α) (y : α) :
    y ∈ sortByKey key l ↔ y ∈ l := by
  unfold sortByKey
  induction l with
  | nil => simp
  | cons z zs ih =>
    simp only [List.foldr_cons, mem_insertByKey, List.mem_cons]
    rw [ih]

theorem insertByKey_sorted {α : Type} (key : α → Nat) (x : α) :
    ∀ (l : List α), l.Pairwise (fun a b => key a ≤ key b) →
      (insertByKey key x l).Pairwise (fun a b => key a ≤ key b) := by
  intro l
  induction l with
  | nil => intro _; simp [insertByKey]
  | cons z zs ih =>
    intro hp
    rw [List.pairwise_cons] at hp
    unfold insertByKey
    by_cases h : key x ≤ key z
    · rw [if_pos h]
      rw [List.pairwise_cons]
      refine ⟨?_, List.pairwise_cons.mpr hp⟩
      intro y hy
      rcases List.mem_cons.mp hy with hy | hy
      · subst hy; exact h
      · exact Nat.le_trans h (hp.1 y hy)
    · rw [if_neg h]
      rw [List.pairwise_cons]
      refine ⟨?_, ih hp.2⟩
      intro y hy
      rcases (mem_insertByKey key x zs y).mp hy with hy | hy
      · subst hy; exact Nat.le_of_not_le h
      · exact hp.1 y hy

theorem sortByKey_sorted {α : Type} (key : α → Nat) (l : List α) :
    (sortByKey key l).Pairwise (fun a b => key a ≤ key b) := by
  unfold sortByKey
  induction l with
  | nil => simp
  | cons z zs ih => exact insertByKey_sorted key z _ ih

theorem rangesCover_cons (r : CharRange) (s : List CharRange) (c : Nat) :
    rangesCover (r :: s) c ↔ (r.start ≤ c ∧ c ≤ r.end_) ∨ rangesCover s c := by
  unfold rangesCover
  simp

theorem rangesCover_mono (s t : List CharRange) (c : Nat)
    (hsub : ∀ r ∈ s, r ∈ t) (h : rangesCover s c) : rangesCover t c := by
  obtain ⟨r, hr, hb⟩ := h
  exact ⟨r, hsub r hr, hb⟩

theorem mergeRangesGo_covers :
    ∀ (rest : List CharRange) (r : CharRange),
      (∀ q ∈ rest, r.start ≤ q.start) →
      rest.Pairwise (fun a b => a.start ≤ b.start) →
      ∀ c, (rangesCover (mergeRangesGo r rest) c ↔ rangesCover (r :: rest) c) := by
  intro rest
  induction rest with
  | nil => intro r _ _ c; rfl
  | cons q rest ih =>
    intro r hmin hsort c
    rw [List.pairwise_cons] at hsort
    unfold mergeRangesGo
    by_cases hif : q.start ≤ r.end_ + 1
    · rw [if_pos hif]
      have hmin' : ∀ p ∈ rest, (CharRange.mk r.start (max r.end_ q.end_)).start ≤ p.start := by
        intro p hp
        exact Nat.le_trans (hmin q (List.mem_cons_self q rest)) (hsort.1 p hp)
      rw [ih _ hmin' hsort.2]
      rw [rangesCover_cons, rangesCover_cons, rangesCover_cons]
      have hrq : r.start ≤ q.start := hmin q (List.mem_cons_self q rest)
      have hms : (CharRange.mk r.start (max r.end_ q.end_)).start = r.start := rfl
      have hme : (CharRange.mk r.start (max r.end_ q.end_)).end_
          = max r.end_ q.end_ := rfl
      constructor
      · rintro (hm | hrest)
        · rw [hms, hme] at hm
          obtain ⟨hm1, hm2⟩ := hm
          by_cases hre : c ≤ r.end_
          · exact Or.inl ⟨hm1, hre⟩
          · refine Or.inr (Or.inl ⟨?_, ?_⟩) <;> omega
        · exact Or.inr (Or.inr hrest)
      · rintro (⟨h1, h2⟩ | ⟨h1, h2⟩ | hrest)
        · refine Or.inl ⟨?_, ?_⟩
          · rw [hms]; exact h1
          · rw [hme]; omega
        · refine Or.inl ⟨?_, ?_⟩
          · rw [hms]; omega
          · rw [hme]; omega
        · exact Or.inr hrest
    · rw [if_neg hif]
      rw [rangesCover_cons, rangesCover_cons,
        ih q (fun p hp => hsort.1 p hp) hsort.2 c, rangesCover_cons]

theorem mergeRangesGo_struct :
    ∀ (rest : List CharRange) (r : CharRange),
      (∀ q ∈ rest, r.start ≤ q.start) →
      rest.Pairwise (fun a b => a.start ≤ b.start) →
      r.start ≤ r.end_ →
      (∀ q ∈ rest, q.start ≤ q.end_) →
      ∃ e tail, mergeRangesGo r rest = CharRange.mk r.start e :: tail ∧
        r.end_ ≤ e ∧
        (∀ p ∈ tail, e + 1 < p.start) ∧
        (∀ p ∈ tail, p.start ∈ (r :: rest).map (·.start)) := by
  intro rest
  induction rest with
  | nil =>
    intro r _ _ hne _
    refine ⟨r.end_, [], rfl, Nat.le_refl _, ?_, ?_⟩ <;> intro p hp <;> cases hp
  | cons q rest ih =>
    intro r hmin hsort hne hne'
    rw [List.pairwise_cons] at hsort
    have hrq : r.start ≤ q.start := hmin q (List.mem_cons_self q rest)
    have hqe : q.start ≤ q.end_ := hne' q (List.mem_cons_self q rest)
    unfold mergeRangesGo
    by_cases hif : q.start ≤ r.end_ + 1
    · rw [if_pos hif]
      have hmin' : ∀ p ∈ rest, (CharRange.mk r.start (max r.end_ q.end_)).start ≤ p.start := by
        intro p hp
        exact Nat.le_trans hrq (hsort.1 p hp)
      have hne'' : (CharRange.mk r.start (max r.end_ q.end_)).start
          ≤ (CharRange.mk r.start (max r.end_ q.end_)).end_ := by
        show r.start ≤ max r.end_ q.end_
        omega
      obtain ⟨e, tail, heq, hle, hgap, hstarts⟩ :=
        ih (CharRange.mk r.start (max r.end_ q.end_)) hmin' hsort.2 hne''
          (fun p hp => hne' p (List.mem_cons_of_mem q hp))
      refine ⟨e, tail, heq, ?_, hgap, ?_⟩
      · have : (CharRange.mk r.start (max r.end_ q.end_)).end_ ≤ e := hle
        simp only [] at this
        omega
      · intro p hp
        have := hstarts p hp
        simp only [List.map_cons, List.mem_cons] at this ⊢
        tauto
    · rw [if_neg hif]
      obtain ⟨e', tail', heq', hle', hgap', hstarts'⟩ :=
        ih q (fun p hp => hsort.1 p hp) hsort.2 hqe
          (fun p hp => hne' p (List.mem_cons_of_mem q hp))
      refine ⟨r.end_, mergeRangesGo q rest, ?_, Nat.le_refl _, ?_, ?_⟩
      · show r :: mergeRangesGo q rest = CharRange.mk r.start r.end_ :: mergeRangesGo q rest
        congr 1
      · intro p hp
        rw [heq'] at hp
        rcases List.mem_cons.mp hp with hp | hp
        · subst hp
          show r.end_ + 1 < q.start
          omega
        · have := hgap' p hp
          omega
      · intro p hp
        rw [heq'] at hp
        rcases List.mem_cons.mp hp with hp | hp
        · subst hp
          simp
        · have := hstarts' p hp
          simp only [List.map_cons, List.mem_cons] at this ⊢
          tauto

theorem normalize_covers (s : CharSet) (c : Nat) :
    rangesCover (CharSet.normalize s) c ↔ rangesCover (s : List CharRange) c := by
  unfold CharSet.normalize
  have hfilter : rangesCover ((s : List CharRange).filter (fun r => !r.is_empty)) c
      ↔ rangesCover (s : List CharRange) c := by
    constructor
    · rintro ⟨r, hr, hb⟩
      exact ⟨r, List.mem_of_mem_filter hr, hb⟩
    · rintro ⟨r, hr, hb⟩
      refine ⟨r, List.mem_filter.mpr ⟨hr, ?_⟩, hb⟩
      simp [CharRange.is_empty]
      omega
  have hsortm := fun y => mem_sortByKey (·.start)
    ((s : List CharRange).filter (fun r => !r.is_empty)) y
  have hsort : rangesCover (sortByKey (·.start)
      ((s : List CharRange).filter (fun r => !r.is_empty))) c
      ↔ rangesCover ((s : List CharRange).filter (fun r => !r.is_empty)) c := by
    constructor <;> intro h
    · exact rangesCover_mono _ _ c (fun r hr => (hsortm r).mp hr) h
    · exact rangesCover_mono _ _ c (fun r hr => (hsortm r).mpr hr) h
  rw [← hfilter, ← hsort]
  cases hl : sortByKey (·.start) ((s : List CharRange).filter (fun r => !r.is_empty)) with
  | nil => rfl
  | cons r rest =>
    have hp := sortByKey_sorted (·.start)
      ((s : List CharRange).filter (fun r => !r.is_empty))
    rw [hl] at hp
    rw [List.pairwise_cons] at hp
    unfold mergeRanges
    exact mergeRangesGo_covers rest r hp.1 hp.2 c

theorem covers_of_is_full (s : CharSet) (h : CharSet.is_full s = true) :
    ∀ c, c ≤ 0x10FFFF → rangesCover (s : List CharRange) c := by
  intro c hc
  unfold CharSet.is_full at h
  rw [← normalize_covers]
  cases hn : CharSet.normalize s with
  | nil => rw [hn] at h; cases h
  | cons r tail =>
    cases tail with
    | nil =>
      rw [hn] at h
      simp only [Bool.and_eq_true, decide_eq_true_eq] at h
      exact ⟨r, List.mem_cons_self r [], by omega⟩
    | cons r2 tail2 => rw [hn] at h; cases h

theorem is_full_of_covers (s : CharSet)
    (hb : ∀ r ∈ (s : List CharRange), r.start ≤ 0x110000)
    (hc : ∀ c, c ≤ 0x10FFFF → rangesCover (s : List CharRange) c) :
    CharSet.is_full s = true := by
  have hcov := fun c hcle => (normalize_covers s c).mpr (hc c hcle)
  unfold CharSet.is_full
  unfold CharSet.normalize at hcov ⊢
  cases hl : sortByKey (·.start) ((s : List CharRange).filter (fun r => !r.is_empty)) with
  | nil =>
    exfalso
    have h0 := hcov 0 (by omega)
    rw [hl] at h0
    obtain ⟨r, hr, _⟩ := h0
    cases hr
  | cons r rest =>
    have hp := sortByKey_sorted (·.start)
      ((s : List CharRange).filter (fun r => !r.is_empty))
    rw [hl] at hp
    rw [List.pairwise_cons] at hp
    have hmem : ∀ q ∈ r :: rest,
        q ∈ (s : List CharRange).filter (fun x => !x.is_empty) := by
      intro q hq
      rw [← hl] at hq
      exact (mem_sortByKey _ _ q).mp hq
    have hne : ∀ q ∈ r :: rest, q.start ≤ q.end_ := by
      intro q hq
      have := (List.mem_filter.mp (hmem q hq)).2
      simp [CharRange.is_empty] at this
      omega
    have hbd : ∀ q ∈ r :: rest, q.start ≤ 0x110000 := by
      intro q hq
      exact hb q (List.mem_of_mem_filter (hmem q hq))
    obtain ⟨e, tail, heq, hle, hgap, hstarts⟩ :=
      mergeRangesGo_struct rest r hp.1 hp.2 (hne r (List.mem_cons_self r rest))
        (fun q hq => hne q (List.mem_cons_of_mem r hq))
    rw [hl] at hcov
    unfold mergeRanges at hcov ⊢
    dsimp only at hcov ⊢
    rw [heq] at hcov ⊢
    have hstart0 : r.start = 0 := by
      obtain ⟨q, hq, hq1, hq2⟩ := hcov 0 (by omega)
      rcases List.mem_cons.mp hq with hq | hq
      · subst hq
        simp only [] at hq1
        omega
      · exfalso
        have := hgap q hq
        omega
    have htail : tail = [] := by
      cases htl : tail with
      | nil => rfl
      | cons p tail2 =>
        exfalso
        have hpt : p ∈ tail := by rw [htl]; exact List.mem_cons_self p tail2
        have hps := hstarts p hpt
        have hpbd : p.start ≤ 0x110000 := by
          rw [List.mem_map] at hps
          obtain ⟨q, hq, hqs⟩ := hps
          rw [← hqs]
          exact hbd q hq
        have hgp := hgap p hpt
        have hcv := hcov (e + 1) (by omega)
        obtain ⟨q, hq, hq1, hq2⟩ := hcv
        rcases List.mem_cons.mp hq with hq | hq
        · subst hq
          simp only [] at hq2
          omega
        · have := hgap q hq
          omega
    subst htail
    have hend : 0x10FFFF ≤ e := by
      obtain ⟨q, hq, hq1, hq2⟩ := hcov 0x10FFFF (by omega)
      rcases List.mem_cons.mp hq with hq | hq
      · subst hq
        simp only [] at hq2
        omega
      · cases hq
    rw [hstart0]
    simp [hend]

theorem accept_foldl_at_eoi (nfa : Nfa) :
    ∀ (L : List Nat) (a : Accept),
      ((L.foldl (fun a b => a.union (nfa.states.getD b default).accept) a).at_eoi = true ↔
        a.at_eoi = true ∨ ∃ b ∈ L, (accAt nfa b).at_eoi = true) := by
  intro L
  induction L with
  | nil => intro a; simp
  | cons x xs ih =>
    intro a
    rw [List.foldl_cons, ih]
    simp only [Accept.union, List.mem_cons, accAt]
    constructor
    · rintro (h | ⟨b, hb, h⟩)
      · rw [Bool.or_eq_true] at h
        rcases h with h | h
        · exact Or.inl h
        · exact Or.inr ⟨x, Or.inl rfl, h⟩
      · exact Or.inr ⟨b, Or.inr hb, h⟩
    · rintro (h | ⟨b, hb | hb, h⟩)
      · exact Or.inl (by rw [Bool.or_eq_true]; exact Or.inl h)
      · subst hb
        exact Or.inl (by rw [Bool.or_eq_true]; exact Or.inr h)
      · exact Or.inr ⟨b, hb, h⟩

theorem accept_foldl_at_char (nfa : Nfa) :
    ∀ (L : List Nat) (a : Accept) (r : CharRange),
      (r ∈ ((L.foldl (fun a b => a.union (nfa.states.getD b default).accept) a).at_char
          : List CharRange) ↔
        r ∈ (a.at_char : List CharRange) ∨
          ∃ b ∈ L, r ∈ ((accAt nfa b).at_char : List CharRange)) := by
  intro L
  induction L with
  | nil => intro a r; simp
  | cons x xs ih =>
    intro a r
    rw [List.foldl_cons, ih]
    simp only [Accept.union, CharSet.union, List.mem_cons, accAt, List.mem_append]
    constructor
    · rintro (h | ⟨b, hb, h⟩)
      · rcases h with h | h
        · exact Or.inl h
        · exact Or.inr ⟨x, Or.inl rfl, h⟩
      · exact Or.inr ⟨b, Or.inr hb, h⟩
    · rintro (h | ⟨b, hb | hb, h⟩)
      · exact Or.inl (Or.inl h)
      · subst hb
        exact Or.inl (Or.inr h)
      · exact Or.inr ⟨b, hb, h⟩

theorem accept_at_eoi (nfa : Nfa) (L : StateSet) :
    (nfa.accept L).at_eoi = true ↔
      ∃ b ∈ (L : List Nat), (accAt nfa b).at_eoi = true := by
  unfold Nfa.accept
  rw [accept_foldl_at_eoi nfa (L : List Nat) Accept.never]
  simp [Accept.never]

theorem mem_accept_at_char (nfa : Nfa) (L : StateSet) (r : CharRange) :
    r ∈ ((nfa.accept L).at_char : List CharRange) ↔
      ∃ b ∈ (L : List Nat), r ∈ ((accAt nfa b).at_char : List CharRange) := by
  unfold Nfa.accept
  rw [accept_foldl_at_char nfa (L : List Nat) Accept.never r]
  simp [Accept.never]

theorem accAt_bounded (nfa : Nfa) (hb : BoundedAccepts nfa) (b : Nat) :
    ∀ r ∈ ((accAt nfa b).at_char : List CharRange), r.start ≤ 0x110000 := by
  intro r hr
  unfold accAt at hr
  by_cases hlt : b < nfa.states.length
  · rw [List.getD_eq_getElem _ _ hlt] at hr
    exact hb _ (List.getElem_mem hlt) r hr
  · rw [List.getD_eq_getElem?_getD,
      List.getElem?_eq_none (Nat.le_of_not_lt hlt)] at hr
    cases hr

theorem accept_always_iff (nfa : Nfa) (hb : BoundedAccepts nfa) (L : StateSet) :
    (nfa.accept L).is_always = true ↔
      ((∃ b ∈ (L : List Nat), (accAt nfa b).at_eoi = true) ∧
       ∀ c, c ≤ 0x10FFFF → ∃ b ∈ (L : List Nat),
         rangesCover ((accAt nfa b).at_char : List CharRange) c) := by
  unfold Accept.is_always
  rw [Bool.and_eq_true]
  constructor
  · rintro ⟨heoi, hfull⟩
    refine ⟨(accept_at_eoi nfa L).mp heoi, ?_⟩
    intro c hc
    obtain ⟨r, hr, h1, h2⟩ := covers_of_is_full _ hfull c hc
    obtain ⟨b, hbL, hrb⟩ := (mem_accept_at_char nfa L r).mp hr
    exact ⟨b, hbL, r, hrb, h1, h2⟩
  · rintro ⟨heoi, hcov⟩
    refine ⟨(accept_at_eoi nfa L).mpr heoi, ?_⟩
    apply is_full_of_covers
    · intro r hr
      obtain ⟨b, _, hrb⟩ := (mem_accept_at_char nfa L r).mp hr
      exact accAt_bounded nfa hb b r hrb
    · intro c hc
      obtain ⟨b, hbL, r, hrr, h1, h2⟩ := hcov c hc
      exact ⟨r, (mem_accept_at_char nfa L r).mpr ⟨b, hbL, hrr⟩, h1, h2⟩

theorem epsSuccs_out_of_range (nfa : Nfa) (x : Nat)
    (hx : nfa.states.length ≤ x) : nfa.epsSuccs x = [] := by
  unfold Nfa.epsSuccs
  rw [List.getD_eq_getElem?_getD, List.getElem?_eq_none hx]
  rfl

theorem epsSuccs_mem_targets (nfa : Nfa) (x y : Nat) (h : y ∈ nfa.epsSuccs x) :
    y ∈ nfa.epsTargetsList := by
  by_cases hx : x < nfa.states.length
  · unfold Nfa.epsSuccs at h
    unfold Nfa.epsTargetsList
    refine List.mem_flatMap.mpr ⟨nfa.states.getD x default, ?_, h⟩
    rw [List.getD_eq_getElem _ _ hx]
    exact List.getElem_mem hx
  · rw [epsSuccs_out_of_range nfa x (Nat.le_of_not_lt hx)] at h
    cases h

theorem length_epsTargetsList_le (nfa : Nfa) :
    nfa.epsTargetsList.length ≤ nfa.totalEdges := by
  unfold Nfa.epsTargetsList Nfa.totalEdges
  rw [List.length_flatMap]
  apply List.sum_le_sum
  intro st _
  simp only [Function.comp]
  omega

theorem mem_eps_closure (nfa : Nfa) (S : StateSet) (x : Nat) :
    x ∈ nfa.eps_closure S ↔ ∃ s ∈ (S : List Nat), nfa.EpsReaches s x := by
  unfold Nfa.eps_closure
  rw [mem_sortAsc]
  constructor
  · intro hx
    refine bfsRounds_sound nfa.epsSuccs (fun z => ∃ s ∈ (S : List Nat), nfa.EpsReaches s z)
      ?_ _ _ _ ?_ ?_ x hx
    · intro z y hz hy
      obtain ⟨s, hs, hr⟩ := hz
      exact ⟨s, hs, Relation.ReflTransGen.tail hr hy⟩
    · intro z hz
      rw [mem_dedupFirst] at hz
      exact ⟨z, hz, Relation.ReflTransGen.refl⟩
    · intro z hz
      exact hz
  · rintro ⟨s, hs, hr⟩
    have hbase : s ∈ bfsRounds nfa.epsSuccs (nfa.totalEdges + 2)
        (dedupFirst (S : List Nat)) (dedupFirst (S : List Nat)) :=
      bfsRounds_mono _ _ _ _ s ((mem_dedupFirst _ _).mpr hs)
    have hfuel : ((nfa.epsTargetsList.filter
        (fun u => !(dedupFirst (S : List Nat)).contains u)).length + 2
        ≤ nfa.totalEdges + 2) := by
      have h1 := List.length_filter_le
        (fun u => !(dedupFirst (S : List Nat)).contains u) nfa.epsTargetsList
      have h2 := length_epsTargetsList_le nfa
      omega
    have hclosed := bfsRounds_closed nfa.epsSuccs nfa.epsTargetsList
      (fun a b hb2 => epsSuccs_mem_targets nfa a b hb2)
      (nfa.totalEdges + 2) (dedupFirst (S : List Nat)) (dedupFirst (S : List Nat))
      (fun z hz => hz) (fun z hz hznot => absurd hz hznot) hfuel
    induction hr with
    | refl => exact hbase
    | tail hab hbc ihstep => exact hclosed _ ihstep _ hbc

theorem mem_eps_closure_single (nfa : Nfa) (i x : Nat) :
    x ∈ nfa.eps_closure_single i ↔ nfa.EpsReaches i x := by
  unfold Nfa.eps_closure_single
  rw [mem_eps_closure]
  simp

theorem osmCond_iff (nfa : Nfa) (hb : BoundedAccepts nfa) (i : Nat) :
    osmCond nfa i = true ↔
      ((∃ b, nfa.EpsReaches i b ∧ (accAt nfa b).at_eoi = true) ∧
       ∀ c, c ≤ 0x10FFFF → ∃ b, nfa.EpsReaches i b ∧
         rangesCover ((accAt nfa b).at_char : List CharRange) c) := by
  unfold osmCond
  rw [accept_always_iff nfa hb]
  constructor
  · rintro ⟨⟨b, hbm, heoi⟩, hcov⟩
    refine ⟨⟨b, (mem_eps_closure_single nfa i b).mp hbm, heoi⟩, ?_⟩
    intro c hc
    obtain ⟨b2, hbm2, hr⟩ := hcov c hc
    exact ⟨b2, (mem_eps_closure_single nfa i b2).mp hbm2, hr⟩
  · rintro ⟨⟨b, hbm, heoi⟩, hcov⟩
    refine ⟨⟨b, (mem_eps_closure_single nfa i b).mpr hbm, heoi⟩, ?_⟩
    intro c hc
    obtain ⟨b2, hbm2, hr⟩ := hcov c hc
    exact ⟨b2, (mem_eps_closure_single nfa i b2).mpr hbm2, hr⟩

theorem osmStep1_eq (nfa : Nfa) (i : Nat) :
    nfa.osmStep1 i = if osmCond nfa i = true then
      { nfa with states := nfa.states.modify (fun st =>
          { st with transitions :=
            { st.transitions with predicates := [], consuming := CharMultiMap.new } }) i }
    else nfa := rfl

theorem osmStep1_length (nfa : Nfa) (i : Nat) :
    (nfa.osmStep1 i).states.length = nfa.states.length := by
  rw [osmStep1_eq]
  by_cases h : osmCond nfa i = true
  · rw [if_pos h]
    simp [List.length_modify]
  · rw [if_neg h]

theorem osmStep1_inits (nfa : Nfa) (i : Nat) :
    (nfa.osmStep1 i).init = nfa.init ∧
    (nfa.osmStep1 i).init_at_start = nfa.init_at_start ∧
    (nfa.osmStep1 i).init_after_char = nfa.init_after_char := by
  rw [osmStep1_eq]
  by_cases h : osmCond nfa i = true
  · rw [if_pos h]
    exact ⟨rfl, rfl, rfl⟩
  · rw [if_neg h]
    exact ⟨rfl, rfl, rfl⟩

theorem osmStep1_getD (nfa : Nfa) (i j : Nat) :
    (nfa.osmStep1 i).states.getD j default
      = if osmCond nfa i = true ∧ i = j ∧ j < nfa.states.length then
          { nfa.states.getD j default with transitions :=
            { (nfa.states.getD j default).transitions with
              predicates := [], consuming := CharMultiMap.new } }
        else nfa.states.getD j default := by
  rw [osmStep1_eq]
  by_cases hc : osmCond nfa i = true
  · rw [if_pos hc]
    by_cases hij : i = j
    · subst hij
      by_cases hlt : i < nfa.states.length
      · simp [List.getD_eq_getElem?_getD, List.getElem?_modify,
          List.getElem?_eq_getElem hlt, hc, hlt]
      · have hge := Nat.le_of_not_lt hlt
        simp [List.getD_eq_getElem?_getD, List.getElem?_modify,
          List.getElem?_eq_none hge, hc, hlt]
    · have hcond : ¬(osmCond nfa i = true ∧ i = j ∧ j < nfa.states.length) :=
        fun hh => hij hh.2.1
      rw [if_neg hcond]
      simp only [List.getD_eq_getElem?_getD, List.getElem?_modify, hij, if_neg]
      cases nfa.states[j]? <;> simp
  · rw [if_neg hc]
    have hcond : ¬(osmCond nfa i = true ∧ i = j ∧ j < nfa.states.length) :=
      fun hh => hc hh.1
    rw [if_neg hcond]

theorem osmStep1_accAt (nfa : Nfa) (i j : Nat) :
    accAt (nfa.osmStep1 i) j = accAt nfa j := by
  unfold accAt
  rw [osmStep1_getD]
  by_cases h : osmCond nfa i = true ∧ i = j ∧ j < nfa.states.length
  · rw [if_pos h]
  · rw [if_neg h]

theorem osmStep1_dfaAt (nfa : Nfa) (i j : Nat) :
    ((nfa.osmStep1 i).states.getD j default).dfa_accept
      = (nfa.states.getD j default).dfa_accept := by
  rw [osmStep1_getD]
  by_cases h : osmCond nfa i = true ∧ i = j ∧ j < nfa.states.length
  · rw [if_pos h]
  · rw [if_neg h]

theorem osmStep1_epsAt (nfa : Nfa) (i j : Nat) :
    epsAt (nfa.osmStep1 i) j = epsAt nfa j := by
  unfold epsAt
  rw [osmStep1_getD]
  by_cases h : osmCond nfa i = true ∧ i = j ∧ j < nfa.states.length
  · rw [if_pos h]
  · rw [if_neg h]

theorem osmStep1_predsAt (nfa : Nfa) (i j : Nat) :
    predsAt (nfa.osmStep1 i) j
      = if osmCond nfa i = true ∧ i = j ∧ j < nfa.states.length then []
        else predsAt nfa j := by
  unfold predsAt
  rw [osmStep1_getD]
  by_cases h : osmCond nfa i = true ∧ i = j ∧ j < nfa.states.length
  · rw [if_pos h, if_pos h]
  · rw [if_neg h, if_neg h]

theorem osmStep1_consAt (nfa : Nfa) (i j : Nat) :
    consAt (nfa.osmStep1 i) j
      = if osmCond nfa i = true ∧ i = j ∧ j < nfa.states.length then []
        else consAt nfa j := by
  unfold consAt
  rw [osmStep1_getD]
  by_cases h : osmCond nfa i = true ∧ i = j ∧ j < nfa.states.length
  · rw [if_pos h, if_pos h]
    rfl
  · rw [if_neg h, if_neg h]

theorem predsAt_out_of_range (nfa : Nfa) (j : Nat)
    (h : nfa.states.length ≤ j) : predsAt nfa j = [] := by
  unfold predsAt
  rw [List.getD_eq_getElem?_getD, List.getElem?_eq_none h]
  rfl

theorem consAt_out_of_range (nfa : Nfa) (j : Nat)
    (h : nfa.states.length ≤ j) : consAt nfa j = [] := by
  unfold consAt
  rw [List.getD_eq_getElem?_getD, List.getElem?_eq_none h]
  rfl

theorem boundedAccepts_congr (n m : Nfa)
    (hlen : m.states.length = n.states.length)
    (hacc : ∀ j, accAt m j = accAt n j) (hb : BoundedAccepts n) :
    BoundedAccepts m := by
  intro st hst r hr
  obtain ⟨j, hj, hgd⟩ := List.mem_iff_getElem.mp hst
  have hst' : accAt m j = st.accept := by
    unfold accAt
    rw [List.getD_eq_getElem _ _ hj, hgd]
  refine accAt_bounded n hb j r ?_
  rw [← hacc j, hst']
  exact hr

theorem osmCond_congr (n m : Nfa) (hbn : BoundedAccepts n) (hbm : BoundedAccepts m)
    (hacc : ∀ j, accAt m j = accAt n j)
    (heps : ∀ j, epsAt m j = epsAt n j) (i : Nat) :
    osmCond m i = osmCond n i := by
  have hstep : ∀ a b, m.EpsStep a b ↔ n.EpsStep a b := by
    intro a b
    unfold Nfa.EpsStep Nfa.epsSuccs
    have := heps a
    unfold epsAt at this
    rw [this]
  have hreach : ∀ a b, m.EpsReaches a b ↔ n.EpsReaches a b := by
    intro a b
    constructor <;> intro h
    · exact Relation.ReflTransGen.mono (fun x y hxy => (hstep x y).mp hxy) h
    · exact Relation.ReflTransGen.mono (fun x y hxy => (hstep x y).mpr hxy) h
  have hiff : (osmCond m i = true) ↔ (osmCond n i = true) := by
    rw [osmCond_iff m hbm i, osmCond_iff n hbn i]
    constructor
    · rintro ⟨⟨b, hr, he⟩, hcov⟩
      refine ⟨⟨b, (hreach i b).mp hr, hacc b ▸ he⟩, ?_⟩
      intro c hc
      obtain ⟨b2, hr2, hcv⟩ := hcov c hc
      exact ⟨b2, (hreach i b2).mp hr2, hacc b2 ▸ hcv⟩
    · rintro ⟨⟨b, hr, he⟩, hcov⟩
      refine ⟨⟨b, (hreach i b).mpr hr, (hacc b).symm ▸ he⟩, ?_⟩
      intro c hc
      obtain ⟨b2, hr2, hcv⟩ := hcov c hc
      exact ⟨b2, (hreach i b2).mpr hr2, (hacc b2).symm ▸ hcv⟩
  cases hm0 : osmCond m i <;> cases hn0 : osmCond n i
  · rfl
  · rw [hm0, hn0] at hiff
    simp at hiff
  · rw [hm0, hn0] at hiff
    simp at hiff
  · rfl

theorem osmPass1_fold (n : Nfa) (hb : BoundedAccepts n) :
    ∀ (idxs : List Nat) (acc : Nfa),
      acc.states.length = n.states.length →
      (∀ j, accAt acc j = accAt n j) →
      (∀ j, (acc.states.getD j default).dfa_accept
          = (n.states.getD j default).dfa_accept) →
      (∀ j, epsAt acc j = epsAt n j) →
      acc.init = n.init →
      acc.init_at_start = n.init_at_start →
      acc.init_after_char = n.init_after_char →
      ((idxs.foldl Nfa.osmStep1 acc).states.length = n.states.length ∧
       (∀ j, accAt (idxs.foldl Nfa.osmStep1 acc) j = accAt n j) ∧
       (∀ j, ((idxs.foldl Nfa.osmStep1 acc).states.getD j default).dfa_accept
           = (n.states.getD j default).dfa_accept) ∧
       (∀ j, epsAt (idxs.foldl Nfa.osmStep1 acc) j = epsAt n j) ∧
       (idxs.foldl Nfa.osmStep1 acc).init = n.init ∧
       (idxs.foldl Nfa.osmStep1 acc).init_at_start = n.init_at_start ∧
       (idxs.foldl Nfa.osmStep1 acc).init_after_char = n.init_after_char ∧
       (∀ j, predsAt (idxs.foldl Nfa.osmStep1 acc) j
           = if osmCond n j = true ∧ j ∈ idxs then [] else predsAt acc j) ∧
       (∀ j, consAt (idxs.foldl Nfa.osmStep1 acc) j
           = if osmCond n j = true ∧ j ∈ idxs then [] else consAt acc j)) := by
  intro idxs
  induction idxs with
  | nil =>
    intro acc h1 h2 h3 h4 h5 h6 h7
    refine ⟨h1, h2, h3, h4, h5, h6, h7, ?_, ?_⟩ <;> intro j <;> simp
  | cons i rest ih =>
    intro acc h1 h2 h3 h4 h5 h6 h7
    rw [List.foldl_cons]
    have hbacc : BoundedAccepts acc := boundedAccepts_congr n acc h1 h2 hb
    have hcond : osmCond acc i = osmCond n i :=
      osmCond_congr n acc hb hbacc h2 h4 i
    have h1' : (acc.osmStep1 i).states.length = n.states.length := by
      rw [osmStep1_length]; exact h1
    have h2' : ∀ j, accAt (acc.osmStep1 i) j = accAt n j := by
      intro j; rw [osmStep1_accAt]; exact h2 j
    have h3' : ∀ j, ((acc.osmStep1 i).states.getD j default).dfa_accept
        = (n.states.getD j default).dfa_accept := by
      intro j; rw [osmStep1_dfaAt]; exact h3 j
    have h4' : ∀ j, epsAt (acc.osmStep1 i) j = epsAt n j := by
      intro j; rw [osmStep1_epsAt]; exact h4 j
    obtain ⟨hi1, hi2, hi3⟩ := osmStep1_inits acc i
    obtain ⟨g1, g2, g3, g4, g5, g6, g7, g8, g9⟩ :=
      ih (acc.osmStep1 i) h1' h2' h3' h4' (hi1.trans h5) (hi2.trans h6) (hi3.trans h7)
    refine ⟨g1, g2, g3, g4, g5, g6, g7, ?_, ?_⟩
    · intro j
      rw [g8 j, osmStep1_predsAt, hcond]
      by_cases hcj : osmCond n j = true
      · by_cases hjr : j ∈ rest
        · rw [if_pos ⟨hcj, hjr⟩, if_pos ⟨hcj, List.mem_cons_of_mem i hjr⟩]
        · rw [if_neg (fun hh => hjr hh.2)]
          by_cases hij : i = j
          · subst hij
            by_cases hlt : i < acc.states.length
            · rw [if_pos ⟨hcj, rfl, hlt⟩, if_pos ⟨hcj, List.mem_cons_self i rest⟩]
            · rw [if_neg (fun hh => hlt hh.2.2),
                if_pos ⟨hcj, List.mem_cons_self i rest⟩,
                predsAt_out_of_range acc i (Nat.le_of_not_lt hlt)]
          · rw [if_neg (fun hh => hij hh.2.1)]
            rw [if_neg (fun hh => (List.mem_cons.mp hh.2).elim
              (fun he => hij he.symm) hjr)]
      · rw [if_neg (fun hh => hcj hh.1)]
        have hcij : ¬(osmCond n i = true ∧ i = j ∧ j < acc.states.length) := by
          rintro ⟨hci, hij, _⟩
          subst hij
          exact hcj hci
        rw [if_neg hcij, if_neg (fun hh => hcj hh.1)]
    · intro j
      rw [g9 j, osmStep1_consAt, hcond]
      by_cases hcj : osmCond n j = true
      · by_cases hjr : j ∈ rest
        · rw [if_pos ⟨hcj, hjr⟩, if_pos ⟨hcj, List.mem_cons_of_mem i hjr⟩]
        · rw [if_neg (fun hh => hjr hh.2)]
          by_cases hij : i = j
          · subst hij
            by_cases hlt : i < acc.states.length
            · rw [if_pos ⟨hcj, rfl, hlt⟩, if_pos ⟨hcj, List.mem_cons_self i rest⟩]
            · rw [if_neg (fun hh => hlt hh.2.2),
                if_pos ⟨hcj, List.mem_cons_self i rest⟩,
                consAt_out_of_range acc i (Nat.le_of_not_lt hlt)]
          · rw [if_neg (fun hh => hij hh.2.1)]
            rw [if_neg (fun hh => (List.mem_cons.mp hh.2).elim
              (fun he => hij he.symm) hjr)]
      · rw [if_neg (fun hh => hcj hh.1)]
        have hcij : ¬(osmCond n i = true ∧ i = j ∧ j < acc.states.length) := by
          rintro ⟨hci, hij, _⟩
          subst hij
          exact hcj hci
        rw [if_neg hcij, if_neg (fun hh => hcj hh.1)]

theorem osmPass1_spec (n : Nfa) (hb : BoundedAccepts n) :
    n.osmPass1.states.length = n.states.length ∧
    (∀ j, accAt n.osmPass1 j = accAt n j) ∧
    (∀ j, (n.osmPass1.states.getD j default).dfa_accept
        = (n.states.getD j default).dfa_accept) ∧
    (∀ j, epsAt n.osmPass1 j = epsAt n j) ∧
    n.osmPass1.init = n.init ∧
    n.osmPass1.init_at_start = n.init_at_start ∧
    n.osmPass1.init_after_char = n.init_after_char ∧
    (∀ j, predsAt n.osmPass1 j
        = if osmCond n j = true ∧ j < n.states.length then [] else predsAt n j) ∧
    (∀ j, consAt n.osmPass1 j
        = if osmCond n j = true ∧ j < n.states.length then [] else consAt n j) := by
  have h := osmPass1_fold n hb (List.range n.states.length) n rfl
    (fun j => rfl) (fun j => rfl) (fun j => rfl) rfl rfl rfl
  simp only [List.mem_range] at h
  exact h

theorem osmPass2_getD (n : Nfa) (j : Nat) :
    n.osmPass2.states.getD j default
      = if (accAt n j).is_always = true ∧ j < n.states.length then
          { n.states.getD j default with transitions :=
            { (n.states.getD j default).transitions with eps := [] } }
        else n.states.getD j default := by
  unfold Nfa.osmPass2
  by_cases hlt : j < n.states.length
  · rw [List.getD_eq_getElem _ _ (by simpa using hlt), List.getElem_map]
    unfold accAt
    rw [List.getD_eq_getElem _ _ hlt]
    by_cases ha : (n.states[j]).accept.is_always = true
    · rw [if_pos ha, if_pos ⟨ha, hlt⟩]
    · rw [if_neg ha, if_neg (fun hh => ha hh.1)]
  · rw [if_neg (fun hh => hlt hh.2)]
    have hge := Nat.le_of_not_lt hlt
    rw [List.getD_eq_getElem?_getD, List.getElem?_eq_none (by simpa using hge),
      List.getD_eq_getElem?_getD, List.getElem?_eq_none hge]

theorem osmPass2_length (n : Nfa) :
    n.osmPass2.states.length = n.states.length := by
  unfold Nfa.osmPass2
  simp

theorem osmPass2_inits (n : Nfa) :
    n.osmPass2.init = n.init ∧
    n.osmPass2.init_at_start = n.init_at_start ∧
    n.osmPass2.init_after_char = n.init_after_char := ⟨rfl, rfl, rfl⟩

theorem osmPass2_accAt (n : Nfa) (j : Nat) : accAt n.osmPass2 j = accAt n j := by
  unfold accAt
  rw [osmPass2_getD]
  by_cases h : (accAt n j).is_always = true ∧ j < n.states.length
  · rw [if_pos h]
  · rw [if_neg h]

theorem osmPass2_dfaAt (n : Nfa) (j : Nat) :
    (n.osmPass2.states.getD j default).dfa_accept
      = (n.states.getD j default).dfa_accept := by
  rw [osmPass2_getD]
  by_cases h : (accAt n j).is_always = true ∧ j < n.states.length
  · rw [if_pos h]
  · rw [if_neg h]

theorem osmPass2_predsAt (n : Nfa) (j : Nat) :
    predsAt n.osmPass2 j = predsAt n j := by
  unfold predsAt
  rw [osmPass2_getD]
  by_cases h : (accAt n j).is_always = true ∧ j < n.states.length
  · rw [if_pos h]
  · rw [if_neg h]

theorem osmPass2_consAt (n : Nfa) (j : Nat) :
    consAt n.osmPass2 j = consAt n j := by
  unfold consAt
  rw [osmPass2_getD]
  by_cases h : (accAt n j).is_always = true ∧ j < n.states.length
  · rw [if_pos h]
  · rw [if_neg h]

theorem osmPass2_epsAt (n : Nfa) (j : Nat) :
    epsAt n.osmPass2 j
      = if (accAt n j).is_always = true ∧ j < n.states.length then []
        else epsAt n j := by
  unfold epsAt
  rw [osmPass2_getD]
  by_cases h : (accAt n j).is_always = true ∧ j < n.states.length
  · rw [if_pos h, if_pos h]
  · rw [if_neg h, if_neg h]

theorem epsAt_out_of_range (nfa : Nfa) (j : Nat)
    (h : nfa.states.length ≤ j) : epsAt nfa j = [] := by
  unfold epsAt
  rw [List.getD_eq_getElem?_getD, List.getElem?_eq_none h]
  rfl

theorem validNfa_iff_pointwise (n : Nfa) :
    ValidNfa n ↔
      ((∀ j, (∀ e ∈ consAt n j, e.2 < n.states.length) ∧
        (∀ t ∈ epsAt n j, t < n.states.length) ∧
        (∀ e ∈ predsAt n j, e.2 < n.states.length)) ∧
       (∀ i ∈ (n.init : List Nat), i < n.states.length) ∧
       (∀ i ∈ (n.init_at_start : List Nat), i < n.states.length) ∧
       (∀ e ∈ (n.init_after_char : List (CharRange × StateSet)),
         ∀ i ∈ (e.2 : List Nat), i < n.states.length)) := by
  unfold ValidNfa
  constructor
  · rintro ⟨hst, h2, h3, h4⟩
    refine ⟨?_, h2, h3, h4⟩
    intro j
    by_cases hlt : j < n.states.length
    · have hmem : n.states.getD j default ∈ n.states := by
        rw [List.getD_eq_getElem _ _ hlt]
        exact List.getElem_mem hlt
      exact hst _ hmem
    · have hge := Nat.le_of_not_lt hlt
      rw [consAt_out_of_range n j hge, epsAt_out_of_range n j hge,
        predsAt_out_of_range n j hge]
      refine ⟨?_, ?_, ?_⟩ <;> intro e he <;> cases he
  · rintro ⟨hst, h2, h3, h4⟩
    refine ⟨?_, h2, h3, h4⟩
    intro st hmem
    obtain ⟨j, hj, hgd⟩ := List.mem_iff_getElem.mp hmem
    have hc : consAt n j = (st.transitions.consuming : List (CharRange × Nat)) := by
      unfold consAt
      rw [List.getD_eq_getElem _ _ hj, hgd]
    have he : epsAt n j = st.transitions.eps := by
      unfold epsAt
      rw [List.getD_eq_getElem _ _ hj, hgd]
    have hp : predsAt n j = st.transitions.predicates := by
      unfold predsAt
      rw [List.getD_eq_getElem _ _ hj, hgd]
    obtain ⟨k1, k2, k3⟩ := hst j
    rw [hc] at k1
    rw [he] at k2
    rw [hp] at k3
    exact ⟨k1, k2, k3⟩

theorem valid_osmPass1 (n : Nfa) (hb : BoundedAccepts n) (hv : ValidNfa n) :
    ValidNfa n.osmPass1 := by
  obtain ⟨hlen, hacc, hdfa, heps, hinit, hias, hiac, hpreds, hcons⟩ := osmPass1_spec n hb
  rw [validNfa_iff_pointwise] at hv ⊢
  rw [hlen, hinit, hias, hiac]
  obtain ⟨hv1, hv2, hv3, hv4⟩ := hv
  refine ⟨?_, hv2, hv3, hv4⟩
  intro j
  rw [heps j, hpreds j, hcons j]
  refine ⟨?_, (hv1 j).2.1, ?_⟩
  · by_cases h : osmCond n j = true ∧ j < n.states.length
    · rw [if_pos h]
      intro e he
      cases he
    · rw [if_neg h]
      exact (hv1 j).1
  · by_cases h : osmCond n j = true ∧ j < n.states.length
    · rw [if_pos h]
      intro e he
      cases he
    · rw [if_neg h]
      exact (hv1 j).2.2

theorem valid_osmPass2 (n : Nfa) (hv : ValidNfa n) : ValidNfa n.osmPass2 := by
  rw [validNfa_iff_pointwise] at hv ⊢
  obtain ⟨hi1, hi2, hi3⟩ := osmPass2_inits n
  rw [osmPass2_length, hi1, hi2, hi3]
  obtain ⟨hv1, hv2, hv3, hv4⟩ := hv
  refine ⟨?_, hv2, hv3, hv4⟩
  intro j
  rw [osmPass2_epsAt, osmPass2_predsAt, osmPass2_consAt]
  refine ⟨(hv1 j).1, ?_, (hv1 j).2.2⟩
  by_cases h : (accAt n j).is_always = true ∧ j < n.states.length
  · rw [if_pos h]
    intro e he
    cases he
  · rw [if_neg h]
    exact (hv1 j).2.1

theorem bounded_osmPass1 (n : Nfa) (hb : BoundedAccepts n) :
    BoundedAccepts n.osmPass1 := by
  obtain ⟨hlen, hacc, _⟩ := osmPass1_spec n hb
  exact boundedAccepts_congr n n.osmPass1 hlen hacc hb

theorem bounded_osmPass2 (n : Nfa) (hb : BoundedAccepts n) :
    BoundedAccepts n.osmPass2 :=
  boundedAccepts_congr n n.osmPass2 (osmPass2_length n) (osmPass2_accAt n) hb

theorem trim_consAt (m : Nfa) (j : Nat) (hj : j < (Nfa.trimNewToOld m).length) :
    consAt m.trim_unreachable j
      = (consAt m ((Nfa.trimNewToOld m).getD j 0)).filterMap
          (fun e => (Nfa.trimMapState m e.2).map (fun y => (e.1, y))) := by
  unfold consAt
  rw [trim_states_getD m j hj]
  rfl

theorem trim_epsAt (m : Nfa) (j : Nat) (hj : j < (Nfa.trimNewToOld m).length) :
    epsAt m.trim_unreachable j
      = (epsAt m ((Nfa.trimNewToOld m).getD j 0)).filterMap (Nfa.trimMapState m) := by
  unfold epsAt
  rw [trim_states_getD m j hj]
  rfl

theorem trim_predsAt (m : Nfa) (j : Nat) (hj : j < (Nfa.trimNewToOld m).length) :
    predsAt m.trim_unreachable j
      = (predsAt m ((Nfa.trimNewToOld m).getD j 0)).filterMap
          (fun e => (Nfa.trimMapState m e.2).map (fun y => (e.1, y))) := by
  unfold predsAt
  rw [trim_states_getD m j hj]
  rfl

theorem trim_accAt (m : Nfa) (j : Nat) (hj : j < (Nfa.trimNewToOld m).length) :
    accAt m.trim_unreachable j = accAt m ((Nfa.trimNewToOld m).getD j 0) := by
  unfold accAt
  rw [trim_states_getD m j hj]

theorem trim_init_def (m : Nfa) :
    m.trim_unreachable.init = ((m.init : List Nat).filterMap (Nfa.trimMapState m)
      : List Nat) := rfl

theorem trim_ias_def (m : Nfa) :
    m.trim_unreachable.init_at_start
      = ((m.init_at_start : List Nat).filterMap (Nfa.trimMapState m) : List Nat) := rfl

theorem trim_iac_def (m : Nfa) :
    m.trim_unreachable.init_after_char
      = CharMap.map_values m.init_after_char
          (fun x => (x : List Nat).filterMap (Nfa.trimMapState m)) := rfl

theorem valid_trim (m : Nfa) : ValidNfa m.trim_unreachable := by
  rw [validNfa_iff_pointwise]
  have hlen := trim_states_length m
  rw [hlen]
  have htgt : ∀ (L : List Nat) (x : Nat),
      x ∈ L.filterMap (Nfa.trimMapState m) → x < (Nfa.trimNewToOld m).length := by
    intro L x hx
    obtain ⟨t, _, hmap⟩ := List.mem_filterMap.mp hx
    exact (trimMapState_inv m t x hmap).1
  refine ⟨?_, ?_, ?_, ?_⟩
  · intro j
    by_cases hj : j < (Nfa.trimNewToOld m).length
    · rw [trim_consAt m j hj, trim_epsAt m j hj, trim_predsAt m j hj]
      refine ⟨?_, ?_, ?_⟩
      · intro e he
        obtain ⟨e0, _, hme⟩ := List.mem_filterMap.mp he
        obtain ⟨y, hy, hey⟩ := Option.map_eq_some'.mp hme
        rw [← hey]
        exact (trimMapState_inv m e0.2 y hy).1
      · intro t ht
        exact htgt _ t ht
      · intro e he
        obtain ⟨e0, _, hme⟩ := List.mem_filterMap.mp he
        obtain ⟨y, hy, hey⟩ := Option.map_eq_some'.mp hme
        rw [← hey]
        exact (trimMapState_inv m e0.2 y hy).1
    · have hge := Nat.le_of_not_lt hj
      rw [← hlen] at hge
      rw [consAt_out_of_range _ _ hge, epsAt_out_of_range _ _ hge,
        predsAt_out_of_range _ _ hge]
      refine ⟨?_, ?_, ?_⟩ <;> intro e he <;> cases he
  · intro i hi
    rw [trim_init_def] at hi
    exact htgt _ i hi
  · intro i hi
    rw [trim_ias_def] at hi
    exact htgt _ i hi
  · intro e he
    rw [trim_iac_def] at he
    unfold CharMap.map_values at he
    obtain ⟨e0, _, hee⟩ := List.mem_map.mp he
    intro i hi
    rw [← hee] at hi
    exact htgt _ i hi

theorem bounded_trim (m : Nfa) (hb : BoundedAccepts m) :
    BoundedAccepts m.trim_unreachable := by
  intro st hst r hr
  obtain ⟨j, hj, hgd⟩ := List.mem_iff_getElem.mp hst
  have hj' : j < (Nfa.trimNewToOld m).length := by
    rw [← trim_states_length m]
    exact hj
  have hacc : accAt m.trim_unreachable j = st.accept := by
    unfold accAt
    rw [List.getD_eq_getElem _ _ hj, hgd]
  rw [trim_accAt m j hj'] at hacc
  refine accAt_bounded m hb ((Nfa.trimNewToOld m).getD j 0) r ?_
  rw [hacc]
  exact hr

theorem list_modify_id {α : Type} (l : List α) (f : α → α) (i : Nat)
    (h : ∀ x, l[i]? = some x → f x = x) : l.modify f i = l := by
  apply List.ext_getElem?
  intro j
  rw [List.getElem?_modify]
  by_cases hij : i = j
  · subst hij
    cases hx : l[i]? with
    | none => simp
    | some x => simp [h x hx]
  · simp [hij]

theorem list_map_id_of {α : Type} (f : α → α) :
    ∀ (l : List α), (∀ x ∈ l, f x = x) → l.map f = l := by
  intro l
  induction l with
  | nil => intro _; rfl
  | cons x xs ih =>
    intro h
    rw [List.map_cons, h x (List.mem_cons_self x xs),
      ih (fun y hy => h y (List.mem_cons_of_mem x hy))]

theorem filterMap_some_id {α : Type} (f : α → Option α) :
    ∀ (L : List α), (∀ x ∈ L, f x = some x) → L.filterMap f = L := by
  intro L
  induction L with
  | nil => intro _; rfl
  | cons x xs ih =>
    intro h
    rw [List.filterMap_cons, h x (List.mem_cons_self x xs)]
    dsimp only
    rw [ih (fun y hy => h y (List.mem_cons_of_mem x hy))]

theorem filterMap_pair_id {α : Type} (f : Nat → Option Nat) :
    ∀ (L : List (α × Nat)), (∀ e ∈ L, f e.2 = some e.2) →
      L.filterMap (fun e => (f e.2).map (fun y => (e.1, y))) = L := by
  intro L
  induction L with
  | nil => intro _; rfl
  | cons x xs ih =>
    intro h
    have hx : (f x.2).map (fun y => (x.1, y)) = some x := by
      rw [h x (List.mem_cons_self x xs)]
      rfl
    rw [List.filterMap_cons, hx]
    dsimp only
    rw [ih (fun y hy => h y (List.mem_cons_of_mem x hy))]

theorem osmPass1_id_of (n1 : Nfa)
    (hfix : ∀ j, j < n1.states.length → osmCond n1 j = true →
      predsAt n1 j = [] ∧ consAt n1 j = []) :
    n1.osmPass1 = n1 := by
  unfold Nfa.osmPass1
  refine foldl_preserve Nfa.osmStep1 (fun acc => acc = n1) ?_
    (List.range n1.states.length) n1 rfl
  intro acc i hacc
  subst hacc
  rw [osmStep1_eq]
  by_cases hc : osmCond acc i = true
  · rw [if_pos hc]
    have hmod : acc.states.modify (fun st =>
        { st with transitions :=
          { st.transitions with predicates := [], consuming := CharMultiMap.new } }) i
        = acc.states := by
      apply list_modify_id
      intro st hst
      have hlt : i < acc.states.length := by
        by_contra hge
        rw [List.getElem?_eq_none (Nat.le_of_not_lt hge)] at hst
        cases hst
      obtain ⟨hp, hcn⟩ := hfix i hlt hc
      unfold predsAt at hp
      unfold consAt at hcn
      rw [List.getD_eq_getElem?_getD, hst] at hp hcn
      cases st with
      | mk tr a d =>
        cases tr with
        | mk cons eps preds =>
          simp only [Option.getD_some] at hp hcn
          simp [CharMultiMap.new, hp, hcn]
    rw [hmod]
  · rw [if_neg hc]

theorem osmPass2_id_of (n1 : Nfa)
    (hfix : ∀ j, j < n1.states.length →
      (accAt n1 j).is_always = true → epsAt n1 j = []) :
    n1.osmPass2 = n1 := by
  unfold Nfa.osmPass2
  have hmap : n1.states.map (fun st =>
      if st.accept.is_always then
        { st with transitions := { st.transitions with eps := [] } }
      else st) = n1.states := by
    apply list_map_id_of
    intro st hst
    by_cases ha : st.accept.is_always = true
    · rw [if_pos ha]
      obtain ⟨j, hj, hgd⟩ := List.mem_iff_getElem.mp hst
      have haj : accAt n1 j = st.accept := by
        unfold accAt
        rw [List.getD_eq_getElem _ _ hj, hgd]
      have hej : epsAt n1 j = st.transitions.eps := by
        unfold epsAt
        rw [List.getD_eq_getElem _ _ hj, hgd]
      have heps := hfix j hj (by rw [haj]; exact ha)
      rw [hej] at heps
      cases st with
      | mk tr a d =>
        cases tr with
        | mk cons eps preds =>
          simp only [] at heps
          simp [heps]
    · rw [if_neg ha]
  rw [hmap]

theorem getD_range (n j : Nat) (hj : j < n) : (List.range n).getD j 0 = j := by
  rw [List.getD_eq_getElem _ _ (by simpa using hj)]
  simp

theorem map_getD_range {α : Type} (l : List α) (d : α) :
    (List.range l.length).map (fun i => l.getD i d) = l := by
  apply List.ext_getElem
  · simp
  · intro j h1 h2
    simp only [List.getElem_map, List.getElem_range]
    rw [List.getD_eq_getElem _ _ h2]

theorem trim_id_of (n1 : Nfa) (hv : ValidNfa n1)
    (hall : ∀ j, j < n1.states.length → j ∈ n1.reachable_states) :
    n1.trim_unreachable = n1 := by
  have hNTO : Nfa.trimNewToOld n1 = List.range n1.states.length := by
    unfold Nfa.trimNewToOld
    apply List.filter_eq_self.mpr
    intro i hi
    rw [List.mem_range] at hi
    exact List.elem_eq_true_of_mem (hall i hi)
  have hmap : ∀ t, t < n1.states.length → Nfa.trimMapState n1 t = some t := by
    intro t ht
    have hfwd := trimMapState_fwd n1 t (by rw [hNTO]; simpa using ht)
    rw [hNTO, getD_range _ _ ht] at hfwd
    exact hfwd
  have hstates : n1.trim_unreachable.states = n1.states := by
    unfold Nfa.trim_unreachable
    dsimp only []
    rw [hNTO, map_getD_range]
    apply list_map_id_of
    intro st hst
    obtain ⟨hc, he, hp⟩ := hv.1 st hst
    unfold NfaTransitions.filter_map_targets
    cases st with
    | mk tr a d =>
      cases tr with
      | mk cons eps preds =>
        have h1 := filterMap_pair_id (Nfa.trimMapState n1) cons
          (fun e hee => hmap e.2 (hc e hee))
        have h2 := filterMap_some_id (Nfa.trimMapState n1) eps
          (fun t ht => hmap t (he t ht))
        have h3 := filterMap_pair_id (Nfa.trimMapState n1) preds
          (fun e hee => hmap e.2 (hp e hee))
        rw [h1, h2, h3]
  have hinit : n1.trim_unreachable.init = n1.init := by
    rw [trim_init_def]
    exact filterMap_some_id _ _ (fun t ht => hmap t (hv.2.1 t ht))
  have hias : n1.trim_unreachable.init_at_start = n1.init_at_start := by
    rw [trim_ias_def]
    exact filterMap_some_id _ _ (fun t ht => hmap t (hv.2.2.1 t ht))
  have hiac : n1.trim_unreachable.init_after_char = n1.init_after_char := by
    rw [trim_iac_def]
    unfold CharMap.map_values
    apply list_map_id_of
    intro e he
    have hset : (e.2 : List Nat).filterMap (Nfa.trimMapState n1) = e.2 :=
      filterMap_some_id _ _ (fun t ht => hmap t (hv.2.2.2 e he t ht))
    show (e.1, (e.2 : List Nat).filterMap (Nfa.trimMapState n1)) = e
    rw [hset]
  rw [show n1.trim_unreachable
      = Nfa.mk n1.trim_unreachable.states n1.trim_unreachable.init
          n1.trim_unreachable.init_at_start n1.trim_unreachable.init_after_char
      from rfl, hstates, hinit, hias, hiac]

theorem trim_epsStep_lift (m : Nfa) (j k : Nat)
    (hj : j < (Nfa.trimNewToOld m).length)
    (h : m.trim_unreachable.EpsStep j k) :
    k < (Nfa.trimNewToOld m).length ∧
      m.EpsStep ((Nfa.trimNewToOld m).getD j 0) ((Nfa.trimNewToOld m).getD k 0) := by
  have h' : k ∈ epsAt m.trim_unreachable j := h
  rw [trim_epsAt m j hj] at h'
  obtain ⟨t, ht, hmapk⟩ := List.mem_filterMap.mp h'
  obtain ⟨hk, hgd⟩ := trimMapState_inv m t k hmapk
  refine ⟨hk, ?_⟩
  show (Nfa.trimNewToOld m).getD k 0 ∈ epsAt m ((Nfa.trimNewToOld m).getD j 0)
  rw [hgd]
  exact ht

theorem trim_epsReaches_lift (m : Nfa) (j : Nat)
    (hj : j < (Nfa.trimNewToOld m).length) :
    ∀ x, m.trim_unreachable.EpsReaches j x →
      x < (Nfa.trimNewToOld m).length ∧
        m.EpsReaches ((Nfa.trimNewToOld m).getD j 0)
          ((Nfa.trimNewToOld m).getD x 0) := by
  intro x hr
  induction hr with
  | refl => exact ⟨hj, Relation.ReflTransGen.refl⟩
  | tail hab hbc ih =>
    obtain ⟨hblt, hreach⟩ := ih
    obtain ⟨hclt, hstep⟩ := trim_epsStep_lift m _ _ hblt hbc
    exact ⟨hclt, Relation.ReflTransGen.tail hreach hstep⟩

theorem osmCond_trim_lift (m : Nfa) (hbm : BoundedAccepts m) (j : Nat)
    (hj : j < (Nfa.trimNewToOld m).length)
    (hc : osmCond m.trim_unreachable j = true) :
    osmCond m ((Nfa.trimNewToOld m).getD j 0) = true := by
  have hbt : BoundedAccepts m.trim_unreachable := bounded_trim m hbm
  rw [osmCond_iff _ hbt] at hc
  rw [osmCond_iff _ hbm]
  obtain ⟨⟨b, hrb, heoi⟩, hcov⟩ := hc
  obtain ⟨hblt, hreach⟩ := trim_epsReaches_lift m j hj b hrb
  constructor
  · refine ⟨(Nfa.trimNewToOld m).getD b 0, hreach, ?_⟩
    rw [← trim_accAt m b hblt]
    exact heoi
  · intro c hcle
    obtain ⟨b2, hrb2, hcv⟩ := hcov c hcle
    obtain ⟨hblt2, hreach2⟩ := trim_epsReaches_lift m j hj b2 hrb2
    refine ⟨(Nfa.trimNewToOld m).getD b2 0, hreach2, ?_⟩
    rw [← trim_accAt m b2 hblt2]
    exact hcv

theorem osmCond_passes_lift (n : Nfa) (hb : BoundedAccepts n) (i : Nat)
    (hc : osmCond n.osmPass1.osmPass2 i = true) : osmCond n i = true := by
  obtain ⟨hlen1, hacc1, hdfa1, heps1, hrest⟩ := osmPass1_spec n hb
  have hb1 : BoundedAccepts n.osmPass1 := bounded_osmPass1 n hb
  have hb2 : BoundedAccepts n.osmPass1.osmPass2 := bounded_osmPass2 _ hb1
  rw [osmCond_iff _ hb2] at hc
  rw [osmCond_iff _ hb]
  have hstep : ∀ a b, n.osmPass1.osmPass2.EpsStep a b → n.EpsStep a b := by
    intro a b hs
    have hs' : b ∈ epsAt n.osmPass1.osmPass2 a := hs
    rw [osmPass2_epsAt] at hs'
    by_cases hcond : (accAt n.osmPass1 a).is_always = true
        ∧ a < n.osmPass1.states.length
    · rw [if_pos hcond] at hs'
      cases hs'
    · rw [if_neg hcond] at hs'
      rw [heps1 a] at hs'
      exact hs'
  have hreach : ∀ a b, n.osmPass1.osmPass2.EpsReaches a b → n.EpsReaches a b :=
    fun a b h => Relation.ReflTransGen.mono (fun x y hxy => hstep x y hxy) h
  have haccM : ∀ b, accAt n.osmPass1.osmPass2 b = accAt n b := by
    intro b
    rw [osmPass2_accAt, hacc1 b]
  obtain ⟨⟨b, hrb, heoi⟩, hcov⟩ := hc
  constructor
  · refine ⟨b, hreach i b hrb, ?_⟩
    rw [← haccM b]
    exact heoi
  · intro c hcle
    obtain ⟨b2, hrb2, hcv⟩ := hcov c hcle
    refine ⟨b2, hreach i b2 hrb2, ?_⟩
    rw [← haccM b2]
    exact hcv

/-- **C7**: `optimize_for_shortest_match` is idempotent.  Under the spec's
standing in-range invariant (`ValidNfa`) and the guarantee of Rust's
`char` type for the accept profiles (`BoundedAccepts`), applying
`optimize_for_shortest_match` twice in succession yields exactly the same
`Nfa` — the same states with the same transitions and accept profiles and
the same initial-state structures — as applying it once. -/
theorem optimize_for_shortest_match_idempotent (nfa : Nfa)
    (hv : ValidNfa nfa) (hb : BoundedAccepts nfa) :
    nfa.optimize_for_shortest_match.optimize_for_shortest_match
      = nfa.optimize_for_shortest_match := by
  have hb1 : BoundedAccepts nfa.osmPass1 := bounded_osmPass1 nfa hb
  have hbm : BoundedAccepts nfa.osmPass1.osmPass2 := bounded_osmPass2 _ hb1
  have hv1 : ValidNfa nfa.osmPass1 := valid_osmPass1 nfa hb hv
  have hvm : ValidNfa nfa.osmPass1.osmPass2 := valid_osmPass2 _ hv1
  have hvN1 : ValidNfa nfa.osmPass1.osmPass2.trim_unreachable := valid_trim _
  obtain ⟨hlen1, hacc1, hdfa1, heps1, hi11, hi12, hi13, hpreds1, hcons1⟩ :=
    osmPass1_spec nfa hb
  have hlenm : nfa.osmPass1.osmPass2.states.length = nfa.states.length := by
    rw [osmPass2_length, hlen1]
  have hfix1 : ∀ j, j < nfa.osmPass1.osmPass2.trim_unreachable.states.length →
      osmCond nfa.osmPass1.osmPass2.trim_unreachable j = true →
      predsAt nfa.osmPass1.osmPass2.trim_unreachable j = [] ∧
      consAt nfa.osmPass1.osmPass2.trim_unreachable j = [] := by
    intro j hjlen hcnd
    have hj : j < (Nfa.trimNewToOld nfa.osmPass1.osmPass2).length := by
      rw [← trim_states_length]
      exact hjlen
    have hcm := osmCond_trim_lift _ hbm j hj hcnd
    have hcn := osmCond_passes_lift nfa hb _ hcm
    have holdmem : (Nfa.trimNewToOld nfa.osmPass1.osmPass2).getD j 0
        ∈ Nfa.trimNewToOld nfa.osmPass1.osmPass2 := by
      rw [List.getD_eq_getElem _ _ hj]
      exact List.getElem_mem hj
    have holdlt := ((mem_trimNewToOld _ _).mp holdmem).1
    rw [hlenm] at holdlt
    have hpm : predsAt nfa.osmPass1.osmPass2
        ((Nfa.trimNewToOld nfa.osmPass1.osmPass2).getD j 0) = [] := by
      rw [osmPass2_predsAt, hpreds1, if_pos ⟨hcn, holdlt⟩]
    have hcm2 : consAt nfa.osmPass1.osmPass2
        ((Nfa.trimNewToOld nfa.osmPass1.osmPass2).getD j 0) = [] := by
      rw [osmPass2_consAt, hcons1, if_pos ⟨hcn, holdlt⟩]
    constructor
    · rw [trim_predsAt _ j hj, hpm, List.filterMap_nil]
    · rw [trim_consAt _ j hj, hcm2, List.filterMap_nil]
  have hfix2 : ∀ j, j < nfa.osmPass1.osmPass2.trim_unreachable.states.length →
      (accAt nfa.osmPass1.osmPass2.trim_unreachable j).is_always = true →
      epsAt nfa.osmPass1.osmPass2.trim_unreachable j = [] := by
    intro j hjlen ha
    have hj : j < (Nfa.trimNewToOld nfa.osmPass1.osmPass2).length := by
      rw [← trim_states_length]
      exact hjlen
    have holdmem : (Nfa.trimNewToOld nfa.osmPass1.osmPass2).getD j 0
        ∈ Nfa.trimNewToOld nfa.osmPass1.osmPass2 := by
      rw [List.getD_eq_getElem _ _ hj]
      exact List.getElem_mem hj
    have holdlt := ((mem_trimNewToOld _ _).mp holdmem).1
    rw [osmPass2_length] at holdlt
    rw [trim_accAt _ j hj, osmPass2_accAt, hacc1] at ha
    have hem : epsAt nfa.osmPass1.osmPass2
        ((Nfa.trimNewToOld nfa.osmPass1.osmPass2).getD j 0) = [] := by
      rw [osmPass2_epsAt,
        if_pos ⟨by rw [hacc1]; exact ha, holdlt⟩]
    rw [trim_epsAt _ j hj, hem, List.filterMap_nil]
  have hall : ∀ j, j < nfa.osmPass1.osmPass2.trim_unreachable.states.length →
      j ∈ nfa.osmPass1.osmPass2.trim_unreachable.reachable_states := by
    intro j hjlen
    have hj : j < (Nfa.trimNewToOld nfa.osmPass1.osmPass2).length := by
      rw [← trim_states_length]
      exact hjlen
    exact (mem_reachable_states _ hvN1 j).mpr (trim_postcondition _ hvm j hj)
  rw [osm_eq nfa, osm_eq nfa.osmPass1.osmPass2.trim_unreachable,
    osmPass1_id_of _ hfix1, osmPass2_id_of _ hfix2,
    trim_id_of _ hvN1 hall]

/-- Witness for C7 at a concrete input: the valid two-state automaton with
one edge of each kind and a bounded accept profile. -/
theorem optimize_for_shortest_match_idempotent_witness :
    ValidNfa nfaTwoEdges ∧ BoundedAccepts nfaTwoEdges ∧
    nfaTwoEdges.optimize_for_shortest_match.optimize_for_shortest_match
      = nfaTwoEdges.optimize_for_shortest_match :=
  ⟨by decide, by decide,
    optimize_for_shortest_match_idempotent nfaTwoEdges (by decide) (by decide)⟩
